import Mathlib

/-!
# yadro_course search services: a verification development

Shallow embedding of the Go sources under `search-services/`:

* `search/core/service.go`     (inverted index, `SearchIndex`)
* `update/core/service.go`     (ingest engine, `Update`, `splitWordsIntoChunks`)
* `api/adapters/aaa/auth.go`   (token authority, `Login`, `Verify`)
* `api/core/concurrency_service.go`, `api/core/rate_limiter_service.go`

Conventions.  A Go `string` is its byte sequence (`len` is the byte count), a
Go `int` is an `Int`, a Go `map[K]V` is a duplicate-free association list
whose list order stands for one iteration order, a Go `error` result is a
constructor of `Result`.
-/

namespace Yadro

/-! ## Common Go data -/

/-- Go `string`: an immutable byte sequence; `len(s)` is `s.length`. -/
abbrev GoString := List UInt8

/-- Go `map[K]V`: finitely many bindings with pairwise different keys. -/
abbrev GoMap (κ ν : Type) := AList (fun _ : κ => ν)

/-- Go `error` values that the services return (sentinels of `core/errors.go`
and errors handed up from collaborators). -/
inductive GoError where
  | ErrBadArguments
  | ErrAlreadyExists
  | ErrNotFound
  | ErrUnauthorized
  | ErrStarting
  | other (msg : GoString)
  deriving DecidableEq, Repr

deriving instance DecidableEq for Except

/-- Outcome of a method of the services: a value with `err == nil`, a non-nil
`err`, or a run-time panic.  Collaborators behind an interface answer with an
`Except GoError`. -/
inductive Result (α : Type) where
  | ok (a : α)
  | error (e : GoError)
  | panic
  deriving DecidableEq, Repr

/-! ## search/core -/

namespace Search

/-- Struct `Comics` of `search/core/models.go`. -/
structure Comics where
  ID : Int
  URL : GoString
  deriving DecidableEq, Repr

/-- Struct `SearchReply`. -/
structure SearchReply where
  Comics : List Comics
  deriving DecidableEq, Repr

/-- Field `Service.index`, a `map[string]map[int]bool`. -/
abbrev Index := GoMap GoString (GoMap Int Bool)

/-- Local struct `ComicScore` of `SearchIndex`. -/
structure ComicScore where
  ID : Int
  Score : Int
  deriving DecidableEq, Repr

/-- Statement `comicsMatches[comicId]++` on a `map[int]int`. -/
def incr (cm : GoMap Int Int) (comicId : Int) : GoMap Int Int :=
  cm.insert comicId ((cm.lookup comicId).getD 0 + 1)

/-- Loop `for comicId := range comics { comicsMatches[comicId]++ }`. -/
def countEntry (cm : GoMap Int Int) (comics : GoMap Int Bool) : GoMap Int Int :=
  comics.keys.foldl incr cm

/-- Loop over the query words that fills `comicsMatches`. -/
def countMatches (index : Index) (words : List GoString) : GoMap Int Int :=
  words.foldl
    (fun cm word =>
      match index.lookup word with
      | some comics => countEntry cm comics
      | none => cm)
    ∅

/-- Comparison closure handed to `sort.Slice`:
equal scores compare by id ascending, otherwise by score descending. -/
def less (a b : ComicScore) : Bool :=
  if a.Score = b.Score then decide (a.ID < b.ID) else decide (a.Score > b.Score)

/-- Order that `sort.Slice` establishes: no later element is `less` than an
earlier one. -/
def notAfter (a b : ComicScore) : Prop := less b a = false

instance : DecidableRel notAfter := fun a b => by
  unfold notAfter
  exact inferInstance

/-- Call `sort.Slice(scoredComics, less)`, as an insertion sort.  The elements
have pairwise different ids, so every sorting algorithm yields this list
(`sortSlice_unique`). -/
def sortSlice (scoredComics : List ComicScore) : List ComicScore :=
  scoredComics.insertionSort notAfter

/-- Method `DB.GetById` of `search/adapters/db/storage.go`; `row id` is the
outcome of `SELECT url FROM comics WHERE id = $1`. -/
def GetById (row : Int → Except GoError GoString) (id : Int) : Except GoError Comics :=
  match row id with
  | .ok url => .ok { ID := id, URL := url }
  | .error e => .error e

/-- Loop that hydrates the ranked ids; an id whose `GetById` fails is left out. -/
def hydrate (row : Int → Except GoError GoString) (result : List Int) : List Comics :=
  result.filterMap
    (fun index =>
      match GetById row index with
      | .ok comicsRaw => some comicsRaw
      | _ => none)

/-- Method `Service.SearchIndex`.  `norm` is the outcome of `s.words.Norm` on
the phrase, `order` the order in which `range comicsMatches` visits the map,
`limit` is `request.Limit`. -/
def SearchIndex (index : Index) (row : Int → Except GoError GoString)
    (order : List ComicScore → List ComicScore)
    (norm : Except GoError (List GoString)) (limit : Int) : Result SearchReply :=
  match norm with
  | .error e => .error e
  | .ok words =>
    let comicsMatches := countMatches index words
    if comicsMatches.entries.length = 0 then .ok { Comics := [] }
    else
      let scoredComics :=
        order (comicsMatches.entries.map (fun p => { ID := p.1, Score := p.2 }))
      let sorted := sortSlice scoredComics
      let resultCount : Int := min (sorted.length : Int) limit
      -- `make([]int, resultCount)` panics on a negative length
      if resultCount < 0 then .panic
      else
        let result := (sorted.take resultCount.toNat).map (·.ID)
        .ok { Comics := hydrate row result }

/-- Number of query tokens whose index entry contains the comic (the match
count of the specification). -/
def matchCount (index : Index) (words : List GoString) (id : Int) : Nat :=
  (words.filter
    (fun word =>
      match index.lookup word with
      | some comics => decide (id ∈ comics.keys)
      | none => false)).length

/-- The word `"test"`. -/
def kTest : GoString := [0x74, 0x65, 0x73, 0x74]

/-- Index of `TestService_SearchIndex_TieBreaking`: the word `"test"` with the
comics 5, 1, 3, 2, 4. -/
def tieIndex : Index :=
  (∅ : Index).insert kTest
    (((((∅ : GoMap Int Bool).insert 5 true).insert 1 true).insert 3 true).insert 2 true
      |>.insert 4 true)

/-- Persistence in which every comic has the empty url. -/
def tieRow (_ : Int) : Except GoError GoString := .ok []

/-- Struct `IndexInfoOne`: a word with the ids of the comics that hold it. -/
structure IndexInfoOne where
  Word : GoString
  Comics_ids : List Int
  deriving DecidableEq, Repr

/-- Body of the outer loop of `UpdateIndex` for one `(word, ids)` pair: a word
that is not in the index gets an empty map, then every listed id is set to
`true` in the map of the word. -/
def updateEntry (index : Index) (comics : IndexInfoOne) : Index :=
  let index1 : Index :=
    if (index.lookup comics.Word).isSome then index else index.insert comics.Word ∅
  let tmp : GoMap Int Bool := (index1.lookup comics.Word).getD ∅
  let tmp1 : GoMap Int Bool := comics.Comics_ids.foldl (fun tmp id => tmp.insert id true) tmp
  index1.insert comics.Word tmp1

/-- Method `Service.UpdateIndex`: what it returns and the index it leaves.
`findAll` is the outcome of `s.db.FindAll`. -/
def UpdateIndex (index : Index) (findAll : Except GoError (List IndexInfoOne)) :
    Except GoError Unit × Index :=
  match findAll with
  | .error e => (.error e, index)
  | .ok comics => (.ok (), comics.foldl updateEntry index)

/-- Ids recorded for a word in the index (none for a word without an entry). -/
def idSet (index : Index) (word : GoString) : List Int :=
  match index.lookup word with
  | some comics => comics.keys
  | none => []

/-- The word `"hello"`. -/
def kHello : GoString := [0x68, 0x65, 0x6c, 0x6c, 0x6f]

/-- Persistence in which only comic 1 can be read. -/
def onlyFirstRow (id : Int) : Except GoError GoString :=
  if id = 1 then .ok [] else .error (.other [])

/-- Invariant of the counting loops: the map holds exactly the positive values of `f`. -/
def Tallies (cm : GoMap Int Int) (f : Int → Nat) : Prop :=
  ∀ id, cm.lookup id = if f id = 0 then none else some (f id : Int)

/-- Ranking of the specification on comic ids: higher match count first, equal
counts by ascending id. -/
def rankedBefore (index : Index) (words : List GoString) (a b : Int) : Prop :=
  matchCount index words b < matchCount index words a
    ∨ (matchCount index words a = matchCount index words b ∧ a < b)

end Search

/-! ## update/core -/

namespace UpdateCore

/-- Constant `maxChunkSize = 4 * 1024`. -/
def maxChunkSize : Int := 4 * 1024

/-- Struct `XKCDInfo`, with the fields that `getComicsById` and the xkcd
adapter use. -/
structure XKCDInfo where
  ID : Int
  URL : GoString
  Title : GoString
  Description : GoString
  SafeTitle : GoString
  Transcript : GoString
  deriving DecidableEq, Repr

/-- Struct `Comics` of the update service, as built in `getComicsById`. -/
structure Comics where
  ID : Int
  URL : GoString
  Words : List GoString
  deriving DecidableEq, Repr

/-- Answers of the collaborators of `Service` (interfaces `XKCD`, `DB`, `Words`,
`DBPublisher`) and of the library function `strings.Fields`. -/
structure Env where
  LastID : Except GoError Int
  IDs : Except GoError (List Int)
  Get : Int → Except GoError XKCDInfo
  Norm : GoString → Except GoError (List GoString)
  Add : Comics → Except GoError Unit
  SendDBChangedEvent : Except GoError Unit
  Fields : GoString → List GoString

/-- One call that the service makes on a collaborator. -/
inductive Call where
  | LastID
  | IDs
  | Get (id : Int)
  | Norm (chunk : GoString)
  | Add (comics : Comics)
  | SendDBChangedEvent
  deriving DecidableEq, Repr

/-- Mutable fields of `Service`: `mu` (true when locked) and
`updateProcessing`. -/
structure State where
  mu : Bool
  updateProcessing : Bool
  deriving DecidableEq, Repr

/-- Immutable field `Service.concurrency`. -/
structure Service where
  concurrency : Int
  deriving DecidableEq, Repr

/-- Constructor `NewService`: rejects a concurrency below 1. -/
def NewService (concurrency : Int) : Except GoError Service :=
  if concurrency < 1 then .error (.other []) else .ok { concurrency := concurrency }

/-- State of the loop in `splitWordsIntoChunks`: the `chunks` slice and the
content of the `strings.Builder`. -/
structure Builder where
  chunks : List GoString
  currentChunk : GoString
  deriving DecidableEq, Repr

/-- Body of the loop `for _, word := range words` in `splitWordsIntoChunks`. -/
def splitStep (maxSize : Int) (b : Builder) (word : GoString) : Builder :=
  let b1 : Builder :=
    if (b.currentChunk.length : Int) + (word.length : Int) + 1 > maxSize
        ∧ b.currentChunk.length > 0 then
      { chunks := b.chunks ++ [b.currentChunk], currentChunk := [] }
    else b
  let cur : GoString :=
    if b1.currentChunk.length > 0 then b1.currentChunk ++ [0x20] else b1.currentChunk
  { chunks := b1.chunks, currentChunk := cur ++ word }

/-- Tail of `splitWordsIntoChunks`: a non-empty builder becomes the last chunk. -/
def splitFinish (b : Builder) : List GoString :=
  if b.currentChunk.length > 0 then b.chunks ++ [b.currentChunk] else b.chunks

/-- Function `splitWordsIntoChunks`. -/
def splitWordsIntoChunks (words : List GoString) (maxSize : Int) : List GoString :=
  splitFinish (words.foldl (splitStep maxSize) { chunks := [], currentChunk := [] })

/-- Invariant of the packing loop: every closed chunk, and the open chunk
unless it is empty, is within `maxSize` or is one of the input words. -/
def Packed (words : List GoString) (maxSize : Int) (b : Builder) : Prop :=
  (∀ c ∈ b.chunks, (c.length : Int) ≤ maxSize ∨ c ∈ words)
    ∧ (b.currentChunk = [] ∨ (b.currentChunk.length : Int) ≤ maxSize
        ∨ b.currentChunk ∈ words)

/-- Library call `strings.Join(elems, " ")`. -/
def joinSpace (elems : List GoString) : GoString :=
  List.intercalate [0x20] elems

/-- Relation between two consecutive groups of words: the earlier group,
joined into a chunk, has no room for the first word of the later group. -/
def closesBefore (maxSize : Int) (g g1 : List GoString) : Prop :=
  ∀ w ∈ g1.head?, ((joinSpace g).length : Int) + 1 + (w.length : Int) > maxSize

/-- Invariant of the packing loop after the words `done`: the closed chunks and
the open chunk are the joins of consecutive non-empty groups of `done`, and
every group but the last was closed because the next word did not fit. -/
def Greedy (maxSize : Int) (b : Builder) (done : List GoString) : Prop :=
  ∃ (G : List (List GoString)) (g : List GoString),
    g ≠ [] ∧ (∀ x ∈ G, x ≠ [])
      ∧ b.chunks = G.map joinSpace ∧ b.currentChunk = joinSpace g
      ∧ (G ++ [g]).flatten = done
      ∧ (G ++ [g]).Chain' (closesBefore maxSize)

/-- Text of a comic that `getComicsById` splits into words:
`Title + " " + Description + " " + SafeTitle + " " + Transcript`. -/
def comicText (comicsRaw : XKCDInfo) : GoString :=
  comicsRaw.Title ++ [0x20] ++ comicsRaw.Description ++ [0x20]
    ++ comicsRaw.SafeTitle ++ [0x20] ++ comicsRaw.Transcript

/-- Concatenation of the normalizer's answers for the given chunks, in order
(a failing call contributes nothing). -/
def answers (env : Env) (chunks : List GoString) : List GoString :=
  chunks.flatMap
    (fun chunk =>
      match env.Norm chunk with
      | .ok normalized => normalized
      | .error _ => [])

/-- Loop of `getComicsById` that normalizes the chunks one after the other and
stops at the first error; returns the calls made and the words collected. -/
def normalizeChunks (env : Env) :
    List GoString → List GoString → List Call × Except GoError (List GoString)
  | [], finalNormalized => ([], .ok finalNormalized)
  | chunk :: rest, finalNormalized =>
    match env.Norm chunk with
    | .error e => ([Call.Norm chunk], .error e)
    | .ok normalized =>
      let r := normalizeChunks env rest (finalNormalized ++ normalized)
      (Call.Norm chunk :: r.1, r.2)

/-- First part of `getComicsById`: comic 404 is made up locally, every other
id is fetched with `s.xkcd.Get`. -/
def fetchRaw (env : Env) (i : Int) : List Call × Except GoError XKCDInfo :=
  if i = 404 then
    ([], .ok
      { ID := i
        URL := []
        Title := [0x34, 0x30, 0x34]                                           -- "404"
        Description := [0x4e, 0x6f, 0x74, 0x20, 0x66, 0x6f, 0x75, 0x6e, 0x64]  -- "Not found"
        SafeTitle := [0x34, 0x30, 0x34]
        Transcript := [0x4e, 0x6f, 0x74, 0x20, 0x66, 0x6f, 0x75, 0x6e, 0x64] })
  else ([Call.Get i], env.Get i)

/-- Second part of `getComicsById`: split the text into words, pack them into
chunks, normalize every chunk and build the `Comics` value. -/
def buildComics (env : Env) (comicsRaw : XKCDInfo) : List Call × Except GoError Comics :=
  let words := env.Fields
    (comicsRaw.Title ++ [0x20] ++ comicsRaw.Description ++ [0x20]
      ++ comicsRaw.SafeTitle ++ [0x20] ++ comicsRaw.Transcript)
  let chunks := splitWordsIntoChunks words maxChunkSize
  let n := normalizeChunks env chunks []
  match n.2 with
  | .error e => (n.1, .error e)
  | .ok finalNormalized =>
    (n.1, .ok { ID := comicsRaw.ID, URL := comicsRaw.URL, Words := finalNormalized })

/-- Function `getComicsById`: the calls it makes and what it returns. -/
def getComicsById (env : Env) (i : Int) : List Call × Except GoError Comics :=
  let fetched := fetchRaw env i
  match fetched.2 with
  | .error e => (fetched.1, .error e)
  | .ok comicsRaw =>
    let built := buildComics env comicsRaw
    (fetched.1 ++ built.1, built.2)

/-- Body of the loop of `worker` for one job: the calls it makes.  The outcome
of `Add` is only logged. -/
def workerJob (env : Env) (job : Int) : List Call :=
  let r := getComicsById env job
  match r.2 with
  | .error _ => r.1
  | .ok comics => r.1 ++ [Call.Add comics]

/-- Map `existingIDs` built from the ids of persistence. -/
def existingIDs (ids : List Int) : GoMap Int Bool :=
  ids.foldl (fun m id => m.insert id true) ∅

/-- State of the scheduling loop: the ids sent on `jobs` so far and
`shouldSendEvent`. -/
structure Schedule where
  jobs : List Int
  shouldSendEvent : Bool
  deriving DecidableEq, Repr

/-- Values that `i` takes in `for i := 1; i <= lastId; i++`: 1, 2, ..., lastId
(none when `lastId < 1`). -/
def loopIds (lastId : Int) : List Int :=
  (List.range' 1 lastId.toNat).map Int.ofNat

/-- Loop `for i := 1; i <= lastId; i++` of `Update`; a missing key of
`existingIDs` reads as `false`. -/
def schedule (lastId : Int) (existing : GoMap Int Bool) : Schedule :=
  (loopIds lastId).foldl
    (fun sch i =>
      if !((existing.lookup i).getD false) then
        { jobs := sch.jobs ++ [i], shouldSendEvent := true }
      else sch)
    { jobs := [], shouldSendEvent := false }

/-- What one invocation of `Update` does. -/
structure Outcome where
  result : Result Unit
  state : State
  calls : List Call
  jobs : List Int
  deriving DecidableEq, Repr

/-- Method `Service.Update`, started in state `st`.  The deferred statements
clear `updateProcessing` and unlock `mu` on every path after `TryLock`.  The
workers are run one job after the other in queue order, which is one schedule of
the pool; `jobs` lists the ids sent on the channel, in sending order.
`make(chan int, lastId)` panics on a negative size. -/
def Update (s : Service) (env : Env) (st : State) : Outcome :=
  if st.mu then
    { result := .error .ErrAlreadyExists, state := st, calls := [], jobs := [] }
  else
    let done : State := { mu := false, updateProcessing := false }
    match env.LastID with
    | .error e => { result := .error e, state := done, calls := [Call.LastID], jobs := [] }
    | .ok lastId =>
      match env.IDs with
      | .error e =>
        { result := .error e, state := done, calls := [Call.LastID, Call.IDs], jobs := [] }
      | .ok ids =>
        if lastId < 0 then
          { result := .panic, state := done, calls := [Call.LastID, Call.IDs], jobs := [] }
        else
          let sch := schedule lastId (existingIDs ids)
          let work : List Call :=
            if 0 < s.concurrency then sch.jobs.flatMap (workerJob env) else []
          let publish : List Call :=
            if sch.shouldSendEvent then [Call.SendDBChangedEvent] else []
          { result := .ok ()
            state := done
            calls := [Call.LastID, Call.IDs] ++ work ++ publish
            jobs := sch.jobs }

/-- Three words `"a"`, `"bcde"`, `"f"`. -/
def sampleWords : List GoString := [[0x61], [0x62, 0x63, 0x64, 0x65], [0x66]]

/-- Collaborators of `TestService_Update_Success`: the upstream knows 3 comics,
persistence holds comics 1 and 2, every other call succeeds. -/
def sampleEnv : Env :=
  { LastID := .ok 3
    IDs := .ok [1, 2]
    Get := fun i =>
      .ok { ID := i, URL := [], Title := [0x54], Description := [0x44],
            SafeTitle := [0x53], Transcript := [0x52] }
    Norm := fun _ => .ok [[0x74]]
    Add := fun _ => .ok ()
    SendDBChangedEvent := .ok ()
    Fields := fun text => [text] }

/-- Ids of the comics handed to `s.db.Add`, in call order. -/
def addedIds (calls : List Call) : List Int :=
  calls.filterMap
    (fun c =>
      match c with
      | Call.Add comics => some comics.ID
      | _ => none)

/-- Collaborators like `sampleEnv`, but every upstream fetch fails. -/
def failingEnv : Env :=
  { sampleEnv with Get := fun _ => .error .ErrNotFound }

/-- Collaborators of `TestService_Update_XKCDError`: `LastID` fails. -/
def xkcdErrorEnv : Env :=
  { sampleEnv with LastID := .error (.other [0x78, 0x6b, 0x63, 0x64]) }

/-- Collaborators like `sampleEnv`, but the upstream answers every fetch with
a record numbered 7. -/
def misnumberedEnv : Env :=
  { sampleEnv with
    Get := fun _ =>
      .ok { ID := 7, URL := [], Title := [0x54], Description := [0x44],
            SafeTitle := [0x53], Transcript := [0x52] } }

/-- Collaborators like `sampleEnv`, but the normalizer finds no token (as for
a text made of stop words only). -/
def noTokenEnv : Env :=
  { sampleEnv with Norm := fun _ => .ok [] }

/-- A word of 4096 bytes. -/
def longWord : GoString := List.replicate 4096 0x61

/-- Words of a long comic text: `"b"`, a word of 4096 bytes, `"b"` again. -/
def repeatWords : List GoString := [[0x62], longWord, [0x62]]

/-- Collaborators with one comic whose text has the words `repeatWords`; the
normalizer answers every chunk with that chunk as its only token, so each of
its answers is duplicate-free. -/
def repeatEnv : Env :=
  { LastID := .ok 1
    IDs := .ok []
    Get := fun i =>
      .ok { ID := i, URL := [], Title := [], Description := [], SafeTitle := [],
            Transcript := [] }
    Norm := fun chunk => .ok [chunk]
    Add := fun _ => .ok ()
    SendDBChangedEvent := .ok ()
    Fields := fun _ => repeatWords }

/-- Record that `getComicsById` makes up for id 404. -/
def record404 : XKCDInfo :=
  { ID := 404
    URL := []
    Title := [0x34, 0x30, 0x34]
    Description := [0x4e, 0x6f, 0x74, 0x20, 0x66, 0x6f, 0x75, 0x6e, 0x64]
    SafeTitle := [0x34, 0x30, 0x34]
    Transcript := [0x4e, 0x6f, 0x74, 0x20, 0x66, 0x6f, 0x75, 0x6e, 0x64] }

/-- Text `"404 Not found 404 Not found"`. -/
def text404 : GoString :=
  [0x34, 0x30, 0x34, 0x20, 0x4e, 0x6f, 0x74, 0x20, 0x66, 0x6f, 0x75, 0x6e, 0x64, 0x20, 0x34,
   0x30, 0x34, 0x20, 0x4e, 0x6f, 0x74, 0x20, 0x66, 0x6f, 0x75, 0x6e, 0x64]

/-- Words of `text404` as `strings.Fields` returns them:
`"404"`, `"Not"`, `"found"`, `"404"`, `"Not"`, `"found"`. -/
def words404 : List GoString :=
  [[0x34, 0x30, 0x34], [0x4e, 0x6f, 0x74], [0x66, 0x6f, 0x75, 0x6e, 0x64],
    [0x34, 0x30, 0x34], [0x4e, 0x6f, 0x74], [0x66, 0x6f, 0x75, 0x6e, 0x64]]

/-- Collaborators in which `strings.Fields` answers `words404` for `text404` and
the normalizer answers with the chunk as its only token. -/
def env404 : Env :=
  { sampleEnv with
    Fields := fun text => if text = text404 then words404 else [text]
    Norm := fun chunk => .ok [chunk] }

/-- Values of type `ServiceStatus` that `Status` returns. -/
inductive ServiceStatus where
  | StatusRunning
  | StatusIdle
  deriving DecidableEq, Repr

/-- Method `Service.Status`. -/
def Status (st : State) : ServiceStatus :=
  if st.updateProcessing then .StatusRunning else .StatusIdle

end UpdateCore

/-! ## words: the gRPC front of the normalizer -/

namespace WordsServer

/-- Status codes of gRPC with which `server.Norm` fails. -/
inductive Code where
  | ResourceExhausted
  deriving DecidableEq, Repr

/-- Method `server.Norm` of `words/main.go`; `norm` is the function
`words.Norm`. -/
def Norm (norm : GoString → List GoString) (phrase : GoString) :
    Except Code (List GoString) :=
  if phrase.length > 4096 then .error .ResourceExhausted else .ok (norm phrase)

end WordsServer

/-! ## api/adapters/aaa -/

namespace Auth

/-- Constant `secretKey = "something secret here"`. -/
def secretKey : GoString :=
  [0x73, 0x6f, 0x6d, 0x65, 0x74, 0x68, 0x69, 0x6e, 0x67, 0x20, 0x73, 0x65, 0x63, 0x72, 0x65, 0x74, 0x20, 0x68, 0x65, 0x72, 0x65]

/-- Constant `adminRole = "superuser"`. -/
def adminRole : GoString := [0x73, 0x75, 0x70, 0x65, 0x72, 0x75, 0x73, 0x65, 0x72]

/-- Name `"ADMIN_USER"` of the environment variable read by `New`. -/
def adminUser : GoString := [0x41, 0x44, 0x4d, 0x49, 0x4e, 0x5f, 0x55, 0x53, 0x45, 0x52]

/-- Name `"ADMIN_PASSWORD"` of the environment variable read by `New`. -/
def adminPass : GoString :=
  [0x41, 0x44, 0x4d, 0x49, 0x4e, 0x5f, 0x50, 0x41, 0x53, 0x53, 0x57, 0x4f, 0x52, 0x44]

/-- Claim names `"exp"`, `"authorized"`, `"sub"`, `"iat"`, `"nbf"`. -/
def kExp : GoString := [0x65, 0x78, 0x70]

def kAuthorized : GoString := [0x61, 0x75, 0x74, 0x68, 0x6f, 0x72, 0x69, 0x7a, 0x65, 0x64]

def kSub : GoString := [0x73, 0x75, 0x62]

def kIat : GoString := [0x69, 0x61, 0x74]

def kNbf : GoString := [0x6e, 0x62, 0x66]

/-- Dynamic value of a claim in `jwt.MapClaims` after JSON decoding.  A JSON
number (a `float64` in Go) is kept as an integer number of seconds. -/
inductive Value where
  | number (n : Int)
  | string (s : GoString)
  | bool (b : Bool)
  | null
  deriving DecidableEq, Repr

/-- Type `jwt.MapClaims`, a `map[string]interface{}`. -/
abbrev MapClaims := GoMap GoString Value

/-- Algorithm named in the token header: the HMAC family or anything else. -/
inductive SigningMethod where
  | HS256
  | HS384
  | HS512
  | other
  deriving DecidableEq, Repr

/-- Type test `token.Method.(*jwt.SigningMethodHMAC)`. -/
def SigningMethod.isHMAC : SigningMethod → Bool
  | .HS256 => true
  | .HS384 => true
  | .HS512 => true
  | .other => false

/-- Content of a well-formed token string: header algorithm, claims, and the key
under which the signature part is a valid MAC of header and claims (`none` when
it is a valid MAC under no key). -/
structure JWT where
  alg : SigningMethod
  claims : MapClaims
  signedWith : Option GoString
  deriving DecidableEq

/-- A token string handed to `Verify`: not parseable, or a well-formed token. -/
inductive TokenString where
  | malformed
  | wellFormed (t : JWT)
  deriving DecidableEq

/-- Struct `AAA`; `tokenTTL` is a `time.Duration`, in nanoseconds. -/
structure AAA where
  users : GoMap GoString GoString
  tokenTTL : Int
  deriving DecidableEq

/-- Constructor `New`; `lookupEnv` is `os.LookupEnv`. -/
def New (lookupEnv : GoString → Option GoString) (tokenTTL : Int) : Except GoError AAA :=
  match lookupEnv adminUser with
  | none => .error (.other [])
  | some user =>
    match lookupEnv adminPass with
    | none => .error (.other [])
    | some password =>
      .ok { users := AList.singleton user password, tokenTTL := tokenTTL }

/-- Nanoseconds in a second: `Time.Unix()` is the whole number of seconds of an
instant, `time.Unix(sec, 0)` the instant at the start of second `sec`. -/
def second : Int := 1000000000

/-- Claims that `Login` puts into the token; `exp` is
`time.Now().Add(a.tokenTTL).Unix()`. -/
def loginClaims (a : AAA) (now : Int) : MapClaims :=
  (((∅ : MapClaims).insert kExp (.number ((now + a.tokenTTL) / second))).insert
    kAuthorized (.bool true)).insert kSub (.string adminRole)

/-- Method `AAA.Login`; `now` is `time.Now()` in Unix nanoseconds.  Reading a Go map
at a missing key yields the zero value, the empty string.  `SignedString` with
HS256 and a byte-slice key does not fail. -/
def Login (a : AAA) (now : Int) (name password : GoString) : Except GoError TokenString :=
  if (a.users.lookup name).getD [] ≠ password then .error .ErrUnauthorized
  else
    .ok (.wellFormed
      { alg := .HS256, claims := loginClaims a now, signedWith := some secretKey })

/-- Key function that `Verify` passes to `jwt.Parse`. -/
def keyFunc (t : JWT) : Except GoError GoString :=
  if t.alg.isHMAC then .ok secretKey else .error (.other [])

/-- Library check of one registered time claim (`VerifyExpiresAt`,
`VerifyIssuedAt`, `VerifyNotBefore` of golang-jwt v3 with `req = false`): an
absent claim passes, a number is compared with `cmp`, another type fails. -/
def verifyTimeClaim (claims : MapClaims) (key : GoString) (cmp : Int → Bool) : Bool :=
  match claims.lookup key with
  | none => true
  | some (.number n) => cmp n
  | some _ => false

/-- Library method `MapClaims.Valid` of golang-jwt v3; `now` is the library's
`TimeFunc().Unix()`, in seconds. -/
def claimsValid (now : Int) (claims : MapClaims) : Bool :=
  verifyTimeClaim claims kExp (fun exp => decide (now ≤ exp))
    && verifyTimeClaim claims kIat (fun iat => decide (iat ≤ now))
    && verifyTimeClaim claims kNbf (fun nbf => decide (nbf ≤ now))

/-- Struct `jwt.Token` as far as `Verify` reads it. -/
structure Token where
  Claims : MapClaims
  Valid : Bool
  deriving DecidableEq

/-- Library call `jwt.Parse(tokenString, keyFunc)` of golang-jwt v3: it fails on
a malformed string, when the key function fails, when the registered claims do
not validate or when the signature is not a valid MAC under the returned key;
otherwise it returns the token with `Valid = true`. -/
def jwtParse (now : Int) (tokenString : TokenString) : Except GoError Token :=
  match tokenString with
  | .malformed => .error (.other [])
  | .wellFormed t =>
    match keyFunc t with
    | .error e => .error e
    | .ok key =>
      if claimsValid now t.claims ∧ t.signedWith = some key then
        .ok { Claims := t.claims, Valid := true }
      else .error (.other [])

/-- Method `AAA.Verify`; `now` is `time.Now()` in Unix nanoseconds (the library
reads the clock in whole seconds, `time.Now().After(time.Unix(exp, 0))` compares
instants).  The type assertion `token.Claims.(jwt.MapClaims)` holds for every
token of `jwt.Parse`. -/
def Verify (now : Int) (tokenString : TokenString) : Except GoError Unit :=
  match jwtParse (now / second) tokenString with
  | .error _ => .error .ErrUnauthorized
  | .ok token =>
    if !token.Valid then .error .ErrUnauthorized
    else
      let expired : Bool :=
        match token.Claims.lookup kExp with
        | some (.number exp) => decide (now > exp * second)
        | _ => false
      if expired then .error .ErrUnauthorized
      else
        match token.Claims.lookup kAuthorized with
        | some (.bool true) =>
          (match token.Claims.lookup kSub with
          | some (.string sub) => if sub ≠ adminRole then .error .ErrUnauthorized else .ok ()
          | _ => .error .ErrUnauthorized)
        | _ => .error .ErrUnauthorized

/-- Environment with `ADMIN_USER=admin` and `ADMIN_PASSWORD=secret`. -/
def sampleOsEnv (name : GoString) : Option GoString :=
  if name = adminUser then some [0x61, 0x64, 0x6d, 0x69, 0x6e]
  else if name = adminPass then some [0x73, 0x65, 0x63, 0x72, 0x65, 0x74]
  else none

/-- The `AAA` value that `New` builds from `sampleOsEnv` with a TTL of one hour. -/
def sampleAAA : AAA :=
  { users := AList.singleton [0x61, 0x64, 0x6d, 0x69, 0x6e] [0x73, 0x65, 0x63, 0x72, 0x65, 0x74]
    tokenTTL := 3600 * second }

/-- An `AAA` value with the administrator `admin`/`secret` and a TTL of one
second. -/
def shortAAA : AAA :=
  { users := AList.singleton [0x61, 0x64, 0x6d, 0x69, 0x6e] [0x73, 0x65, 0x63, 0x72, 0x65, 0x74]
    tokenTTL := second }

/-- A user name `"bob"`, which is not the administrator of `sampleAAA`. -/
def bob : GoString := [0x62, 0x6f, 0x62]

/-- Claims `\x7bauthorized: true, sub: "superuser"\x7d`, without `exp`. -/
def claimsWithoutExp : MapClaims :=
  ((∅ : MapClaims).insert kAuthorized (.bool true)).insert kSub (.string adminRole)

/-- Token with the claims `claimsWithoutExp`, signed by HS256 under `secretKey`. -/
def tokenWithoutExp : TokenString :=
  .wellFormed { alg := .HS256, claims := claimsWithoutExp, signedWith := some secretKey }

end Auth

/-! ## api/core: admission control -/

namespace Admission

/-- Verdicts `StatusAccepted` and `StatusRejected` of `Submit`. -/
inductive Verdict where
  | StatusAccepted
  | StatusRejected
  deriving DecidableEq, Repr

/-- A non-nil `func()` handed to `Submit`, named by a number. -/
abbrev Task := Nat

/-- Struct `ConcurrencyHandler` together with the goroutines it has spawned.
`semaphore` is the number of elements buffered in the channel of capacity
`limit`; `running` lists the accepted tasks whose `f()` has not returned;
`releasing` counts the goroutines between `f()` and `<-ch.semaphore`;
`waiters` holds, for every `Wait` call in progress, the number of channel
operations it has completed. -/
structure ConcurrencyHandler where
  limit : Int
  semaphore : Nat
  stopped : Bool
  running : List Task
  releasing : Nat
  waiters : List Nat
  deriving DecidableEq, Repr

/-- Constructor `NewConcurrencyHandler`. -/
def NewConcurrencyHandler (limit : Int) : ConcurrencyHandler :=
  { limit := if limit ≤ 0 then 1 else limit
    semaphore := 0
    stopped := false
    running := []
    releasing := 0
    waiters := [] }

namespace ConcurrencyHandler

/-- Method `Start`. -/
def Start (ch : ConcurrencyHandler) : ConcurrencyHandler :=
  { ch with stopped := false }

/-- Entry into method `Wait`: a new `Wait` call with no channel operation done. -/
def Wait (ch : ConcurrencyHandler) : ConcurrencyHandler :=
  { ch with waiters := ch.waiters ++ [0] }

/-- Method `Stop`: sets the flag and enters `Wait`. -/
def Stop (ch : ConcurrencyHandler) : ConcurrencyHandler :=
  Wait { ch with stopped := true }

/-- Next channel operation of the `k`-th `Wait` call in progress: one of the
first `limit` operations is a send, which needs a free slot; one of the next
`limit` operations is a receive.  An operation that would block does not
happen. -/
def waitStep (ch : ConcurrencyHandler) (k : Nat) : ConcurrencyHandler :=
  match ch.waiters.get? k with
  | none => ch
  | some pc =>
    if (pc : Int) < ch.limit then
      if (ch.semaphore : Int) < ch.limit then
        { ch with semaphore := ch.semaphore + 1, waiters := ch.waiters.set k (pc + 1) }
      else ch
    else if (pc : Int) < 2 * ch.limit then
      if 0 < ch.semaphore then
        { ch with semaphore := ch.semaphore - 1, waiters := ch.waiters.set k (pc + 1) }
      else ch
    else ch

/-- The `select` of `Submit`: a non-blocking send on `semaphore`; on success a
goroutine that runs `f` is spawned. -/
def submitSelect (ch : ConcurrencyHandler) (f : Task) : Verdict × ConcurrencyHandler :=
  if (ch.semaphore : Int) < ch.limit then
    (.StatusAccepted,
      { ch with semaphore := ch.semaphore + 1, running := ch.running ++ [f] })
  else (.StatusRejected, ch)

/-- Method `Submit`; a nil function is `none`. -/
def Submit (ch : ConcurrencyHandler) (f : Option Task) : Verdict × ConcurrencyHandler :=
  if ch.stopped then (.StatusRejected, ch)
  else
    match f with
    | none => (.StatusRejected, ch)
    | some task => submitSelect ch task

/-- The `k`-th running task returns from `f()`. -/
def taskReturn (ch : ConcurrencyHandler) (k : Nat) : ConcurrencyHandler :=
  if k < ch.running.length then
    { ch with running := ch.running.eraseIdx k, releasing := ch.releasing + 1 }
  else ch

/-- A goroutine whose `f()` has returned executes `<-ch.semaphore`. -/
def taskRelease (ch : ConcurrencyHandler) : ConcurrencyHandler :=
  if 0 < ch.releasing ∧ 0 < ch.semaphore then
    { ch with semaphore := ch.semaphore - 1, releasing := ch.releasing - 1 }
  else ch

end ConcurrencyHandler

/-- Atomic steps of the concurrency limiter.  `lateSelect` is the `select` of a
`Submit` call that read `stopped` earlier, before other steps intervened. -/
inductive CEvent where
  | start
  | stop
  | wait
  | waitStep (k : Nat)
  | submit (f : Option Task)
  | lateSelect (f : Task)
  | taskReturn (k : Nat)
  | taskRelease
  deriving DecidableEq, Repr

/-- Effect of one step on the limiter. -/
def cstep (ch : ConcurrencyHandler) : CEvent → ConcurrencyHandler
  | .start => ch.Start
  | .stop => ch.Stop
  | .wait => ch.Wait
  | .waitStep k => ch.waitStep k
  | .submit f => (ch.Submit f).2
  | .lateSelect f => (ch.submitSelect f).2
  | .taskReturn k => ch.taskReturn k
  | .taskRelease => ch.taskRelease

/-- Effect of a sequence of steps. -/
def crun (ch : ConcurrencyHandler) (events : List CEvent) : ConcurrencyHandler :=
  events.foldl cstep ch

/-- Slots that a `Wait` call holds after `pc` channel operations. -/
def held (limit : Int) (pc : Nat) : Int :=
  if (pc : Int) < limit then pc else if (pc : Int) < 2 * limit then 2 * limit - pc else 0

/-- Invariant of the limiter: every buffered element of `semaphore` belongs to
a running task, a releasing goroutine or a `Wait` call, and the buffer is
within its capacity. -/
def CInv (ch : ConcurrencyHandler) : Prop :=
  1 ≤ ch.limit
    ∧ (ch.semaphore : Int) ≤ ch.limit
    ∧ (ch.semaphore : Int)
        = ch.running.length + ch.releasing + (ch.waiters.map (held ch.limit)).sum

/-- Struct `RateLimiterHandler` with two history counters.  `tokens` is the
number of elements buffered in the channel of capacity 1, `generator` tells
whether a `tokenGenerator` goroutine runs, `admitted` counts the `Wait` calls
that have returned nil, `ticks` the ticker ticks the generator has handled. -/
structure RateLimiterHandler where
  rate : Int
  tokens : Nat
  stopped : Bool
  generator : Bool
  admitted : Nat
  ticks : Nat
  deriving DecidableEq, Repr

/-- Constructor `NewRateLimiterHandler`: stopped, with one token in the bucket. -/
def NewRateLimiterHandler (rate : Int) : RateLimiterHandler :=
  { rate := if rate ≤ 0 then 1 else rate
    tokens := 1
    stopped := true
    generator := false
    admitted := 0
    ticks := 0 }

namespace RateLimiterHandler

/-- Method `Start`. -/
def Start (rl : RateLimiterHandler) : RateLimiterHandler :=
  if !rl.stopped then rl else { rl with stopped := false, generator := true }

/-- Method `Stop`: closes `stopCh` and waits for the generator to end. -/
def Stop (rl : RateLimiterHandler) : RateLimiterHandler :=
  if rl.stopped then rl else { rl with stopped := true, generator := false }

/-- One tick handled by `tokenGenerator`: a non-blocking send on `tokens`. -/
def tick (rl : RateLimiterHandler) : RateLimiterHandler :=
  if rl.generator then
    { rl with tokens := if rl.tokens < 1 then rl.tokens + 1 else rl.tokens
              ticks := rl.ticks + 1 }
  else rl

/-- Method `Wait`, run until it returns or blocks: `some none` is a nil return,
`some (some e)` the return of `ctx.Err()`, `none` a call that is still blocked.
`cancelled` tells that `ctx.Done()` is ready and is the case `select` takes. -/
def Wait (rl : RateLimiterHandler) (cancelled : Bool) :
    Option (Option GoError) × RateLimiterHandler :=
  if rl.stopped then (some none, { rl with admitted := rl.admitted + 1 })
  else if cancelled then (some (some (.other [])), rl)
  else if 0 < rl.tokens then
    (some none, { rl with tokens := rl.tokens - 1, admitted := rl.admitted + 1 })
  else (none, rl)

/-- Method `Submit`, run until it returns or blocks in `Wait`; the context is
`context.Background()`, which is never cancelled. -/
def Submit (rl : RateLimiterHandler) (f : Option Task) :
    Option Verdict × RateLimiterHandler :=
  match f with
  | none => (some .StatusRejected, rl)
  | some _ =>
    match rl.Wait false with
    | (some none, rl1) => (some .StatusAccepted, rl1)
    | (some (some _), rl1) => (some .StatusRejected, rl1)
    | (none, rl1) => (none, rl1)

end RateLimiterHandler

/-- What one `Submit` call of the rate limiter does, in order: it enters `Wait`,
and it runs the task. -/
inductive SubmitStep where
  | wait
  | run (f : Task)
  deriving DecidableEq, Repr

/-- Steps that `RateLimiterHandler.Submit` has performed when it returns or
blocks: a nil function is rejected before `Wait`; otherwise `Wait` is entered
and, after it has returned nil, `f()` is called, once. -/
def submitSteps (rl : RateLimiterHandler) (f : Option Task) : List SubmitStep :=
  match f with
  | none => []
  | some task =>
    match (rl.Wait false).1 with
    | some none => [.wait, .run task]
    | some (some _) => [.wait]
    | none => [.wait]

/-- Atomic steps of the rate limiter.  A `wait` or `submit` step that blocks
leaves the state as it is; the blocked call proceeds in a later step. -/
inductive REvent where
  | start
  | stop
  | tick
  | wait (cancelled : Bool)
  | submit (f : Option Task)
  deriving DecidableEq, Repr

/-- Effect of one step on the rate limiter. -/
def rstep (rl : RateLimiterHandler) : REvent → RateLimiterHandler
  | .start => rl.Start
  | .stop => rl.Stop
  | .tick => rl.tick
  | .wait cancelled => (rl.Wait cancelled).2
  | .submit f => (rl.Submit f).2

/-- Effect of a sequence of steps. -/
def rrun (rl : RateLimiterHandler) (events : List REvent) : RateLimiterHandler :=
  events.foldl rstep rl

/-- A limiter with two slots, both occupied by running tasks. -/
def fullHandler : ConcurrencyHandler :=
  { limit := 2, semaphore := 2, stopped := false, running := [1, 2], releasing := 0,
    waiters := [] }

/-- A step sequence without `Stop`. -/
def sampleSteps : List REvent :=
  [.submit (some 1), .wait false, .tick, .wait false, .tick, .tick, .submit (some 2),
    .start, .wait true, .submit none, .wait false]

/-- Invariant of a started rate limiter: the bucket holds at most one token,
and admissions plus the token in the bucket are covered by the initial token
and the ticks. -/
def RInv (rl : RateLimiterHandler) : Prop :=
  rl.stopped = false ∧ rl.tokens ≤ 1 ∧ rl.admitted + rl.tokens ≤ 1 + rl.ticks

end Admission

/-! ## api/adapters/rest/middleware -/

namespace Middleware

/-- Constant `bearerPrefix = "Token "`. -/
def bearerPrefix : GoString := [0x54, 0x6f, 0x6b, 0x65, 0x6e, 0x20]

/-- Constant `http.StatusUnauthorized`. -/
def StatusUnauthorized : Nat := 401

/-- Constant `http.StatusInternalServerError`. -/
def StatusInternalServerError : Nat := 500

/-- What the handler built by `Auth` does with one request: the status and the
text it writes itself with `http.Error` (if it does), and the number of times
it calls `next.ServeHTTP`. -/
structure Reply where
  status : Option Nat
  body : GoString
  nextCalls : Nat
  deriving DecidableEq, Repr

/-- Statement `http.Error(w, msg, code); return`. -/
def httpError (msg : GoString) (code : Nat) : Reply :=
  { status := some code, body := msg, nextCalls := 0 }

/-- Text `"Authorization header is required"`. -/
def msgRequired : GoString :=
  [0x41, 0x75, 0x74, 0x68, 0x6f, 0x72, 0x69, 0x7a, 0x61, 0x74, 0x69, 0x6f, 0x6e, 0x20, 0x68,
   0x65, 0x61, 0x64, 0x65, 0x72, 0x20, 0x69, 0x73, 0x20, 0x72, 0x65, 0x71, 0x75, 0x69, 0x72,
   0x65, 0x64]

/-- Text `"Invalid authorization format"`. -/
def msgFormat : GoString :=
  [0x49, 0x6e, 0x76, 0x61, 0x6c, 0x69, 0x64, 0x20, 0x61, 0x75, 0x74, 0x68, 0x6f, 0x72, 0x69,
   0x7a, 0x61, 0x74, 0x69, 0x6f, 0x6e, 0x20, 0x66, 0x6f, 0x72, 0x6d, 0x61, 0x74]

/-- Text `"Authorization is not passed"`. -/
def msgNotPassed : GoString :=
  [0x41, 0x75, 0x74, 0x68, 0x6f, 0x72, 0x69, 0x7a, 0x61, 0x74, 0x69, 0x6f, 0x6e, 0x20, 0x69,
   0x73, 0x20, 0x6e, 0x6f, 0x74, 0x20, 0x70, 0x61, 0x73, 0x73, 0x65, 0x64]

/-- Text `"Authorization has gone wrong"`. -/
def msgWrong : GoString :=
  [0x41, 0x75, 0x74, 0x68, 0x6f, 0x72, 0x69, 0x7a, 0x61, 0x74, 0x69, 0x6f, 0x6e, 0x20, 0x68,
   0x61, 0x73, 0x20, 0x67, 0x6f, 0x6e, 0x65, 0x20, 0x77, 0x72, 0x6f, 0x6e, 0x67]

/-- Handler built by `Auth(next, verifier)`, on one request.  `header` is the
Authorization header (`none` when the request has none; `r.Header.Get` then
yields the empty string), `verify` is `verifier.Verify`.  An error value wraps
no other error, so `errors.Is(err, core.ErrUnauthorized)` is an equality. -/
def Auth (verify : GoString → Except GoError Unit) (header : Option GoString) : Reply :=
  let authParam : GoString := header.getD []
  if authParam = [] then httpError msgRequired StatusUnauthorized
  else if !(bearerPrefix.isPrefixOf authParam) then httpError msgFormat StatusUnauthorized
  else
    let token := authParam.drop bearerPrefix.length
    match verify token with
    | .error err =>
      if err = .ErrUnauthorized then httpError msgNotPassed StatusUnauthorized
      else httpError msgWrong StatusInternalServerError
    | .ok _ => { status := none, body := [], nextCalls := 1 }

/-- A verifier that accepts the token `"t"`, reports `"u"` as unauthorized and
fails in another way on everything else. -/
def sampleVerify (token : GoString) : Except GoError Unit :=
  if token = [0x74] then .ok ()
  else if token = [0x75] then .error .ErrUnauthorized
  else .error (.other [])

end Middleware

/-! ## api/adapters/rest: search and login handlers -/

namespace Rest

/-- Type `url.Values`, a `map[string][]string`: the parsed query string. -/
abbrev Values := GoMap GoString (List GoString)

/-- Library method `Values.Get`: the first value of the key, or the empty string
when the key has no value. -/
def Values.Get (v : Values) (key : GoString) : GoString :=
  match v.lookup key with
  | some (first :: _) => first
  | _ => []

/-- Query parameter names `"limit"` and `"phrase"`. -/
def kLimit : GoString := [0x6c, 0x69, 0x6d, 0x69, 0x74]

def kPhrase : GoString := [0x70, 0x68, 0x72, 0x61, 0x73, 0x65]

/-- Body `"limit should be not negative integer"` of the first 400 answer. -/
def msgLimit : GoString :=
  [0x6c, 0x69, 0x6d, 0x69, 0x74, 0x20, 0x73, 0x68, 0x6f, 0x75, 0x6c, 0x64, 0x20, 0x62, 0x65, 0x20, 0x6e, 0x6f, 0x74, 0x20, 0x6e, 0x65, 0x67, 0x61, 0x74, 0x69, 0x76, 0x65, 0x20, 0x69, 0x6e, 0x74, 0x65, 0x67, 0x65, 0x72]

/-- Body `"phrase should be not empty"` of the second 400 answer. -/
def msgPhrase : GoString :=
  [0x70, 0x68, 0x72, 0x61, 0x73, 0x65, 0x20, 0x73, 0x68, 0x6f, 0x75, 0x6c, 0x64, 0x20, 0x62, 0x65, 0x20, 0x6e, 0x6f, 0x74, 0x20, 0x65, 0x6d, 0x70, 0x74, 0x79]

/-- Struct `core.Comics` with the fields that the search adapter fills. -/
structure Comics where
  ID : Int
  URL : GoString
  deriving DecidableEq, Repr

/-- Struct `SearchResponse`. -/
structure SearchResponse where
  Comics : List Comics
  Total : Int
  deriving DecidableEq, Repr

/-- Interface `core.Searcher`. -/
structure Searcher where
  Search : GoString → Int → Except GoError (List Comics)
  SearchIndex : GoString → Int → Except GoError (List Comics)

/-- One call of the backend: which method, and its arguments. -/
structure BackendCall where
  withIndex : Bool
  phrase : GoString
  limit : Int
  deriving DecidableEq, Repr

/-- What the handler writes: `http.Error` with `StatusBadRequest` and a message,
`http.Error` with `StatusInternalServerError` and the text of the backend
error, or the JSON encoding of a `SearchResponse`. -/
inductive Response where
  | badRequest (msg : GoString)
  | internalError (err : GoError)
  | json (response : SearchResponse)
  deriving DecidableEq

/-- Effect of one request: the backend calls made, in order, and the answer. -/
structure Handled where
  calls : List BackendCall
  response : Response
  deriving DecidableEq

/-- Function `searchHandlerCommon` applied to one request; `Atoi` is
`strconv.Atoi`, `query` is `r.URL.Query()`. -/
def searchHandlerCommon (Atoi : GoString → Except GoError Int) (searcher : Searcher)
    (withIndex : Bool) (query : Values) : Handled :=
  let limitRaw := query.Get kLimit
  let parsed : Option Int :=
    if limitRaw = [] then some 10
    else
      match Atoi limitRaw with
      | .error _ => none
      | .ok limit => if limit ≤ 0 then none else some limit
  match parsed with
  | none => { calls := [], response := .badRequest msgLimit }
  | some limit =>
    let phrase := query.Get kPhrase
    if phrase = [] then { calls := [], response := .badRequest msgPhrase }
    else
      let call : BackendCall := { withIndex := withIndex, phrase := phrase, limit := limit }
      let result :=
        if withIndex then searcher.SearchIndex phrase limit
        else searcher.Search phrase limit
      match result with
      | .error err => { calls := [call], response := .internalError err }
      | .ok answer =>
        { calls := [call], response := .json { Comics := answer, Total := answer.length } }

/-- Function `NewSearchHandler`, the handler of `/api/search`. -/
def NewSearchHandler (Atoi : GoString → Except GoError Int) (searcher : Searcher)
    (query : Values) : Handled :=
  searchHandlerCommon Atoi searcher false query

/-- Function `NewSearchIndexHandler`, the handler of `/api/isearch`. -/
def NewSearchIndexHandler (Atoi : GoString → Except GoError Int) (searcher : Searcher)
    (query : Values) : Handled :=
  searchHandlerCommon Atoi searcher true query

/-- The word `"cat"`. -/
def kCat : GoString := [0x63, 0x61, 0x74]

/-- The parsed query string `limit=&phrase=cat`: the limit is supplied, with an
empty value. -/
def emptyLimitQuery : Values :=
  ((∅ : Values).insert kLimit [[]]).insert kPhrase [kCat]

/-- Method `Error` of an error value: the text of the sentinels of
`core/errors.go`, or the text of another error. -/
def errorText : GoError → GoString
  | .ErrBadArguments =>
    [0x61, 0x72, 0x67, 0x75, 0x6d, 0x65, 0x6e, 0x74, 0x73, 0x20, 0x61, 0x72, 0x65, 0x20, 0x6e, 0x6f, 0x74, 0x20, 0x61, 0x63, 0x63, 0x65, 0x70, 0x74, 0x61, 0x62, 0x6c, 0x65]
  | .ErrAlreadyExists =>
    [0x72, 0x65, 0x73, 0x6f, 0x75, 0x72, 0x63, 0x65, 0x20, 0x6f, 0x72, 0x20, 0x74, 0x61, 0x73, 0x6b, 0x20, 0x61, 0x6c, 0x72, 0x65, 0x61, 0x64, 0x79, 0x20, 0x65, 0x78, 0x69, 0x73, 0x74, 0x73]
  | .ErrNotFound =>
    [0x72, 0x65, 0x73, 0x6f, 0x75, 0x72, 0x63, 0x65, 0x20, 0x69, 0x73, 0x20, 0x6e, 0x6f, 0x74, 0x20, 0x66, 0x6f, 0x75, 0x6e, 0x64]
  | .ErrUnauthorized =>
    [0x75, 0x73, 0x65, 0x72, 0x20, 0x69, 0x73, 0x20, 0x75, 0x6e, 0x61, 0x75, 0x74, 0x68, 0x6f, 0x72, 0x69, 0x7a, 0x65, 0x64]
  | .ErrStarting =>
    [0x65, 0x72, 0x72, 0x6f, 0x72, 0x20, 0x74, 0x72, 0x79, 0x69, 0x6e, 0x67, 0x20, 0x74, 0x6f, 0x20, 0x73, 0x74, 0x61, 0x72, 0x74]
  | .other msg => msg

/-- Struct `Credentials` of `NewLoginHandler`; a field missing from the JSON
body keeps the empty string. -/
structure Credentials where
  Name : GoString
  Password : GoString
  deriving DecidableEq, Repr

/-- Bodies `"Invalid JSON: "`, `"Name and password are required"`,
`"wrong login or password"` and `"Unknown error"` of the login handler. -/
def msgInvalidJSON : GoString :=
  [0x49, 0x6e, 0x76, 0x61, 0x6c, 0x69, 0x64, 0x20, 0x4a, 0x53, 0x4f, 0x4e, 0x3a, 0x20]

def msgRequired : GoString :=
  [0x4e, 0x61, 0x6d, 0x65, 0x20, 0x61, 0x6e, 0x64, 0x20, 0x70, 0x61, 0x73, 0x73, 0x77, 0x6f, 0x72, 0x64, 0x20, 0x61, 0x72, 0x65, 0x20, 0x72, 0x65, 0x71, 0x75, 0x69, 0x72, 0x65, 0x64]

def msgWrongLogin : GoString :=
  [0x77, 0x72, 0x6f, 0x6e, 0x67, 0x20, 0x6c, 0x6f, 0x67, 0x69, 0x6e, 0x20, 0x6f, 0x72, 0x20, 0x70, 0x61, 0x73, 0x73, 0x77, 0x6f, 0x72, 0x64]

def msgUnknown : GoString :=
  [0x55, 0x6e, 0x6b, 0x6e, 0x6f, 0x77, 0x6e, 0x20, 0x65, 0x72, 0x72, 0x6f, 0x72]

/-- What the login handler writes: `http.Error` with a status and a message, or
status 200 with the token as body. -/
inductive LoginReply where
  | error (status : Nat) (msg : GoString)
  | token (tokenString : Auth.TokenString)
  deriving DecidableEq

/-- Effect of one login request: the calls of `loginer.Login` made, with their
arguments, and the answer. -/
structure LoginHandled where
  loginCalls : List (GoString × GoString)
  reply : LoginReply
  deriving DecidableEq

/-- Function `NewLoginHandler` applied to one request; `login` is
`loginer.Login`, `body` is the outcome of decoding the JSON body (`none` when
`Decode` fails). -/
def NewLoginHandler (login : GoString → GoString → Except GoError Auth.TokenString)
    (body : Option Credentials) : LoginHandled :=
  match body with
  | none => { loginCalls := [], reply := .error 401 msgInvalidJSON }
  | some creds =>
    if creds.Name = [] ∨ creds.Password = [] then
      { loginCalls := [], reply := .error 401 msgRequired }
    else
      match login creds.Name creds.Password with
      | .error err =>
        if errorText err = errorText .ErrUnauthorized then
          { loginCalls := [(creds.Name, creds.Password)], reply := .error 401 msgWrongLogin }
        else
          { loginCalls := [(creds.Name, creds.Password)], reply := .error 500 msgUnknown }
      | .ok token =>
        { loginCalls := [(creds.Name, creds.Password)], reply := .token token }

end Rest

/-! ## words/words: normalisation -/

namespace Words

/-- A Go string, given by the runes that a `range` loop reads from it; a string
built with `WriteRune` is the list of the runes written. -/
abbrev Runes := List Char

/-- Tables of package `unicode` above the ASCII range: the letters, the decimal
digits and the lower-case mapping. -/
structure Tables where
  Letter : Char → Bool
  Digit : Char → Bool
  Lower : Char → Char

/-- Library function `unicode.IsLetter`: `A`-`Z` and `a`-`z` in ASCII. -/
def IsLetter (u : Tables) (r : Char) : Bool :=
  if r.toNat < 128 then
    decide (65 ≤ r.toNat ∧ r.toNat ≤ 90) || decide (97 ≤ r.toNat ∧ r.toNat ≤ 122)
  else u.Letter r

/-- Library function `unicode.IsDigit`: `0`-`9` in ASCII. -/
def IsDigit (u : Tables) (r : Char) : Bool :=
  if r.toNat < 128 then decide (48 ≤ r.toNat ∧ r.toNat ≤ 57) else u.Digit r

/-- Library function `unicode.ToLower`, which `strings.ToLower` applies to each
rune. -/
def ToLower (u : Tables) (r : Char) : Char :=
  if r.toNat < 128 then
    if 65 ≤ r.toNat ∧ r.toNat ≤ 90 then Char.ofNat (r.toNat + 32) else r
  else u.Lower r

/-- Library function `unicode.IsSpace`: the runes with the Unicode property
White_Space. -/
def IsSpace (r : Char) : Bool :=
  decide (r.toNat ∈ [0x09, 0x0a, 0x0b, 0x0c, 0x0d, 0x20, 0x85, 0xa0, 0x1680,
    0x2000, 0x2001, 0x2002, 0x2003, 0x2004, 0x2005, 0x2006, 0x2007, 0x2008, 0x2009, 0x200a,
    0x2028, 0x2029, 0x202f, 0x205f, 0x3000])

/-- Loop condition `unicode.IsLetter(r) || unicode.IsDigit(r)`. -/
def alnum (u : Tables) (r : Char) : Bool :=
  IsLetter u r || IsDigit u r

/-- Variable `forbittenWords`. -/
def forbittenWords : List Runes :=
  [['o', 'f'], ['t', 'h', 'e'], ['a'], ['a', 'n', 'd'], ['o', 'r'],
   ['w', 'i', 'l', 'l'], ['w', 'o', 'u', 'l', 'd'], ['i'], ['m', 'e'], ['y', 'o', 'u'],
   ['y', 'o', 'u', 'r'],
   ['h', 'e'], ['h', 'i', 's'], ['h', 'i', 'm'], ['w', 'h', 'o'], ['i', 't'],
   ['t', 'h', 'a', 't'],
   ['s', 'h', 'e'], ['h', 'e', 'r'], ['w', 'e'],
   ['o', 'u', 'r'], ['t', 'h', 'e', 'y'], ['t', 'h', 'e', 'i', 'r'], ['t', 'h', 'e', 'm']]

/-- Variable `isPermissioned` after `init`. -/
def isPermissioned : GoMap Runes Bool :=
  forbittenWords.foldl (fun m word => m.insert word true) ∅

/-- Map read `isPermissioned[word]`, `false` at a missing key. -/
def permissioned (word : Runes) : Bool :=
  (isPermissioned.lookup word).getD false

/-- Locals `result` and `current` of `splitByNonAlphanumericUnicode`. -/
structure Splitter where
  result : List Runes
  current : Runes
  deriving DecidableEq, Repr

/-- Body of the loop of `splitByNonAlphanumericUnicode` for one rune. -/
def scanRune (u : Tables) (s : Splitter) (r : Char) : Splitter :=
  if IsLetter u r || IsDigit u r then { s with current := s.current ++ [r] }
  else if s.current.length > 0 then { result := s.result ++ [s.current], current := [] }
  else s

/-- Tail of `splitByNonAlphanumericUnicode` after the loop. -/
def flush (s : Splitter) : List Runes :=
  if s.current.length > 0 then s.result ++ [s.current] else s.result

/-- Function `splitByNonAlphanumericUnicode`. -/
def splitByNonAlphanumericUnicode (u : Tables) (str : Runes) : List Runes :=
  flush (str.foldl (scanRune u) { result := [], current := [] })

/-- Body of the loop of `Norm` for one word; `stem` is
`snowball.Stem(word, "english", true)`. -/
def normWord (stem : Runes → Except GoError Runes) (result : GoMap Runes Bool)
    (word : Runes) : GoMap Runes Bool :=
  match stem word with
  | .ok tmp => if !permissioned tmp then result.insert tmp true else result
  | .error _ => if !permissioned word then result.insert word true else result

/-- Function `Norm`; `order` is the order in which `range` visits the keys of
the map `result`. -/
def Norm (u : Tables) (stem : Runes → Except GoError Runes)
    (order : List Runes → List Runes) (phrase : Runes) : List Runes :=
  let words := splitByNonAlphanumericUnicode u phrase
  let result := words.foldl (normWord stem) (∅ : GoMap Runes Bool)
  order result.keys

/-- The maximal runs of letters and digits of a string, in order: the pieces
between the runes that are neither, without the empty pieces. -/
def maximalRuns (u : Tables) (str : Runes) : List Runes :=
  (str.splitOnP (fun r => !alnum u r)).filter (fun w => !w.isEmpty)

/-- Library function `strings.Join(elems, " ")`. -/
def joinSpace : List Runes → Runes
  | [] => []
  | [w] => w
  | w :: w2 :: ws => w ++ ' ' :: joinSpace (w2 :: ws)

/-- Library function `strings.ToLower`. -/
def lowered (u : Tables) (s : Runes) : Runes :=
  s.map (ToLower u)

/-- Tables without letters and digits above the ASCII range. -/
def asciiTables : Tables :=
  { Letter := fun _ => false, Digit := fun _ => false, Lower := fun r => r }

/-- The words `"agreed"`, `"agre"` and `"agr"`. -/
def kAgreed : Runes := ['a', 'g', 'r', 'e', 'e', 'd']

def kAgre : Runes := ['a', 'g', 'r', 'e']

def kAgr : Runes := ['a', 'g', 'r']

/-- The answers of the English Snowball stemmer on the words of the examples
below: `agreed` becomes `agre` (step 1b turns `eed` into `ee`, step 5 removes
the final `e`), `agre` becomes `agr` (step 5 again), and a word without a
suffix to remove, such as `hello`, `world`, `cat` or a stop word, is returned
in lower case. -/
def sampleStem (word : Runes) : Except GoError Runes :=
  if lowered asciiTables word = kAgreed then .ok kAgre
  else if lowered asciiTables word = kAgre then .ok kAgr
  else .ok (lowered asciiTables word)

/-- The phrase `"Hello, hello world; the Cat agreed"`. -/
def samplePhrase : Runes :=
  ['H', 'e', 'l', 'l', 'o', ',', ' ', 'h', 'e', 'l', 'l', 'o', ' ', 'w', 'o', 'r', 'l', 'd', ';',
   ' ', 't', 'h', 'e', ' ', 'C', 'a', 't', ' ', 'a', 'g', 'r', 'e', 'e', 'd']

/-- The phrase `"hello world"`. -/
def helloWorld : Runes :=
  ['h', 'e', 'l', 'l', 'o', ' ', 'w', 'o', 'r', 'l', 'd']

end Words

/-! ## Theorems -/

namespace Search

theorem lookup_incr (cm : GoMap Int Int) (a id : Int) :
    (incr cm a).lookup id
      = if id = a then some ((cm.lookup a).getD 0 + 1) else cm.lookup id := by
  unfold incr
  by_cases h : id = a
  · subst h
    simp
  · simp [h, AList.lookup_insert_ne h]

theorem Tallies_incr {cm : GoMap Int Int} {f : Int → Nat} (h : Tallies cm f) (a : Int) :
    Tallies (incr cm a) (fun id => f id + if id = a then 1 else 0) := by
  intro id
  rw [lookup_incr]
  by_cases hid : id = a
  · subst hid
    rw [h id]
    by_cases h0 : f id = 0 <;> simp [h0]
  · simp [hid, h id]

theorem Tallies_foldl_incr (l : List Int) :
    ∀ {cm : GoMap Int Int} {f : Int → Nat}, Tallies cm f →
      Tallies (l.foldl Search.incr cm) (fun id => f id + l.count id) := by
  induction l with
  | nil => intro cm f h; simpa using h
  | cons a l ih =>
    intro cm f h
    have h2 := ih (Tallies_incr h a)
    intro id
    rw [List.foldl_cons, h2 id]
    have : (f id + if id = a then 1 else 0) + l.count id = f id + (a :: l).count id := by
      rw [List.count_cons]
      by_cases hid : id = a
      · subst hid; simp; omega
      · have : ¬ (a = id) := fun e => hid e.symm
        simp [hid, this]
    simp only [this]

theorem Tallies_countEntry {cm : GoMap Int Int} {f : Int → Nat} (h : Tallies cm f)
    (comics : GoMap Int Bool) :
    Tallies (countEntry cm comics)
      (fun id => f id + if id ∈ comics.keys then 1 else 0) := by
  have h2 := Tallies_foldl_incr comics.keys h
  intro id
  have hc : comics.keys.count id = if id ∈ comics.keys then 1 else 0 := by
    by_cases hm : id ∈ comics.keys
    · simp [hm, List.count_eq_one_of_mem comics.keys_nodup hm]
    · simp [hm, List.count_eq_zero_of_not_mem hm]
  have := h2 id
  simp only [hc] at this
  exact this

theorem Tallies_countMatches_aux (index : Index) (words : List GoString) :
    ∀ {cm : GoMap Int Int} {f : Int → Nat}, Tallies cm f →
      Tallies
        (words.foldl
          (fun cm word =>
            match index.lookup word with
            | some comics => Search.countEntry cm comics
            | none => cm)
          cm)
        (fun id => f id + matchCount index words id) := by
  induction words with
  | nil => intro cm f h; simpa [matchCount] using h
  | cons w ws ih =>
    intro cm f h
    rw [List.foldl_cons]
    cases hw : index.lookup w with
    | none =>
      have h2 := ih h
      intro id
      rw [h2 id]
      have : matchCount index (w :: ws) id = matchCount index ws id := by
        simp [matchCount, List.filter_cons, hw]
      simp only [this]
    | some comics =>
      have h2 := ih (Tallies_countEntry h comics)
      intro id
      rw [h2 id]
      have : matchCount index (w :: ws) id
          = (if id ∈ comics.keys then 1 else 0) + matchCount index ws id := by
        by_cases hm : id ∈ comics.keys
        · simp [matchCount, List.filter_cons, hw, hm]; omega
        · simp [matchCount, List.filter_cons, hw, hm]
      simp only [this, Nat.add_assoc]

theorem tallies_countMatches (index : Index) (words : List GoString) :
    Tallies (countMatches index words) (matchCount index words) := by
  have h0 : Tallies (∅ : GoMap Int Int) (fun _ => 0) := by
    intro id; simp
  have := Tallies_countMatches_aux index words h0
  simpa [countMatches] using this

theorem notAfter_iff (a b : ComicScore) :
    notAfter a b ↔ b.Score < a.Score ∨ (a.Score = b.Score ∧ a.ID ≤ b.ID) := by
  unfold notAfter less
  by_cases h : b.Score = a.Score
  · simp [h]
  · simp only [h, if_false, decide_eq_false_iff_not, gt_iff_lt, not_lt]
    constructor
    · intro h1
      left
      omega
    · rintro (h1 | ⟨h1, _⟩) <;> omega

instance : IsTotal ComicScore notAfter :=
  ⟨fun a b => by
    rw [notAfter_iff, notAfter_iff]
    omega⟩

instance : IsTrans ComicScore notAfter :=
  ⟨fun a b c => by
    rw [notAfter_iff, notAfter_iff, notAfter_iff]
    omega⟩

instance : IsAntisymm ComicScore notAfter :=
  ⟨fun a b => by
    rw [notAfter_iff, notAfter_iff]
    intro h1 h2
    have hs : a.Score = b.Score := by omega
    have hi : a.ID = b.ID := by omega
    cases a
    cases b
    simp_all⟩

/-- Whatever algorithm `sort.Slice` runs, a permutation of the input in which
no later element is `less` than an earlier one is the list `sortSlice` returns. -/
theorem sortSlice_unique (l sorted : List ComicScore) (hp : sorted.Perm l)
    (hs : sorted.Pairwise notAfter) : sorted = sortSlice l :=
  List.eq_of_perm_of_sorted (hp.trans (List.perm_insertionSort notAfter l).symm) hs
    (List.sorted_insertionSort notAfter l)

theorem sortSlice_perm (l : List ComicScore) : (sortSlice l).Perm l :=
  List.perm_insertionSort notAfter l

theorem sortSlice_ranked (index : Index) (words : List GoString) (l : List ComicScore)
    (hs : ∀ c ∈ l, c.Score = (matchCount index words c.ID : Int))
    (hn : (l.map (·.ID)).Nodup) :
    ((sortSlice l).map (·.ID)).Pairwise (rankedBefore index words) := by
  have hsorted : (sortSlice l).Pairwise notAfter := List.sorted_insertionSort notAfter l
  have hperm := sortSlice_perm l
  have hn2 : ((sortSlice l).map (·.ID)).Nodup := (hperm.map _).nodup_iff.mpr hn
  have hne : (sortSlice l).Pairwise (fun a b => a.ID ≠ b.ID) := by
    have := hn2
    rw [List.Nodup, List.pairwise_map] at this
    exact this
  rw [List.pairwise_map]
  refine (hsorted.and hne).imp_of_mem ?_
  intro a b ha hb hab
  obtain ⟨h1, h2⟩ := hab
  have sa := hs a (hperm.mem_iff.mp ha)
  have sb := hs b (hperm.mem_iff.mp hb)
  rw [notAfter_iff] at h1
  unfold rankedBefore
  omega

theorem scored_spec (index : Index) (words : List GoString) :
    let scored : List ComicScore :=
      (countMatches index words).entries.map (fun p => { ID := p.1, Score := p.2 })
    (∀ c ∈ scored, c.Score = (matchCount index words c.ID : Int)
        ∧ 1 ≤ matchCount index words c.ID)
      ∧ (∀ id, 1 ≤ matchCount index words id → id ∈ scored.map (·.ID))
      ∧ (scored.map (·.ID)).Nodup := by
  intro scored
  have hT := tallies_countMatches index words
  refine ⟨?_, ?_, ?_⟩
  · intro c hc
    obtain ⟨p, hp, rfl⟩ := List.mem_map.mp hc
    have hl : (countMatches index words).lookup p.1 = some p.2 :=
      AList.mem_lookup_iff.mpr hp
    rw [hT p.1] at hl
    by_cases h0 : matchCount index words p.1 = 0
    · simp [h0] at hl
    · simp only [h0, if_false, Option.some.injEq] at hl
      exact ⟨hl.symm, Nat.pos_of_ne_zero h0⟩
  · intro id hid
    have hl := hT id
    have h0 : matchCount index words id ≠ 0 := by omega
    simp only [h0, if_false] at hl
    have hm : (⟨id, (matchCount index words id : Int)⟩ : Sigma fun _ : Int => Int)
        ∈ (countMatches index words).entries := AList.mem_lookup_iff.mp hl
    exact List.mem_map.mpr ⟨_, List.mem_map.mpr ⟨_, hm, rfl⟩, rfl⟩
  · have : scored.map (·.ID) = (countMatches index words).keys := by
      simp [scored, AList.keys, List.keys, List.map_map, Function.comp_def]
    rw [this]
    exact (countMatches index words).keys_nodup

theorem hydrate_all_ok (row : Int → Except GoError GoString) (result : List Int)
    (h : ∀ id ∈ result, ∃ url, row id = .ok url) :
    (hydrate row result).map (·.ID) = result := by
  induction result with
  | nil => rfl
  | cons a l ih =>
    obtain ⟨url, hu⟩ := h a (List.mem_cons_self a l)
    have ih2 := ih (fun id hid => h id (List.mem_cons_of_mem a hid))
    simp only [hydrate, GetById] at ih2 ⊢
    simp [List.filterMap_cons, hu, ih2]

/-- C1: for every index, every token list of the normalizer, every limit >= 0
and every iteration order of the counter map, when the hydration of every
matching id succeeds, `SearchIndex` returns comics whose ids are the first
`min(limit, m)` entries of the list `L` of the `m` matching ids (match count
at least 1, each once) ranked by match count descending, then id ascending. -/
theorem SearchIndex_ranked (index : Index) (row : Int → Except GoError GoString)
    (order : List ComicScore → List ComicScore) (words : List GoString) (limit : Int)
    (horder : ∀ l, (order l).Perm l) (hlimit : 0 ≤ limit)
    (hrow : ∀ id, 1 ≤ matchCount index words id → ∃ url, row id = .ok url) :
    ∃ (reply : SearchReply) (L : List Int),
      SearchIndex index row order (.ok words) limit = .ok reply
        ∧ L.Nodup
        ∧ (∀ id, id ∈ L ↔ 1 ≤ matchCount index words id)
        ∧ L.Pairwise (rankedBefore index words)
        ∧ reply.Comics.map (·.ID) = L.take (min limit.toNat L.length) := by
  obtain ⟨hscore, hall, hnodup⟩ := scored_spec index words
  generalize hE : ((countMatches index words).entries.map
      (fun p => ({ ID := p.1, Score := p.2 } : ComicScore))) = scored at hscore hall hnodup
  have hpo : (order scored).Perm scored := horder scored
  have hps : (sortSlice (order scored)).Perm scored := (sortSlice_perm _).trans hpo
  have hL1 : ((sortSlice (order scored)).map (·.ID)).Nodup :=
    (hps.map _).nodup_iff.mpr hnodup
  have hL2 : ∀ id, id ∈ (sortSlice (order scored)).map (·.ID)
      ↔ 1 ≤ matchCount index words id := by
    intro id
    rw [(hps.map (·.ID)).mem_iff]
    constructor
    · intro hid
      obtain ⟨c, hc, rfl⟩ := List.mem_map.mp hid
      exact (hscore c hc).2
    · exact hall id
  have hL3 : ((sortSlice (order scored)).map (·.ID)).Pairwise (rankedBefore index words) :=
    sortSlice_ranked index words (order scored)
      (fun c hc => (hscore c (hpo.mem_iff.mp hc)).1)
      ((hpo.map _).nodup_iff.mpr hnodup)
  have hlen : ¬ (min ((sortSlice (order scored)).length : Int) limit < 0) := by
    have : (0 : Int) ≤ ((sortSlice (order scored)).length : Int) := Int.natCast_nonneg _
    omega
  have hk : (min ((sortSlice (order scored)).length : Int) limit).toNat
      = min limit.toNat (sortSlice (order scored)).length := by
    omega
  have hval : SearchIndex index row order (.ok words) limit
      = .ok ⟨hydrate row
          (((sortSlice (order scored)).take
            (min limit.toNat (sortSlice (order scored)).length)).map (·.ID))⟩ := by
    unfold SearchIndex
    simp only [hE]
    by_cases h0 : (countMatches index words).entries.length = 0
    · have hs0 : scored = [] := by
        rw [← hE]
        simpa using h0
      have hs1 : sortSlice (order scored) = [] := by
        have hl0 : (sortSlice (order scored)).length = 0 := by
          rw [hps.length_eq, hs0]
          rfl
        exact List.length_eq_zero.mp hl0
      simp [h0, hs1, hydrate]
    · rw [if_neg h0, if_neg hlen, hk]
  refine ⟨_, (sortSlice (order scored)).map (·.ID), hval, hL1, hL2, hL3, ?_⟩
  rw [hydrate_all_ok, List.length_map, List.map_take]
  intro id hid
  have hid2 : id ∈ (sortSlice (order scored)).map (·.ID) := by
    obtain ⟨c, hc, rfl⟩ := List.mem_map.mp hid
    exact List.mem_map.mpr ⟨c, List.mem_of_mem_take hc, rfl⟩
  exact hrow id ((hL2 id).mp hid2)

theorem SearchIndex_ranked_witness :
    (0 : Int) ≤ 3
      ∧ ∃ (reply : SearchReply) (L : List Int),
        SearchIndex tieIndex tieRow List.reverse (.ok [kTest]) 3 = .ok reply
          ∧ L.Nodup
          ∧ (∀ id, id ∈ L ↔ 1 ≤ matchCount tieIndex [kTest] id)
          ∧ L.Pairwise (rankedBefore tieIndex [kTest])
          ∧ reply.Comics.map (·.ID) = L.take (min (3 : Int).toNat L.length) :=
  ⟨by decide,
    SearchIndex_ranked tieIndex tieRow List.reverse [kTest] 3
      (fun l => List.reverse_perm l) (by decide) (fun _ _ => ⟨[], rfl⟩)⟩

/-- The tie-breaking test case, evaluated: five comics with one match each come
back by ascending id, cut to the limit. -/
theorem SearchIndex_tie_breaking :
    SearchIndex tieIndex tieRow List.reverse (.ok [kTest]) 5
        = .ok ⟨[⟨1, []⟩, ⟨2, []⟩, ⟨3, []⟩, ⟨4, []⟩, ⟨5, []⟩]⟩
      ∧ SearchIndex tieIndex tieRow id (.ok [kTest]) 3
        = .ok ⟨[⟨1, []⟩, ⟨2, []⟩, ⟨3, []⟩]⟩ := by
  decide

end Search

namespace UpdateCore

theorem lookup_existingIDs_aux (ids : List Int) (i : Int) :
    ∀ m : GoMap Int Bool,
      ((ids.foldl (fun m id => m.insert id true) m).lookup i).getD false
        = (decide (i ∈ ids) || (m.lookup i).getD false) := by
  induction ids with
  | nil => intro m; simp
  | cons a l ih =>
    intro m
    rw [List.foldl_cons, ih]
    by_cases h : i = a
    · subst h
      simp
    · simp [h, AList.lookup_insert_ne h]

theorem lookup_existingIDs (ids : List Int) (i : Int) :
    ((existingIDs ids).lookup i).getD false = decide (i ∈ ids) := by
  unfold existingIDs
  rw [lookup_existingIDs_aux]
  simp

theorem schedule_aux (existing : GoMap Int Bool) (l : List Int) :
    ∀ sch : Schedule,
      l.foldl
        (fun sch i =>
          if !((existing.lookup i).getD false) then
            { jobs := sch.jobs ++ [i], shouldSendEvent := true }
          else sch)
        sch
      = { jobs := sch.jobs ++ l.filter (fun i => !((existing.lookup i).getD false))
          shouldSendEvent := sch.shouldSendEvent
            || (l.any (fun i => !((existing.lookup i).getD false))) } := by
  induction l with
  | nil => intro sch; simp
  | cons a l ih =>
    intro sch
    rw [List.foldl_cons, ih]
    by_cases h : (existing.lookup a).getD false = true
    · simp [h]
    · simp [h]

theorem schedule_jobs (lastId : Int) (existing : GoMap Int Bool) :
    (schedule lastId existing).jobs
      = (loopIds lastId).filter (fun i => !((existing.lookup i).getD false)) := by
  unfold schedule
  rw [schedule_aux]
  simp

theorem schedule_shouldSendEvent (lastId : Int) (existing : GoMap Int Bool) :
    (schedule lastId existing).shouldSendEvent
      = !(schedule lastId existing).jobs.isEmpty := by
  rw [schedule_jobs]
  unfold schedule
  rw [schedule_aux]
  simp only [Bool.false_or]
  generalize loopIds lastId = l
  induction l with
  | nil => simp
  | cons a l ih =>
    by_cases h : (existing.lookup a).getD false = true
    · simpa [h, List.filter_cons] using ih
    · simp [h, List.filter_cons]

theorem mem_loopIds (lastId i : Int) : i ∈ loopIds lastId ↔ 1 ≤ i ∧ i ≤ lastId := by
  unfold loopIds
  simp only [List.mem_map, List.mem_range'_1]
  constructor
  · rintro ⟨n, ⟨h1, h2⟩, rfl⟩
    simp only [Int.ofNat_eq_coe]
    omega
  · rintro ⟨h1, h2⟩
    exact ⟨i.toNat, ⟨by omega, by omega⟩, by simp only [Int.ofNat_eq_coe]; omega⟩

theorem mem_schedule_jobs (lastId : Int) (ids : List Int) (i : Int) :
    i ∈ (schedule lastId (existingIDs ids)).jobs ↔ 1 ≤ i ∧ i ≤ lastId ∧ i ∉ ids := by
  rw [schedule_jobs]
  simp only [List.mem_filter, mem_loopIds, lookup_existingIDs,
    Bool.not_eq_true', decide_eq_false_iff_not]
  tauto

theorem schedule_jobs_ascending (lastId : Int) (existing : GoMap Int Bool) :
    (schedule lastId existing).jobs.Pairwise (· < ·) := by
  rw [schedule_jobs]
  have h : (List.range' 1 lastId.toNat).Pairwise (· < ·) := List.pairwise_lt_range' 1 _
  have h2 : (loopIds lastId).Pairwise (· < ·) := by
    unfold loopIds
    rw [List.pairwise_map]
    exact h.imp (fun {a b} hab => by simp only [Int.ofNat_eq_coe]; omega)
  exact h2.sublist (List.filter_sublist _)

theorem normalizeChunks_calls (env : Env) (chunks : List GoString) :
    ∀ (acc : List GoString) (c : Call), c ∈ (normalizeChunks env chunks acc).1 →
      ∃ chunk, c = Call.Norm chunk := by
  induction chunks with
  | nil => intro acc c hc; simp [normalizeChunks] at hc
  | cons chunk rest ih =>
    intro acc c hc
    unfold normalizeChunks at hc
    cases hn : env.Norm chunk with
    | error e =>
      simp only [hn, List.mem_singleton] at hc
      exact ⟨chunk, hc⟩
    | ok normalized =>
      simp only [hn, List.mem_cons] at hc
      rcases hc with hc | hc
      · exact ⟨chunk, hc⟩
      · exact ih _ c hc

theorem fetchRaw_calls (env : Env) (job : Int) (c : Call)
    (h : c ∈ (fetchRaw env job).1) : c = Call.Get job := by
  unfold fetchRaw at h
  by_cases h404 : job = 404
  · simp [h404] at h
  · simpa [h404] using h

theorem buildComics_calls (env : Env) (raw : XKCDInfo) (c : Call)
    (h : c ∈ (buildComics env raw).1) : ∃ chunk, c = Call.Norm chunk := by
  unfold buildComics at h
  dsimp only at h
  split at h <;> exact normalizeChunks_calls env _ _ c h

theorem getComicsById_calls (env : Env) (job : Int) (c : Call)
    (h : c ∈ (getComicsById env job).1) :
    c = Call.Get job ∨ ∃ chunk, c = Call.Norm chunk := by
  unfold getComicsById at h
  dsimp only at h
  split at h
  · exact Or.inl (fetchRaw_calls env job c h)
  · rcases List.mem_append.mp h with h | h
    · exact Or.inl (fetchRaw_calls env job c h)
    · exact Or.inr (buildComics_calls env _ c h)

theorem workerJob_get (env : Env) (job i : Int) (h : Call.Get i ∈ workerJob env job) :
    i = job := by
  have key : Call.Get i ∈ (getComicsById env job).1 := by
    unfold workerJob at h
    dsimp only at h
    split at h
    · exact h
    · rcases List.mem_append.mp h with h | h
      · exact h
      · simp at h
  rcases getComicsById_calls env job _ key with h | ⟨chunk, h⟩
  · exact Call.Get.inj h
  · cases h

/-- C2: when `Update` gets the lock, the upstream answers `lastId` and
persistence answers `ids`, the ids it sends to the workers are in strictly
ascending order (so each at most once) and are exactly the `i` with
`1 <= i <= lastId` that are not among `ids`; and every upstream fetch
`Get i` it makes is for such an `i`. -/
theorem Update_schedules_missing (s : Service) (env : Env) (st : State)
    (lastId : Int) (ids : List Int)
    (hmu : st.mu = false) (hlast : env.LastID = .ok lastId) (hids : env.IDs = .ok ids) :
    (Update s env st).jobs.Pairwise (· < ·)
      ∧ (∀ i, i ∈ (Update s env st).jobs ↔ 1 ≤ i ∧ i ≤ lastId ∧ i ∉ ids)
      ∧ (∀ i, Call.Get i ∈ (Update s env st).calls → 1 ≤ i ∧ i ≤ lastId ∧ i ∉ ids) := by
  unfold Update
  simp only [hmu, hlast, hids, Bool.false_eq_true, if_false]
  by_cases hneg : lastId < 0
  · simp only [hneg, if_true, List.Pairwise.nil, List.not_mem_nil, false_iff, true_and]
    refine ⟨fun i h => by omega, fun i h => ?_⟩
    simp at h
  · simp only [hneg, if_false]
    refine ⟨schedule_jobs_ascending _ _, mem_schedule_jobs lastId ids, fun i h => ?_⟩
    simp only [List.mem_append, List.mem_cons, List.mem_singleton, List.not_mem_nil,
      or_false, false_or] at h
    rcases h with (h | h) | h
    · rcases h with h | h <;> cases h
    · by_cases hc : 0 < s.concurrency
      · simp only [hc, if_true, List.mem_flatMap] at h
        obtain ⟨job, hjob, hget⟩ := h
        have := workerJob_get env job i hget
        subst this
        exact (mem_schedule_jobs lastId ids i).mp hjob
      · simp [hc] at h
    · split at h
      · simp at h
      · simp at h

theorem Update_schedules_missing_witness :
    (Update ⟨2⟩ sampleEnv ⟨false, false⟩).jobs.Pairwise (· < ·)
      ∧ (∀ i, i ∈ (Update ⟨2⟩ sampleEnv ⟨false, false⟩).jobs
          ↔ 1 ≤ i ∧ i ≤ 3 ∧ i ∉ [1, 2])
      ∧ (∀ i, Call.Get i ∈ (Update ⟨2⟩ sampleEnv ⟨false, false⟩).calls
          → 1 ≤ i ∧ i ≤ 3 ∧ i ∉ [1, 2]) :=
  Update_schedules_missing ⟨2⟩ sampleEnv ⟨false, false⟩ 3 [1, 2] rfl rfl rfl

/-- The success test case, evaluated: only comic 3 is scheduled, fetched,
normalized and stored, then the event is published. -/
theorem Update_success_example :
    (Update ⟨2⟩ sampleEnv ⟨false, false⟩).jobs = [3]
      ∧ (Update ⟨2⟩ sampleEnv ⟨false, false⟩).calls
        = [Call.LastID, Call.IDs, Call.Get 3, Call.Norm [0x54, 0x20, 0x44, 0x20, 0x53, 0x20, 0x52],
            Call.Add ⟨3, [], [[0x74]]⟩, Call.SendDBChangedEvent] := by
  decide

/-- C3: an `Update` invoked while the lock is held returns `ErrAlreadyExists`,
calls no collaborator (upstream, persistence, normalizer, publisher), sends no
job, and leaves the lock and the status flag as they were: a status that was
running is still running. -/
theorem Update_already_running (s : Service) (env : Env) (st : State)
    (hmu : st.mu = true) :
    (Update s env st).result = .error .ErrAlreadyExists
      ∧ (Update s env st).calls = []
      ∧ (Update s env st).jobs = []
      ∧ (Update s env st).state = st
      ∧ Status (Update s env st).state = Status st := by
  unfold Update
  simp [hmu]

theorem Update_already_running_witness :
    (Update ⟨2⟩ sampleEnv ⟨true, true⟩).result = .error .ErrAlreadyExists
      ∧ (Update ⟨2⟩ sampleEnv ⟨true, true⟩).calls = []
      ∧ (Update ⟨2⟩ sampleEnv ⟨true, true⟩).jobs = []
      ∧ (Update ⟨2⟩ sampleEnv ⟨true, true⟩).state = ⟨true, true⟩
      ∧ Status (Update ⟨2⟩ sampleEnv ⟨true, true⟩).state = Status ⟨true, true⟩ :=
  Update_already_running ⟨2⟩ sampleEnv ⟨true, true⟩ rfl

theorem Packed_splitStep {words : List GoString} {maxSize : Int} {b : Builder}
    (h : Packed words maxSize b) (word : GoString) (hw : word ∈ words) :
    Packed words maxSize (splitStep maxSize b word) := by
  obtain ⟨hc, hcur⟩ := h
  unfold UpdateCore.splitStep
  by_cases hflush : (b.currentChunk.length : Int) + (word.length : Int) + 1 > maxSize
      ∧ b.currentChunk.length > 0
  · simp only [hflush, and_self, if_true, List.length_nil, gt_iff_lt, lt_self_iff_false,
      if_false, List.nil_append]
    refine ⟨?_, Or.inr (Or.inr hw)⟩
    intro c hcm
    rcases List.mem_append.mp hcm with hcm | hcm
    · exact hc c hcm
    · have hce : c = b.currentChunk := by simpa using hcm
      subst hce
      rcases hcur with h0 | h1
      · rw [h0] at hflush
        simp at hflush
      · exact h1
  · rw [if_neg hflush]
    by_cases hlen : b.currentChunk.length > 0
    · simp only [hlen, if_true]
      refine ⟨hc, Or.inr (Or.inl ?_)⟩
      have : ¬ ((b.currentChunk.length : Int) + (word.length : Int) + 1 > maxSize) :=
        fun h1 => hflush ⟨h1, hlen⟩
      simp only [List.length_append, List.length_singleton, Nat.cast_add, Nat.cast_one]
      omega
    · simp only [hlen, if_false]
      have h0 : b.currentChunk = [] := List.length_eq_zero.mp (by omega)
      rw [h0, List.nil_append]
      exact ⟨hc, Or.inr (Or.inr hw)⟩

theorem Packed_foldl {words : List GoString} {maxSize : Int} (l : List GoString) :
    ∀ {b : Builder}, Packed words maxSize b → (∀ w ∈ l, w ∈ words) →
      Packed words maxSize (l.foldl (UpdateCore.splitStep maxSize) b) := by
  induction l with
  | nil => intro b h _; exact h
  | cons w l ih =>
    intro b h hl
    rw [List.foldl_cons]
    exact ih (Packed_splitStep h w (hl w (List.mem_cons_self w l)))
      (fun x hx => hl x (List.mem_cons_of_mem w hx))

theorem splitWordsIntoChunks_mem (words : List GoString) (maxSize : Int) (c : GoString)
    (h : c ∈ splitWordsIntoChunks words maxSize) :
    ((c.length : Int) ≤ maxSize ∨ c ∈ words) ∧ c ≠ [] := by
  have h0 : Packed words maxSize { chunks := [], currentChunk := [] } :=
    ⟨fun c hc => by simp at hc, Or.inl rfl⟩
  have hP := Packed_foldl words h0 (fun w hw => hw)
  have hne : ∀ (l : List GoString) (b : Builder), (∀ c ∈ b.chunks, c ≠ []) →
      ∀ c ∈ (l.foldl (UpdateCore.splitStep maxSize) b).chunks, c ≠ [] := by
    intro l
    induction l with
    | nil => intro b hb; exact hb
    | cons w l ih =>
      intro b hb
      rw [List.foldl_cons]
      apply ih
      intro c hc
      unfold UpdateCore.splitStep at hc
      dsimp only at hc
      split at hc
      · rename_i hflush
        rcases List.mem_append.mp hc with hc | hc
        · exact hb c hc
        · have hce : c = b.currentChunk := by simpa using hc
          intro hnil
          rw [hce] at hnil
          rw [hnil] at hflush
          simp at hflush
      · exact hb c hc
  have hN := hne words { chunks := [], currentChunk := [] } (fun c hc => by simp at hc)
  unfold splitWordsIntoChunks splitFinish at h
  obtain ⟨hc, hcur⟩ := hP
  split at h
  · rename_i hlen
    rcases List.mem_append.mp h with h | h
    · exact ⟨hc c h, hN c h⟩
    · have hce : c = (words.foldl (UpdateCore.splitStep maxSize)
          { chunks := [], currentChunk := [] }).currentChunk := by simpa using h
      rw [← hce] at hcur hlen
      have hcne : c ≠ [] := by
        intro hnil
        rw [hnil] at hlen
        simp at hlen
      rcases hcur with h0 | h1
      · exact absurd h0 hcne
      · exact ⟨h1, hcne⟩
  · exact ⟨hc c h, hN c h⟩

/-- C9: every chunk returned by `splitWordsIntoChunks` is at most `maxSize`
bytes long or is one of the input words on its own; so when every word is at
most `maxSize` bytes long, every chunk is. -/
theorem splitWordsIntoChunks_size (words : List GoString) (maxSize : Int) :
    (∀ c ∈ splitWordsIntoChunks words maxSize, (c.length : Int) ≤ maxSize ∨ c ∈ words)
      ∧ ((∀ w ∈ words, (w.length : Int) ≤ maxSize) →
          ∀ c ∈ splitWordsIntoChunks words maxSize, (c.length : Int) ≤ maxSize) := by
  refine ⟨fun c hc => (splitWordsIntoChunks_mem words maxSize c hc).1, fun hw c hc => ?_⟩
  rcases (splitWordsIntoChunks_mem words maxSize c hc).1 with h | h
  · exact h
  · exact hw c h

theorem splitWordsIntoChunks_size_witness :
    (∀ c ∈ splitWordsIntoChunks sampleWords 3, (c.length : Int) ≤ 3 ∨ c ∈ sampleWords)
      ∧ ((∀ w ∈ sampleWords, (w.length : Int) ≤ 3) →
          ∀ c ∈ splitWordsIntoChunks sampleWords 3, (c.length : Int) ≤ 3) :=
  splitWordsIntoChunks_size sampleWords 3

/-- Cases of `TestSplitWordsIntoChunks`, evaluated on short words: packing up to
the limit, an exact fit, and an over-limit word on its own. -/
theorem splitWordsIntoChunks_examples :
    splitWordsIntoChunks [[0x61], [0x62, 0x63, 0x64, 0x65], [0x66]] 3
        = [[0x61], [0x62, 0x63, 0x64, 0x65], [0x66]]
      ∧ splitWordsIntoChunks [[0x61, 0x62], [0x63]] 4 = [[0x61, 0x62, 0x20, 0x63]]
      ∧ splitWordsIntoChunks [[0x61, 0x62], [0x63]] 3 = [[0x61, 0x62], [0x63]]
      ∧ splitWordsIntoChunks [[0x61], [0x62], [0x63]] (-1) = [[0x61], [0x62], [0x63]] := by
  decide

theorem joinSpace_singleton (a : GoString) : joinSpace [a] = a := by
  simp [joinSpace, List.intercalate]

theorem joinSpace_cons_cons (a b : GoString) (l : List GoString) :
    joinSpace (a :: b :: l) = a ++ [0x20] ++ joinSpace (b :: l) := by
  simp [joinSpace, List.intercalate]

theorem joinSpace_merge (A : List GoString) (a b : GoString) (C : List GoString) :
    joinSpace (A ++ (a ++ [0x20] ++ b) :: C) = joinSpace (A ++ a :: b :: C) := by
  induction A with
  | nil =>
    cases C with
    | nil => simp [joinSpace_cons_cons, joinSpace_singleton]
    | cons c C => simp [joinSpace_cons_cons]
  | cons x A ih =>
    cases A with
    | nil =>
      simp only [List.singleton_append, List.nil_append] at ih ⊢
      rw [joinSpace_cons_cons, joinSpace_cons_cons, ih]
    | cons y A =>
      simp only [List.cons_append] at ih ⊢
      rw [joinSpace_cons_cons, joinSpace_cons_cons, ih]

theorem splitStep_of_open (maxSize : Int) (b : Builder) (word : GoString)
    (hcur : b.currentChunk ≠ []) :
    splitStep maxSize b word
        = { chunks := b.chunks ++ [b.currentChunk], currentChunk := word }
      ∨ splitStep maxSize b word
        = { chunks := b.chunks, currentChunk := b.currentChunk ++ [0x20] ++ word } := by
  have hlen : b.currentChunk.length > 0 := List.length_pos.mpr hcur
  unfold splitStep
  by_cases hflush : (b.currentChunk.length : Int) + (word.length : Int) + 1 > maxSize
      ∧ b.currentChunk.length > 0
  · left
    simp [hflush]
  · right
    rw [if_neg hflush]
    simp [hlen]

theorem joinSpace_foldl (maxSize : Int) (ws : List GoString) :
    ∀ b : Builder, b.currentChunk ≠ [] → (∀ w ∈ ws, w ≠ []) →
      joinSpace (splitFinish (ws.foldl (splitStep maxSize) b))
        = joinSpace (b.chunks ++ b.currentChunk :: ws) := by
  induction ws with
  | nil =>
    intro b hcur _
    have hlen : b.currentChunk.length > 0 := List.length_pos.mpr hcur
    simp [splitFinish, hlen]
  | cons w ws ih =>
    intro b hcur hne
    have hw : w ≠ [] := hne w (List.mem_cons_self w ws)
    have hws : ∀ x ∈ ws, x ≠ [] := fun x hx => hne x (List.mem_cons_of_mem w hx)
    rw [List.foldl_cons]
    rcases splitStep_of_open maxSize b w hcur with h | h
    · rw [h, ih _ hw hws]
      simp
    · rw [h, ih _ (by simp [hcur]) hws]
      exact joinSpace_merge b.chunks b.currentChunk w ws

/-- C10: for non-empty words, `splitWordsIntoChunks` keeps every word, once and
in order: the chunks joined by single spaces are the words joined by single
spaces.  No returned chunk is empty, and no words give no chunks. -/
theorem splitWordsIntoChunks_join (words : List GoString) (maxSize : Int)
    (hne : ∀ w ∈ words, w ≠ []) :
    joinSpace (splitWordsIntoChunks words maxSize) = joinSpace words
      ∧ (∀ c ∈ splitWordsIntoChunks words maxSize, c ≠ [])
      ∧ splitWordsIntoChunks [] maxSize = [] := by
  refine ⟨?_, fun c hc => (splitWordsIntoChunks_mem words maxSize c hc).2, rfl⟩
  cases words with
  | nil => rfl
  | cons w ws =>
    have hw : w ≠ [] := hne w (List.mem_cons_self w ws)
    have hws : ∀ x ∈ ws, x ≠ [] := fun x hx => hne x (List.mem_cons_of_mem w hx)
    unfold splitWordsIntoChunks
    rw [List.foldl_cons]
    have h1 : splitStep maxSize { chunks := [], currentChunk := [] } w
        = { chunks := [], currentChunk := w } := by
      simp [splitStep]
    rw [h1, joinSpace_foldl maxSize ws _ hw hws]
    simp

theorem splitWordsIntoChunks_join_witness :
    joinSpace (splitWordsIntoChunks sampleWords 6) = joinSpace sampleWords
      ∧ (∀ c ∈ splitWordsIntoChunks sampleWords 6, c ≠ [])
      ∧ splitWordsIntoChunks [] 6 = [] :=
  splitWordsIntoChunks_join sampleWords 6 (by decide)

/-- The sample words packed with limit 6: `"a bcde"` fits exactly, `"f"` starts
the second chunk; joined again they give `"a bcde f"`. -/
theorem chunks_join_example :
    splitWordsIntoChunks sampleWords 6 = [[0x61, 0x20, 0x62, 0x63, 0x64, 0x65], [0x66]]
      ∧ joinSpace (splitWordsIntoChunks sampleWords 6)
        = [0x61, 0x20, 0x62, 0x63, 0x64, 0x65, 0x20, 0x66] := by
  decide

end UpdateCore

namespace Admission

/-- C6: on a limiter whose channel is within its capacity of `limit` slots,
`Submit` rejects exactly when the limiter is stopped, the task is nil or all
`limit` slots are occupied.  A rejected `Submit` leaves the limiter as it was
(no slot taken, flag unchanged, no task started); every other `Submit` is
accepted, occupies one more slot and starts the task. -/
theorem Submit_verdict (ch : ConcurrencyHandler) (f : Option Task)
    (hcap : (ch.semaphore : Int) ≤ ch.limit) :
    ((ch.Submit f).1 = .StatusRejected
        ↔ ch.stopped = true ∨ f = none ∨ (ch.semaphore : Int) = ch.limit)
      ∧ ((ch.Submit f).1 = .StatusRejected → (ch.Submit f).2 = ch)
      ∧ ((ch.Submit f).1 ≠ .StatusRejected →
          ∃ task, f = some task ∧ (ch.Submit f).1 = .StatusAccepted
            ∧ (ch.Submit f).2
              = { ch with semaphore := ch.semaphore + 1, running := ch.running ++ [task] }) := by
  unfold ConcurrencyHandler.Submit
  by_cases hs : ch.stopped = true
  · simp [hs]
  · cases f with
    | none => simp [hs]
    | some task =>
      unfold ConcurrencyHandler.submitSelect
      by_cases hfull : (ch.semaphore : Int) < ch.limit
      · have hne : ¬ ((ch.semaphore : Int) = ch.limit) := by omega
        simp [hs, hfull, hne]
      · have heq : (ch.semaphore : Int) = ch.limit := by omega
        simp [hs, hfull, heq]

theorem Submit_verdict_witness :
    ((fullHandler.Submit (some 7)).1 = .StatusRejected
        ↔ fullHandler.stopped = true ∨ (some 7 : Option Task) = none
          ∨ (fullHandler.semaphore : Int) = fullHandler.limit)
      ∧ ((fullHandler.Submit (some 7)).1 = .StatusRejected
          → (fullHandler.Submit (some 7)).2 = fullHandler)
      ∧ ((fullHandler.Submit (some 7)).1 ≠ .StatusRejected →
          ∃ task, (some 7 : Option Task) = some task
            ∧ (fullHandler.Submit (some 7)).1 = .StatusAccepted
            ∧ (fullHandler.Submit (some 7)).2
              = { fullHandler with
                  semaphore := fullHandler.semaphore + 1
                  running := fullHandler.running ++ [task] }) :=
  Submit_verdict fullHandler (some 7) (by decide)

/-- The limit test case, evaluated: with two slots the first two tasks are
accepted and the third is rejected; after one task has finished and released
its slot the next one is accepted. -/
theorem Submit_limit_example :
    ((NewConcurrencyHandler 2).Submit (some 1)).1 = .StatusAccepted
      ∧ ((crun (NewConcurrencyHandler 2) [.submit (some 1)]).Submit (some 2)).1
        = .StatusAccepted
      ∧ ((crun (NewConcurrencyHandler 2) [.submit (some 1), .submit (some 2)]).Submit
          (some 3)).1 = .StatusRejected
      ∧ ((crun (NewConcurrencyHandler 2)
          [.submit (some 1), .submit (some 2), .taskReturn 0, .taskRelease]).Submit
          (some 3)).1 = .StatusAccepted := by
  decide

theorem held_nonneg (limit : Int) (pc : Nat) : 0 ≤ held limit pc := by
  unfold held
  split
  · omega
  · split <;> omega

theorem sum_held_nonneg (limit : Int) (l : List Nat) :
    0 ≤ (l.map (held limit)).sum := by
  induction l with
  | nil => simp
  | cons a l ih =>
    have := held_nonneg limit a
    simp only [List.map_cons, List.sum_cons]
    omega

theorem sum_map_set (f : Nat → Int) (v : Nat) :
    ∀ (l : List Nat) (k pc : Nat), l.get? k = some pc →
      ((l.set k v).map f).sum = (l.map f).sum - f pc + f v := by
  intro l
  induction l with
  | nil => intro k pc h; simp at h
  | cons a l ih =>
    intro k pc h
    cases k with
    | zero =>
      simp only [List.get?_cons_zero, Option.some.injEq] at h
      subst h
      simp only [List.set_cons_zero, List.map_cons, List.sum_cons]
      omega
    | succ k =>
      simp only [List.get?_cons_succ] at h
      simp only [List.set_cons_succ, List.map_cons, List.sum_cons, ih k pc h]
      omega

theorem CInv_new (limit : Int) : CInv (NewConcurrencyHandler limit) := by
  unfold CInv NewConcurrencyHandler
  by_cases h : limit ≤ 0
  · simp [h]
  · simp only [h, if_false]
    simp
    omega

theorem CInv_waitStep {ch : ConcurrencyHandler} (h : CInv ch) (k : Nat) :
    CInv (ch.waitStep k) := by
  obtain ⟨h1, h2, h3⟩ := h
  unfold ConcurrencyHandler.waitStep
  cases hk : ch.waiters.get? k with
  | none => exact ⟨h1, h2, h3⟩
  | some pc =>
    simp only []
    by_cases hsend : (pc : Int) < ch.limit
    · simp only [hsend, if_true]
      by_cases hfree : (ch.semaphore : Int) < ch.limit
      · simp only [hfree, if_true]
        refine ⟨h1, ?_, ?_⟩
        · simp only [Nat.cast_add, Nat.cast_one]
          omega
        · simp only [sum_map_set (held ch.limit) (pc + 1) ch.waiters k pc hk]
          have e1 : held ch.limit pc = pc := by simp [held, hsend]
          have e2 : held ch.limit (pc + 1) = pc + 1 := by
            unfold held
            simp only [Nat.cast_add, Nat.cast_one]
            split
            · rfl
            · split <;> omega
          rw [e1, e2]
          simp only [Nat.cast_add, Nat.cast_one]
          omega
      · simp only [hfree, if_false]
        exact ⟨h1, h2, h3⟩
    · simp only [hsend, if_false]
      by_cases hrecv : (pc : Int) < 2 * ch.limit
      · simp only [hrecv, if_true]
        by_cases hpos : 0 < ch.semaphore
        · simp only [hpos, if_true]
          have hc : ((ch.semaphore - 1 : Nat) : Int) = (ch.semaphore : Int) - 1 := by omega
          refine ⟨h1, ?_, ?_⟩
          · dsimp only
            omega
          · simp only [sum_map_set (held ch.limit) (pc + 1) ch.waiters k pc hk]
            have e1 : held ch.limit pc = 2 * ch.limit - pc := by simp [held, hsend, hrecv]
            have e2 : held ch.limit (pc + 1) = 2 * ch.limit - pc - 1 := by
              unfold held
              simp only [Nat.cast_add, Nat.cast_one]
              split
              · omega
              · split <;> omega
            rw [e1, e2, hc]
            omega
        · simp only [hpos, if_false]
          exact ⟨h1, h2, h3⟩
      · simp only [hrecv, if_false]
        exact ⟨h1, h2, h3⟩

theorem CInv_submitSelect {ch : ConcurrencyHandler} (h : CInv ch) (f : Task) :
    CInv (ch.submitSelect f).2 := by
  obtain ⟨h1, h2, h3⟩ := h
  unfold ConcurrencyHandler.submitSelect
  by_cases hfree : (ch.semaphore : Int) < ch.limit
  · simp only [hfree, if_true]
    refine ⟨h1, ?_, ?_⟩
    · simp only [Nat.cast_add, Nat.cast_one]
      omega
    · simp only [List.length_append, List.length_singleton, Nat.cast_add, Nat.cast_one]
      omega
  · simp only [hfree, if_false]
    exact ⟨h1, h2, h3⟩

theorem CInv_step {ch : ConcurrencyHandler} (h : CInv ch) (e : CEvent) :
    CInv (cstep ch e) := by
  cases e with
  | start => exact h
  | stop =>
    obtain ⟨h1, h2, h3⟩ := h
    refine ⟨h1, h2, ?_⟩
    simp only [cstep, ConcurrencyHandler.Stop, ConcurrencyHandler.Wait, List.map_append,
      List.sum_append, List.map_cons, List.map_nil, List.sum_cons, List.sum_nil]
    have : held ch.limit 0 = 0 := by simp [held]; omega
    rw [this]
    omega
  | wait =>
    obtain ⟨h1, h2, h3⟩ := h
    refine ⟨h1, h2, ?_⟩
    simp only [cstep, ConcurrencyHandler.Wait, List.map_append,
      List.sum_append, List.map_cons, List.map_nil, List.sum_cons, List.sum_nil]
    have : held ch.limit 0 = 0 := by simp [held]; omega
    rw [this]
    omega
  | waitStep k => exact CInv_waitStep h k
  | submit f =>
    simp only [cstep, ConcurrencyHandler.Submit]
    by_cases hs : ch.stopped = true
    · simpa [hs] using h
    · cases f with
      | none => simpa [hs] using h
      | some task => simpa [hs] using CInv_submitSelect h task
  | lateSelect f => exact CInv_submitSelect h f
  | taskReturn k =>
    obtain ⟨h1, h2, h3⟩ := h
    simp only [cstep, ConcurrencyHandler.taskReturn]
    by_cases hk : k < ch.running.length
    · simp only [hk, if_true]
      refine ⟨h1, h2, ?_⟩
      simp only [List.length_eraseIdx, hk, if_true, Nat.cast_add, Nat.cast_one]
      omega
    · simp only [hk, if_false]
      exact ⟨h1, h2, h3⟩
  | taskRelease =>
    obtain ⟨h1, h2, h3⟩ := h
    simp only [cstep, ConcurrencyHandler.taskRelease]
    by_cases hk : 0 < ch.releasing ∧ 0 < ch.semaphore
    · simp only [hk, and_self, if_true]
      refine ⟨h1, ?_, ?_⟩
      · dsimp only
        omega
      · dsimp only
        omega
    · simp only [hk, if_false]
      exact ⟨h1, h2, h3⟩

theorem cstep_limit (ch : ConcurrencyHandler) (e : CEvent) : (cstep ch e).limit = ch.limit := by
  cases e with
  | start => rfl
  | stop => rfl
  | wait => rfl
  | waitStep k =>
    simp only [cstep, ConcurrencyHandler.waitStep]
    split
    · rfl
    · split
      · split <;> rfl
      · split
        · split <;> rfl
        · rfl
  | submit f =>
    simp only [cstep, ConcurrencyHandler.Submit, ConcurrencyHandler.submitSelect]
    split
    · rfl
    · split
      · rfl
      · split <;> rfl
  | lateSelect f =>
    simp only [cstep, ConcurrencyHandler.submitSelect]
    split <;> rfl
  | taskReturn k =>
    simp only [cstep, ConcurrencyHandler.taskReturn]
    split <;> rfl
  | taskRelease =>
    simp only [cstep, ConcurrencyHandler.taskRelease]
    split <;> rfl

theorem crun_inv (events : List CEvent) :
    ∀ ch : ConcurrencyHandler, CInv ch →
      CInv (crun ch events) ∧ (crun ch events).limit = ch.limit := by
  induction events with
  | nil => intro ch h; exact ⟨h, rfl⟩
  | cons e es ih =>
    intro ch h
    have := ih (cstep ch e) (CInv_step h e)
    simp only [crun, List.foldl_cons] at this ⊢
    exact ⟨this.1, this.2.trans (cstep_limit ch e)⟩

/-- C7: from a limiter built by `NewConcurrencyHandler limit`, after every
sequence of `Start`, `Stop`, `Wait`, `Submit` and task-completion steps the
number of accepted tasks that have not returned is at most `N`, where `N` is
`limit` when `limit >= 1` and 1 otherwise. -/
theorem running_le_limit (limit : Int) (events : List CEvent) :
    (((crun (NewConcurrencyHandler limit) events).running.length : Nat) : Int)
      ≤ (if 1 ≤ limit then limit else 1) := by
  obtain ⟨⟨h1, h2, h3⟩, hl⟩ := crun_inv events _ (CInv_new limit)
  have hs := sum_held_nonneg (crun (NewConcurrencyHandler limit) events).limit
    (crun (NewConcurrencyHandler limit) events).waiters
  have hN : (NewConcurrencyHandler limit).limit = (if 1 ≤ limit then limit else 1) := by
    unfold NewConcurrencyHandler
    by_cases h : limit ≤ 0
    · have : ¬ (1 ≤ limit) := by omega
      simp [h, this]
    · have : 1 ≤ limit := by omega
      simp [h, this]
  rw [← hN, ← hl]
  omega

theorem RInv_step {rl : RateLimiterHandler} (h : RInv rl) (e : REvent)
    (he : e ≠ REvent.stop) : RInv (rstep rl e) := by
  obtain ⟨h1, h2, h3⟩ := h
  cases e with
  | start =>
    simp only [rstep, RateLimiterHandler.Start, h1, Bool.not_false, if_true]
    exact ⟨h1, h2, h3⟩
  | stop => exact absurd rfl he
  | tick =>
    simp only [rstep, RateLimiterHandler.tick]
    by_cases hg : rl.generator = true
    · simp only [hg, if_true]
      refine ⟨h1, ?_, ?_⟩
      · dsimp only
        split <;> omega
      · dsimp only
        split <;> omega
    · simp only [hg, if_false]
      exact ⟨h1, h2, h3⟩
  | wait cancelled =>
    simp only [rstep, RateLimiterHandler.Wait, h1, Bool.false_eq_true, if_false]
    cases cancelled with
    | true =>
      simp only [if_true]
      exact ⟨h1, h2, h3⟩
    | false =>
      simp only [Bool.false_eq_true, if_false]
      by_cases ht : 0 < rl.tokens
      · simp only [ht, if_true]
        exact ⟨rfl, by dsimp only; omega, by dsimp only; omega⟩
      · simp only [ht, if_false]
        exact ⟨h1, h2, h3⟩
  | submit f =>
    cases f with
    | none => exact ⟨h1, h2, h3⟩
    | some task =>
      simp only [rstep, RateLimiterHandler.Submit, RateLimiterHandler.Wait, h1,
        Bool.false_eq_true, if_false]
      by_cases ht : 0 < rl.tokens
      · simp only [ht, if_true]
        exact ⟨rfl, by dsimp only; omega, by dsimp only; omega⟩
      · simp only [ht, if_false]
        exact ⟨h1, h2, h3⟩

theorem rrun_inv (events : List REvent) :
    ∀ rl : RateLimiterHandler, RInv rl → (∀ e ∈ events, e ≠ REvent.stop) →
      RInv (rrun rl events) := by
  induction events with
  | nil => intro rl h _; exact h
  | cons e es ih =>
    intro rl h hne
    have := ih (rstep rl e) (RInv_step h e (hne e (List.mem_cons_self e es)))
      (fun x hx => hne x (List.mem_cons_of_mem e hx))
    simpa [rrun] using this

/-- C8: a rate limiter built with any rate and started, then driven by any
sequence of ticks, `Wait` and `Submit` steps without `Stop`, never holds more
than one token, and the number of admitted calls never exceeds one plus the
number of refill ticks handled so far. -/
theorem admitted_le_ticks (rate : Int) (events : List REvent)
    (hstarted : ∀ e ∈ events, e ≠ REvent.stop) :
    (rrun (NewRateLimiterHandler rate).Start events).tokens ≤ 1
      ∧ (rrun (NewRateLimiterHandler rate).Start events).admitted
          ≤ 1 + (rrun (NewRateLimiterHandler rate).Start events).ticks := by
  have h0 : RInv (NewRateLimiterHandler rate).Start := by
    unfold RInv RateLimiterHandler.Start NewRateLimiterHandler
    simp
  obtain ⟨_, h2, h3⟩ := rrun_inv events _ h0 hstarted
  exact ⟨h2, by omega⟩

theorem admitted_le_ticks_witness :
    (rrun (NewRateLimiterHandler 2).Start sampleSteps).tokens ≤ 1
      ∧ (rrun (NewRateLimiterHandler 2).Start sampleSteps).admitted
          ≤ 1 + (rrun (NewRateLimiterHandler 2).Start sampleSteps).ticks :=
  admitted_le_ticks 2 sampleSteps (by decide)

/-- The sample run, evaluated: three calls are admitted (by the initial token
and by two of the three ticks, one tick finding the bucket full), the last
call is still waiting. -/
theorem rate_limit_example :
    (rrun (NewRateLimiterHandler 2).Start sampleSteps).admitted = 3
      ∧ (rrun (NewRateLimiterHandler 2).Start sampleSteps).ticks = 3
      ∧ (rrun (NewRateLimiterHandler 2).Start sampleSteps).tokens = 0 := by
  decide

end Admission

namespace Auth

theorem lookup_singleton_self (user pw : GoString) :
    (AList.singleton user pw : GoMap GoString GoString).lookup user = some pw := by
  rw [← AList.insert_empty]
  exact AList.lookup_insert _

theorem lookup_singleton_ne (user pw name : GoString) (h : name ≠ user) :
    (AList.singleton user pw : GoMap GoString GoString).lookup name = none := by
  rw [AList.lookup_eq_none, AList.mem_keys, AList.keys_singleton]
  simpa using h

/-- Characterisation of `Login` on the value built by `New`: a token is issued
for the administrator pair, and also for every other name with an empty
password. -/
theorem Login_ok_iff (user pw : GoString) (ttl now : Int) (name password : GoString) :
    (Login { users := AList.singleton user pw, tokenTTL := ttl } now name password).isOk = true
      ↔ (name = user ∧ password = pw) ∨ (name ≠ user ∧ password = []) := by
  unfold Login
  by_cases hn : name = user
  · subst hn
    simp only [lookup_singleton_self, Option.getD_some]
    by_cases hp : pw = password
    · simp [hp, Except.isOk, Except.toBool]
    · have hp2 : ¬ (password = pw) := fun e => hp e.symm
      simp [hp, hp2, Except.isOk, Except.toBool]
  · simp only [lookup_singleton_ne user pw name hn, Option.getD_none]
    by_cases hp : password = []
    · simp [hn, hp, Except.isOk, Except.toBool]
    · have hp2 : ¬ ([] = password) := fun e => hp e.symm
      simp [hn, hp, hp2, Except.isOk, Except.toBool]

/-- C4 (as stated, refuted): with the administrator pair `admin`/`secret` loaded by `New`,
`Login` of the unknown name `bob` with the empty password returns a token, and
`Verify` accepts that token. -/
theorem Login_unknown_name_empty_password :
    New sampleOsEnv (3600 * second) = .ok sampleAAA
      ∧ sampleAAA.users.lookup bob = none
      ∧ (∀ now, Login sampleAAA now bob []
          = .ok (.wellFormed
              { alg := .HS256, claims := loginClaims sampleAAA now,
                signedWith := some secretKey }))
      ∧ Verify 0 (.wellFormed
          { alg := .HS256, claims := loginClaims sampleAAA 0,
            signedWith := some secretKey }) = .ok () := by
  refine ⟨rfl, rfl, fun now => rfl, by decide⟩

/-- C5 (defect): a token signed under the process secret whose claims are
`authorized = true` and `sub = "superuser"`, with no `exp` claim at all, is
accepted by `Verify` at every time. -/
theorem Verify_accepts_token_without_exp :
    claimsWithoutExp.lookup kExp = none
      ∧ ∀ now, Verify now tokenWithoutExp = .ok () := by
  exact ⟨rfl, fun now => rfl⟩

/-- What an accepted token does guarantee: an HMAC header, a signature under
the process secret, `authorized = true`, `sub = "superuser"`, and an `exp`
that is either absent or a second whose start is not in the past. -/
theorem Verify_ok_claims (now : Int) (tokenString : TokenString)
    (h : Verify now tokenString = .ok ()) :
    ∃ t, tokenString = .wellFormed t
      ∧ t.alg.isHMAC = true
      ∧ t.signedWith = some secretKey
      ∧ t.claims.lookup kAuthorized = some (.bool true)
      ∧ t.claims.lookup kSub = some (.string adminRole)
      ∧ (t.claims.lookup kExp = none
          ∨ ∃ exp, t.claims.lookup kExp = some (.number exp) ∧ now ≤ exp * second) := by
  cases tokenString with
  | malformed => simp [Verify, jwtParse] at h
  | wellFormed t =>
    refine ⟨t, rfl, ?_⟩
    unfold Verify jwtParse keyFunc at h
    by_cases hm : t.alg.isHMAC = true
    · simp only [hm, if_true] at h
      by_cases hv : claimsValid (now / second) t.claims = true ∧ t.signedWith = some secretKey
      · simp only [hv, and_self, if_true, Bool.not_true, Bool.false_eq_true, if_false] at h
        refine ⟨hm, hv.2, ?_⟩
        split at h
        · cases h
        · rename_i hexpired
          have hexp : t.claims.lookup kExp = none
              ∨ ∃ exp, t.claims.lookup kExp = some (.number exp) ∧ now ≤ exp * second := by
            have hcv := hv.1
            unfold claimsValid verifyTimeClaim at hcv
            cases he : t.claims.lookup kExp with
            | none => exact Or.inl rfl
            | some v =>
              cases v with
              | number n =>
                simp only [he, gt_iff_lt, decide_eq_true_eq, not_lt] at hexpired
                exact Or.inr ⟨n, rfl, hexpired⟩
              | string _ => simp [he] at hcv
              | bool _ => simp [he] at hcv
              | null => simp [he] at hcv
          split at h
          · split at h
            · split at h
              · cases h
              · rename_i h1 _ _ h2 _
                exact ⟨h1, h2 ▸ by simp_all, hexp⟩
            · cases h
          · cases h
      · simp [hv] at h
    · simp [hm] at h

end Auth

namespace Search

theorem mem_keys_foldl_insert (ids : List Int) (id : Int) :
    ∀ m : GoMap Int Bool,
      id ∈ (ids.foldl (fun tmp i => tmp.insert i true) m).keys ↔ id ∈ m.keys ∨ id ∈ ids := by
  induction ids with
  | nil => intro m; simp
  | cons a l ih =>
    intro m
    rw [List.foldl_cons, ih, ← AList.mem_keys, AList.mem_insert, AList.mem_keys]
    simp only [List.mem_cons]
    tauto

theorem lookup_updateEntry_ne (index : Index) (p : IndexInfoOne) (w : GoString)
    (h : w ≠ p.Word) : (updateEntry index p).lookup w = index.lookup w := by
  unfold updateEntry
  dsimp only
  rw [AList.lookup_insert_ne h]
  split
  · rfl
  · exact AList.lookup_insert_ne h

theorem idSet_updateEntry (index : Index) (p : IndexInfoOne) (w : GoString) (id : Int) :
    id ∈ idSet (updateEntry index p) w
      ↔ id ∈ idSet index w ∨ (p.Word = w ∧ id ∈ p.Comics_ids) := by
  by_cases h : w = p.Word
  · subst h
    unfold idSet updateEntry
    dsimp only
    rw [AList.lookup_insert]
    dsimp only
    rw [mem_keys_foldl_insert]
    cases hl : index.lookup p.Word with
    | none => simp [hl]
    | some m => simp [hl]
  · have h2 : ¬ (p.Word = w) := fun e => h e.symm
    unfold idSet
    rw [lookup_updateEntry_ne index p w h]
    simp [h2]

theorem idSet_foldl_updateEntry (pairs : List IndexInfoOne) (w : GoString) (id : Int) :
    ∀ index : Index,
      id ∈ idSet (pairs.foldl updateEntry index) w
        ↔ id ∈ idSet index w ∨ ∃ p ∈ pairs, p.Word = w ∧ id ∈ p.Comics_ids := by
  induction pairs with
  | nil => intro index; simp
  | cons a l ih =>
    intro index
    rw [List.foldl_cons, ih, idSet_updateEntry]
    simp only [List.mem_cons, exists_eq_or_imp]
    tauto

theorem lookup_foldl_updateEntry (pairs : List IndexInfoOne) (w : GoString) :
    ∀ index : Index, (∀ p ∈ pairs, p.Word ≠ w) →
      (pairs.foldl updateEntry index).lookup w = index.lookup w := by
  induction pairs with
  | nil => intro index _; rfl
  | cons a l ih =>
    intro index h
    rw [List.foldl_cons, ih _ (fun p hp => h p (List.mem_cons_of_mem a hp))]
    exact lookup_updateEntry_ne index a w (fun e => h a (List.mem_cons_self a l) e.symm)

/-- C13: for every index and every list of `(word, ids)` pairs that persistence
returns, `UpdateIndex` succeeds and afterwards the id set of every word is its
id set before the call united with all ids that persistence lists for the
word; so every `(word, id)` entry present before is present afterwards, and a
word that persistence does not return keeps its entry as it was. -/
theorem UpdateIndex_union (index : Index) (pairs : List IndexInfoOne) :
    (UpdateIndex index (.ok pairs)).1 = .ok ()
      ∧ (∀ w id, id ∈ idSet (UpdateIndex index (.ok pairs)).2 w
          ↔ id ∈ idSet index w ∨ ∃ p ∈ pairs, p.Word = w ∧ id ∈ p.Comics_ids)
      ∧ (∀ w id, id ∈ idSet index w → id ∈ idSet (UpdateIndex index (.ok pairs)).2 w)
      ∧ (∀ w, (∀ p ∈ pairs, p.Word ≠ w) →
          (UpdateIndex index (.ok pairs)).2.lookup w = index.lookup w) := by
  refine ⟨rfl, fun w id => idSet_foldl_updateEntry pairs w id index, fun w id h => ?_,
    fun w h => lookup_foldl_updateEntry pairs w index h⟩
  exact (idSet_foldl_updateEntry pairs w id index).mpr (Or.inl h)

/-- The success test case of `UpdateIndex`, evaluated on the empty index. -/
theorem UpdateIndex_example :
    idSet (UpdateIndex ∅ (.ok [⟨kTest, [1, 2, 3]⟩, ⟨kHello, [1, 4]⟩])).2 kTest = [3, 2, 1]
      ∧ idSet (UpdateIndex ∅ (.ok [⟨kTest, [1, 2, 3]⟩, ⟨kHello, [1, 4]⟩])).2 kHello
        = [4, 1] := by
  decide

/-- Value of `SearchIndex` for a limit that is not negative: the hydration of
the first `min(limit, m)` ids of the ranked list `L` of the matching ids. -/
theorem SearchIndex_eval (index : Index) (row : Int → Except GoError GoString)
    (order : List ComicScore → List ComicScore) (words : List GoString) (limit : Int)
    (horder : ∀ l, (order l).Perm l) (hlimit : 0 ≤ limit) :
    ∃ L : List Int,
      L.Nodup
        ∧ (∀ id, id ∈ L ↔ 1 ≤ matchCount index words id)
        ∧ L.Pairwise (rankedBefore index words)
        ∧ SearchIndex index row order (.ok words) limit
          = .ok ⟨hydrate row (L.take (min limit.toNat L.length))⟩ := by
  obtain ⟨hscore, hall, hnodup⟩ := scored_spec index words
  generalize hE : ((countMatches index words).entries.map
      (fun p => ({ ID := p.1, Score := p.2 } : ComicScore))) = scored at hscore hall hnodup
  have hpo : (order scored).Perm scored := horder scored
  have hps : (sortSlice (order scored)).Perm scored := (sortSlice_perm _).trans hpo
  refine ⟨(sortSlice (order scored)).map (·.ID), (hps.map _).nodup_iff.mpr hnodup, ?_, ?_, ?_⟩
  · intro id
    rw [(hps.map (·.ID)).mem_iff]
    constructor
    · intro hid
      obtain ⟨c, hc, rfl⟩ := List.mem_map.mp hid
      exact (hscore c hc).2
    · exact hall id
  · exact sortSlice_ranked index words (order scored)
      (fun c hc => (hscore c (hpo.mem_iff.mp hc)).1)
      ((hpo.map _).nodup_iff.mpr hnodup)
  · have hlen : ¬ (min ((sortSlice (order scored)).length : Int) limit < 0) := by
      have : (0 : Int) ≤ ((sortSlice (order scored)).length : Int) := Int.natCast_nonneg _
      omega
    have hk : (min ((sortSlice (order scored)).length : Int) limit).toNat
        = min limit.toNat (sortSlice (order scored)).length := by
      omega
    unfold SearchIndex
    simp only [hE]
    by_cases h0 : (countMatches index words).entries.length = 0
    · have hs0 : scored = [] := by
        rw [← hE]
        simpa using h0
      have hl0 : (sortSlice (order scored)).length = 0 := by
        rw [hps.length_eq, hs0]
        rfl
      have hs1 : sortSlice (order scored) = [] := List.length_eq_zero.mp hl0
      simp [h0, hs1, hydrate]
    · rw [if_neg h0, if_neg hlen, hk, List.length_map, List.map_take]

theorem hydrate_ids (row : Int → Except GoError GoString) (result : List Int) :
    (hydrate row result).map (·.ID) = result.filter (fun id => (row id).isOk) := by
  induction result with
  | nil => rfl
  | cons a l ih =>
    simp only [hydrate, GetById] at ih ⊢
    cases ha : row a with
    | error e => simp [List.filterMap_cons, ha, ih, Except.isOk, Except.toBool]
    | ok url => simp [List.filterMap_cons, ha, ih, Except.isOk, Except.toBool]

theorem hydrate_rows (row : Int → Except GoError GoString) (result : List Int) :
    ∀ c ∈ hydrate row result, c.ID ∈ result ∧ row c.ID = .ok c.URL := by
  intro c hc
  simp only [hydrate, GetById, List.mem_filterMap] at hc
  obtain ⟨id, hid, h⟩ := hc
  cases hr : row id with
  | error e => simp [hr] at h
  | ok url =>
    simp only [hr, Option.some.injEq] at h
    subst h
    exact ⟨hid, hr⟩

/-- C19: for every index, token list, limit >= 0 and every persistence (whatever
ids fail to hydrate), `SearchIndex` returns without error, and the ids of the
returned comics are the ranked, limit-truncated id list with exactly the ids
whose `GetById` fails left out, in the ranked order; every returned comic is
the row that persistence holds for its id. -/
theorem SearchIndex_tolerates_failures (index : Index) (row : Int → Except GoError GoString)
    (order : List ComicScore → List ComicScore) (words : List GoString) (limit : Int)
    (horder : ∀ l, (order l).Perm l) (hlimit : 0 ≤ limit) :
    ∃ (reply : SearchReply) (L : List Int),
      SearchIndex index row order (.ok words) limit = .ok reply
        ∧ L.Nodup
        ∧ (∀ id, id ∈ L ↔ 1 ≤ matchCount index words id)
        ∧ L.Pairwise (rankedBefore index words)
        ∧ reply.Comics.map (·.ID)
          = (L.take (min limit.toNat L.length)).filter (fun id => (row id).isOk)
        ∧ (∀ c ∈ reply.Comics, row c.ID = .ok c.URL) := by
  obtain ⟨L, h1, h2, h3, h4⟩ := SearchIndex_eval index row order words limit horder hlimit
  exact ⟨_, L, h4, h1, h2, h3, hydrate_ids row _, fun c hc => (hydrate_rows row _ c hc).2⟩

theorem SearchIndex_tolerates_failures_witness :
    ∃ (reply : SearchReply) (L : List Int),
      SearchIndex tieIndex onlyFirstRow List.reverse (.ok [kTest]) 3 = .ok reply
        ∧ L.Nodup
        ∧ (∀ id, id ∈ L ↔ 1 ≤ matchCount tieIndex [kTest] id)
        ∧ L.Pairwise (rankedBefore tieIndex [kTest])
        ∧ reply.Comics.map (·.ID)
          = (L.take (min (3 : Int).toNat L.length)).filter
              (fun id => (onlyFirstRow id).isOk)
        ∧ (∀ c ∈ reply.Comics, onlyFirstRow c.ID = .ok c.URL) :=
  SearchIndex_tolerates_failures tieIndex onlyFirstRow List.reverse [kTest] 3
    (fun l => List.reverse_perm l) (by decide)

/-- The hydration-error test case, evaluated: of the ranked ids 1, 2, 3 only
comic 1 can be read, and it alone is returned, without an error. -/
theorem SearchIndex_hydration_example :
    SearchIndex tieIndex onlyFirstRow List.reverse (.ok [kTest]) 3 = .ok ⟨[⟨1, []⟩]⟩ := by
  decide

end Search

namespace UpdateCore

theorem joinSpace_append_singleton (g : List GoString) (w : GoString) (hg : g ≠ []) :
    joinSpace (g ++ [w]) = joinSpace g ++ [0x20] ++ w := by
  induction g with
  | nil => exact absurd rfl hg
  | cons a l ih =>
    cases l with
    | nil => simp [joinSpace_cons_cons, joinSpace_singleton]
    | cons b l =>
      have := ih (by simp)
      simp only [List.cons_append] at this ⊢
      rw [joinSpace_cons_cons, joinSpace_cons_cons, this]
      simp

theorem joinSpace_ne_nil (g : List GoString) (hg : g ≠ []) (hw : ∀ w ∈ g, w ≠ []) :
    joinSpace g ≠ [] := by
  cases g with
  | nil => exact absurd rfl hg
  | cons a l =>
    have ha : a ≠ [] := hw a (List.mem_cons_self a l)
    cases l with
    | nil => simpa [joinSpace_singleton] using ha
    | cons b l =>
      rw [joinSpace_cons_cons]
      simp [ha]

theorem Greedy_splitStep {maxSize : Int} {b : Builder} {done : List GoString}
    (h : Greedy maxSize b done) (hdone : ∀ w ∈ done, w ≠ []) (word : GoString) :
    Greedy maxSize (splitStep maxSize b word) (done ++ [word]) := by
  obtain ⟨G, g, hg, hG, hch, hcur, hflat, hchain⟩ := h
  have hgw : ∀ w ∈ g, w ≠ [] := by
    intro w hw
    apply hdone w
    rw [← hflat]
    simp only [List.flatten_append, List.flatten_cons, List.flatten_nil, List.append_nil,
      List.mem_append]
    exact Or.inr hw
  have hne : b.currentChunk ≠ [] := by
    rw [hcur]
    exact joinSpace_ne_nil g hg hgw
  have hlen : b.currentChunk.length > 0 := List.length_pos.mpr hne
  by_cases hflush : (b.currentChunk.length : Int) + (word.length : Int) + 1 > maxSize
      ∧ b.currentChunk.length > 0
  · have hstep : splitStep maxSize b word
        = { chunks := b.chunks ++ [b.currentChunk], currentChunk := word } := by
      simp [splitStep, hflush]
    rw [hstep]
    refine ⟨G ++ [g], [word], by simp, ?_, ?_, ?_, ?_, ?_⟩
    · intro x hx
      rcases List.mem_append.mp hx with hx | hx
      · exact hG x hx
      · have : x = g := by simpa using hx
        rw [this]
        exact hg
    · simp [hch, hcur]
    · simp [joinSpace_singleton]
    · rw [List.flatten_append, hflat]
      simp
    · refine List.Chain'.append hchain (List.chain'_singleton _) ?_
      intro x hx y hy
      have hx2 : g = x := by simpa using hx
      have hy2 : [word] = y := by simpa using hy
      subst hx2 hy2
      intro w hw
      have hw2 : w = word := by simpa using hw.symm
      subst hw2
      rw [← hcur]
      omega
  · have hfit : ¬ ((b.currentChunk.length : Int) + (word.length : Int) + 1 > maxSize) :=
      fun h1 => hflush ⟨h1, hlen⟩
    have hstep : splitStep maxSize b word
        = { chunks := b.chunks, currentChunk := b.currentChunk ++ [0x20] ++ word } := by
      unfold splitStep
      rw [if_neg hflush]
      simp [hlen]
    rw [hstep]
    refine ⟨G, g ++ [word], by simp, hG, hch, ?_, ?_, ?_⟩
    · rw [joinSpace_append_singleton g word hg, hcur]
    · rw [← hflat]
      simp
    · rw [List.chain'_append] at hchain ⊢
      refine ⟨hchain.1, List.chain'_singleton _, ?_⟩
      intro x hx y hy
      have hy2 : g ++ [word] = y := by simpa using hy
      subst hy2
      have hR := hchain.2.2 x hx g (by simp)
      intro w hw
      apply hR w
      cases g with
      | nil => exact absurd rfl hg
      | cons a l => simpa using hw

theorem Greedy_foldl (maxSize : Int) (ws : List GoString) :
    ∀ (b : Builder) (done : List GoString), Greedy maxSize b done →
      (∀ w ∈ done, w ≠ []) → (∀ w ∈ ws, w ≠ []) →
      Greedy maxSize (ws.foldl (splitStep maxSize) b) (done ++ ws) := by
  induction ws with
  | nil => intro b done h _ _; simpa using h
  | cons w ws ih =>
    intro b done h hdone hws
    rw [List.foldl_cons]
    have h2 := ih _ (done ++ [w]) (Greedy_splitStep h hdone w)
      (by
        intro x hx
        rcases List.mem_append.mp hx with hx | hx
        · exact hdone x hx
        · have : x = w := by simpa using hx
          rw [this]
          exact hws w (List.mem_cons_self w ws))
      (fun x hx => hws x (List.mem_cons_of_mem w hx))
    simpa using h2

/-- C11: for non-empty words the chunks are the joins of consecutive non-empty
groups of the words, and for every two consecutive groups the byte length of
the earlier chunk plus 1 plus the byte length of the first word of the later
group exceeds `maxSize`: a chunk is closed only when the next word does not
fit. -/
theorem splitWordsIntoChunks_greedy (words : List GoString) (maxSize : Int)
    (hne : ∀ w ∈ words, w ≠ []) :
    ∃ groups : List (List GoString),
      groups.flatten = words
        ∧ (∀ g ∈ groups, g ≠ [])
        ∧ splitWordsIntoChunks words maxSize = groups.map joinSpace
        ∧ groups.Chain' (closesBefore maxSize) := by
  cases words with
  | nil => exact ⟨[], rfl, by simp, rfl, List.chain'_nil⟩
  | cons w ws =>
    have hw : w ≠ [] := hne w (List.mem_cons_self w ws)
    have hws : ∀ x ∈ ws, x ≠ [] := fun x hx => hne x (List.mem_cons_of_mem w hx)
    have h1 : splitStep maxSize { chunks := [], currentChunk := [] } w
        = { chunks := [], currentChunk := w } := by
      simp [splitStep]
    have h0 : Greedy maxSize { chunks := [], currentChunk := w } [w] :=
      ⟨[], [w], by simp, by simp, rfl, (joinSpace_singleton w).symm, by simp,
        List.chain'_singleton _⟩
    obtain ⟨G, g, hg, hG, hch, hcur, hflat, hchain⟩ :=
      Greedy_foldl maxSize ws _ [w] h0 (by simpa using hw) hws
    have hgw : ∀ x ∈ g, x ≠ [] := by
      intro x hx
      apply hne x
      have : x ∈ (G ++ [g]).flatten := by
        simp only [List.flatten_append, List.flatten_cons, List.flatten_nil,
          List.append_nil, List.mem_append]
        exact Or.inr hx
      rw [hflat] at this
      simpa using this
    have hj := joinSpace_ne_nil g hg hgw
    refine ⟨G ++ [g], by simpa using hflat, ?_, ?_, hchain⟩
    · intro x hx
      rcases List.mem_append.mp hx with hx | hx
      · exact hG x hx
      · have : x = g := by simpa using hx
        rw [this]
        exact hg
    · unfold splitWordsIntoChunks splitFinish
      rw [List.foldl_cons, h1, hcur, if_pos (List.length_pos.mpr hj), hch]
      simp

theorem splitWordsIntoChunks_greedy_witness :
    ∃ groups : List (List GoString),
      groups.flatten = sampleWords
        ∧ (∀ g ∈ groups, g ≠ [])
        ∧ splitWordsIntoChunks sampleWords 6 = groups.map joinSpace
        ∧ groups.Chain' (closesBefore 6) :=
  splitWordsIntoChunks_greedy sampleWords 6 (by decide)

/-- The exact-fit test case on short words: `"ab"` and `"c"` fill a chunk of 4
bytes exactly and stay together; with a limit of 3 they are split. -/
theorem exact_fit_example :
    splitWordsIntoChunks [[0x61, 0x62], [0x63]] 4 = [[0x61, 0x62, 0x20, 0x63]]
      ∧ splitWordsIntoChunks [[0x61, 0x62], [0x63]] 3 = [[0x61, 0x62], [0x63]] := by
  decide

theorem normalizeChunks_norm_mem (env : Env) (chunks : List GoString) :
    ∀ (acc : List GoString) (c : GoString),
      Call.Norm c ∈ (normalizeChunks env chunks acc).1 → c ∈ chunks := by
  induction chunks with
  | nil => intro acc c hc; simp [normalizeChunks] at hc
  | cons chunk rest ih =>
    intro acc c hc
    unfold normalizeChunks at hc
    cases hn : env.Norm chunk with
    | error e =>
      simp only [hn, List.mem_singleton, Call.Norm.injEq] at hc
      simp [hc]
    | ok normalized =>
      simp only [hn, List.mem_cons, Call.Norm.injEq] at hc
      rcases hc with hc | hc
      · simp [hc]
      · exact List.mem_cons_of_mem _ (ih _ c hc)

theorem buildComics_norm_mem (env : Env) (raw : XKCDInfo) (c : GoString)
    (h : Call.Norm c ∈ (buildComics env raw).1) :
    c ∈ splitWordsIntoChunks (env.Fields (comicText raw)) maxChunkSize := by
  unfold buildComics at h
  dsimp only at h
  split at h <;> exact normalizeChunks_norm_mem env _ _ c h

theorem getComicsById_norm_mem (env : Env) (i : Int) (raw : XKCDInfo) (c : GoString)
    (hraw : (fetchRaw env i).2 = .ok raw) (h : Call.Norm c ∈ (getComicsById env i).1) :
    c ∈ splitWordsIntoChunks (env.Fields (comicText raw)) maxChunkSize := by
  unfold getComicsById at h
  dsimp only at h
  rw [hraw] at h
  dsimp only at h
  rcases List.mem_append.mp h with h | h
  · have := fetchRaw_calls env i _ h
    cases this
  · exact buildComics_norm_mem env raw c h

/-- C12: the `Norm` RPC of the words service fails with resource-exhausted
exactly for a phrase longer than 4096 bytes; and when every word of a comic
text is at most 4096 bytes long, every chunk that `getComicsById` sends to
the normalizer passes that check. -/
theorem chunks_pass_size_check (norm : GoString → List GoString) (env : Env) (i : Int)
    (raw : XKCDInfo) (hraw : (fetchRaw env i).2 = .ok raw)
    (hwords : ∀ w ∈ env.Fields (comicText raw), w.length ≤ 4096) :
    (∀ phrase, WordsServer.Norm norm phrase = .error .ResourceExhausted
        ↔ phrase.length > 4096)
      ∧ (∀ chunk, Call.Norm chunk ∈ (getComicsById env i).1 →
          chunk.length ≤ 4096 ∧ WordsServer.Norm norm chunk = .ok (norm chunk)) := by
  constructor
  · intro phrase
    unfold WordsServer.Norm
    by_cases h : phrase.length > 4096 <;> simp [h]
  · intro chunk hc
    have hmem := getComicsById_norm_mem env i raw chunk hraw hc
    have hlen : chunk.length ≤ 4096 := by
      rcases (splitWordsIntoChunks_mem _ maxChunkSize chunk hmem).1 with h | h
      · unfold maxChunkSize at h
        omega
      · exact hwords chunk h
    refine ⟨hlen, ?_⟩
    unfold WordsServer.Norm
    have : ¬ (chunk.length > 4096) := by omega
    simp [this]

theorem chunks_pass_size_check_witness :
    (∀ phrase, WordsServer.Norm (fun p => [p]) phrase = .error .ResourceExhausted
        ↔ phrase.length > 4096)
      ∧ (∀ chunk, Call.Norm chunk ∈ (getComicsById sampleEnv 3).1 →
          chunk.length ≤ 4096
            ∧ WordsServer.Norm (fun p => [p]) chunk = .ok ((fun p => [p]) chunk)) :=
  chunks_pass_size_check (fun p => [p]) sampleEnv 3
    { ID := 3, URL := [], Title := [0x54], Description := [0x44],
      SafeTitle := [0x53], Transcript := [0x52] }
    rfl (by decide)

theorem Update_eval (s : Service) (env : Env) (st : State) (lastId : Int) (ids : List Int)
    (hmu : st.mu = false) (hlast : env.LastID = .ok lastId) (hids : env.IDs = .ok ids)
    (hpos : 0 ≤ lastId) :
    Update s env st
      = { result := .ok ()
          state := { mu := false, updateProcessing := false }
          calls := [Call.LastID, Call.IDs]
            ++ (if 0 < s.concurrency then
                  (schedule lastId (existingIDs ids)).jobs.flatMap (workerJob env)
                else [])
            ++ (if (schedule lastId (existingIDs ids)).shouldSendEvent then
                  [Call.SendDBChangedEvent]
                else [])
          jobs := (schedule lastId (existingIDs ids)).jobs } := by
  have hneg : ¬ (lastId < 0) := by omega
  unfold Update
  simp only [hmu, hlast, hids, hneg, Bool.false_eq_true, if_false]

theorem Update_eval_negative (s : Service) (env : Env) (st : State) (lastId : Int)
    (ids : List Int) (hmu : st.mu = false) (hlast : env.LastID = .ok lastId)
    (hids : env.IDs = .ok ids) (hneg : lastId < 0) :
    Update s env st
      = { result := .panic
          state := { mu := false, updateProcessing := false }
          calls := [Call.LastID, Call.IDs]
          jobs := [] } := by
  unfold Update
  simp only [hmu, hlast, hids, hneg, Bool.false_eq_true, if_false, if_true]

theorem workerJob_calls (env : Env) (job : Int) (c : Call) (h : c ∈ workerJob env job) :
    c = Call.Get job ∨ (∃ chunk, c = Call.Norm chunk) ∨ ∃ comics, c = Call.Add comics := by
  unfold workerJob at h
  dsimp only at h
  split at h
  · rcases getComicsById_calls env job c h with h | h
    · exact Or.inl h
    · exact Or.inr (Or.inl h)
  · rcases List.mem_append.mp h with h | h
    · rcases getComicsById_calls env job c h with h | h
      · exact Or.inl h
      · exact Or.inr (Or.inl h)
    · exact Or.inr (Or.inr ⟨_, by simpa using h⟩)

theorem count_event_work (env : Env) (jobs : List Int) :
    (jobs.flatMap (workerJob env)).count Call.SendDBChangedEvent = 0 := by
  rw [List.count_eq_zero]
  intro h
  obtain ⟨job, _, hc⟩ := List.mem_flatMap.mp h
  rcases workerJob_calls env job _ hc with h | ⟨_, h⟩ | ⟨_, h⟩ <;> cases h

/-- C14: in every `Update` run that gets the lock and passes discovery, the
change event is published exactly once, as the last call, when at least one id
was scheduled, and not at all when none was; ids are scheduled exactly when
some `i` in `1..lastId` is not among the existing ids, whatever the fetches,
normalizations and upserts of the scheduled ids answer. -/
theorem Update_publishes_once (s : Service) (env : Env) (st : State)
    (lastId : Int) (ids : List Int)
    (hmu : st.mu = false) (hlast : env.LastID = .ok lastId) (hids : env.IDs = .ok ids) :
    ((Update s env st).jobs ≠ [] →
        (Update s env st).calls.count Call.SendDBChangedEvent = 1
          ∧ (Update s env st).calls.getLast? = some Call.SendDBChangedEvent)
      ∧ ((Update s env st).jobs = [] →
          (Update s env st).calls.count Call.SendDBChangedEvent = 0)
      ∧ ((Update s env st).jobs ≠ [] ↔ ∃ i, 1 ≤ i ∧ i ≤ lastId ∧ i ∉ ids) := by
  have hiff : ∀ l : List Int, (∀ i, i ∈ l ↔ 1 ≤ i ∧ i ≤ lastId ∧ i ∉ ids) →
      (l ≠ [] ↔ ∃ i, 1 ≤ i ∧ i ≤ lastId ∧ i ∉ ids) := by
    intro l hl
    constructor
    · intro hne
      obtain ⟨i, hi⟩ := List.exists_mem_of_ne_nil l hne
      exact ⟨i, (hl i).mp hi⟩
    · rintro ⟨i, hi⟩ hnil
      have := (hl i).mpr hi
      rw [hnil] at this
      simp at this
  by_cases hneg : lastId < 0
  · rw [Update_eval_negative s env st lastId ids hmu hlast hids hneg]
    refine ⟨fun h => absurd rfl h, fun _ => by decide, ?_⟩
    constructor
    · intro h
      exact absurd rfl h
    · rintro ⟨i, h1, h2, _⟩
      omega
  · rw [Update_eval s env st lastId ids hmu hlast hids (by omega)]
    dsimp only
    have hsend := schedule_shouldSendEvent lastId (existingIDs ids)
    refine ⟨fun hne => ?_, fun hnil => ?_, hiff _ (mem_schedule_jobs lastId ids)⟩
    · have hs : (schedule lastId (existingIDs ids)).shouldSendEvent = true := by
        rw [hsend]
        cases hj : (schedule lastId (existingIDs ids)).jobs with
        | nil => exact absurd hj hne
        | cons a l => rfl
      rw [hs]
      constructor
      · rw [List.count_append, List.count_append]
        have h0 : (if 0 < s.concurrency then
            (schedule lastId (existingIDs ids)).jobs.flatMap (workerJob env)
            else []).count Call.SendDBChangedEvent = 0 := by
          split
          · exact count_event_work env _
          · rfl
        rw [h0]
        decide
      · simp only [if_true]
        exact List.getLast?_concat _
    · have hs : (schedule lastId (existingIDs ids)).shouldSendEvent = false := by
        rw [hsend, hnil]
        rfl
      rw [hs, hnil]
      simp only [List.flatMap_nil, ite_self, List.append_nil]
      decide

theorem Update_publishes_once_witness :
    ((Update ⟨2⟩ failingEnv ⟨false, false⟩).jobs ≠ [] →
        (Update ⟨2⟩ failingEnv ⟨false, false⟩).calls.count Call.SendDBChangedEvent = 1
          ∧ (Update ⟨2⟩ failingEnv ⟨false, false⟩).calls.getLast?
            = some Call.SendDBChangedEvent)
      ∧ ((Update ⟨2⟩ failingEnv ⟨false, false⟩).jobs = [] →
          (Update ⟨2⟩ failingEnv ⟨false, false⟩).calls.count Call.SendDBChangedEvent = 0)
      ∧ ((Update ⟨2⟩ failingEnv ⟨false, false⟩).jobs ≠ []
          ↔ ∃ i : Int, 1 ≤ i ∧ i ≤ 3 ∧ i ∉ [1, 2]) :=
  Update_publishes_once ⟨2⟩ failingEnv ⟨false, false⟩ 3 [1, 2] rfl rfl rfl

/-- A run in which the only scheduled id fails at the fetch, evaluated: no
comic is stored, the event is published all the same and `Update` returns
nil. -/
theorem Update_all_fail_example :
    Update ⟨2⟩ failingEnv ⟨false, false⟩
      = { result := .ok ()
          state := ⟨false, false⟩
          calls := [Call.LastID, Call.IDs, Call.Get 3, Call.SendDBChangedEvent]
          jobs := [3] } := by
  decide

/-- C15: when `Update` gets the lock, a failing `LastID` makes it return that
error after this one call (persistence is not asked for the ids), a failing
`IDs` makes it return that error after these two calls; in both cases nothing
is scheduled, fetched, normalized, stored or published and the status is idle
afterwards.  When discovery succeeds, `Update` returns no error, whatever the
fetches, normalizations and upserts of the scheduled ids answer: it returns
nil for every `lastId >= 0`. -/
theorem Update_discovery_errors (s : Service) (env : Env) (st : State)
    (hmu : st.mu = false) :
    (∀ e, env.LastID = .error e →
        (Update s env st).result = .error e
          ∧ (Update s env st).calls = [Call.LastID]
          ∧ (Update s env st).jobs = []
          ∧ Status (Update s env st).state = .StatusIdle)
      ∧ (∀ lastId e, env.LastID = .ok lastId → env.IDs = .error e →
          (Update s env st).result = .error e
            ∧ (Update s env st).calls = [Call.LastID, Call.IDs]
            ∧ (Update s env st).jobs = []
            ∧ Status (Update s env st).state = .StatusIdle)
      ∧ (∀ lastId ids, env.LastID = .ok lastId → env.IDs = .ok ids →
          (∀ e, (Update s env st).result ≠ .error e)
            ∧ (0 ≤ lastId → (Update s env st).result = .ok ())
            ∧ Status (Update s env st).state = .StatusIdle) := by
  refine ⟨fun e he => ?_, fun lastId e hl he => ?_, fun lastId ids hl hi => ?_⟩
  · unfold Update
    simp [hmu, he, Status]
  · unfold Update
    simp [hmu, hl, he, Status]
  · by_cases hneg : lastId < 0
    · rw [Update_eval_negative s env st lastId ids hmu hl hi hneg]
      refine ⟨fun e h => (by cases h), fun h => (by omega), rfl⟩
    · rw [Update_eval s env st lastId ids hmu hl hi (by omega)]
      exact ⟨fun e h => (by cases h), fun _ => rfl, rfl⟩

theorem Update_discovery_errors_witness :
    (∀ e, xkcdErrorEnv.LastID = .error e →
        (Update ⟨2⟩ xkcdErrorEnv ⟨false, false⟩).result = .error e
          ∧ (Update ⟨2⟩ xkcdErrorEnv ⟨false, false⟩).calls = [Call.LastID]
          ∧ (Update ⟨2⟩ xkcdErrorEnv ⟨false, false⟩).jobs = []
          ∧ Status (Update ⟨2⟩ xkcdErrorEnv ⟨false, false⟩).state = .StatusIdle)
      ∧ (∀ lastId e, xkcdErrorEnv.LastID = .ok lastId → xkcdErrorEnv.IDs = .error e →
          (Update ⟨2⟩ xkcdErrorEnv ⟨false, false⟩).result = .error e
            ∧ (Update ⟨2⟩ xkcdErrorEnv ⟨false, false⟩).calls = [Call.LastID, Call.IDs]
            ∧ (Update ⟨2⟩ xkcdErrorEnv ⟨false, false⟩).jobs = []
            ∧ Status (Update ⟨2⟩ xkcdErrorEnv ⟨false, false⟩).state = .StatusIdle)
      ∧ (∀ lastId ids, xkcdErrorEnv.LastID = .ok lastId → xkcdErrorEnv.IDs = .ok ids →
          (∀ e, (Update ⟨2⟩ xkcdErrorEnv ⟨false, false⟩).result ≠ .error e)
            ∧ (0 ≤ lastId → (Update ⟨2⟩ xkcdErrorEnv ⟨false, false⟩).result = .ok ())
            ∧ Status (Update ⟨2⟩ xkcdErrorEnv ⟨false, false⟩).state = .StatusIdle) :=
  Update_discovery_errors ⟨2⟩ xkcdErrorEnv ⟨false, false⟩ rfl

/-- The upstream-error test case, evaluated: `Update` returns the error of
`LastID` after that single call and the status is idle. -/
theorem Update_xkcd_error_example :
    Update ⟨2⟩ xkcdErrorEnv ⟨false, false⟩
      = { result := .error (.other [0x78, 0x6b, 0x63, 0x64])
          state := ⟨false, false⟩
          calls := [Call.LastID]
          jobs := [] } := by
  decide

theorem normalizeChunks_ok (env : Env) (chunks : List GoString) :
    ∀ (acc final : List GoString), (normalizeChunks env chunks acc).2 = .ok final →
      final = acc ++ answers env chunks ∧ ∀ c ∈ chunks, ∃ ws, env.Norm c = .ok ws := by
  induction chunks with
  | nil =>
    intro acc final h
    simp only [normalizeChunks, Except.ok.injEq] at h
    simp [answers, h]
  | cons chunk rest ih =>
    intro acc final h
    unfold normalizeChunks at h
    cases hn : env.Norm chunk with
    | error e => simp [hn] at h
    | ok normalized =>
      simp only [hn] at h
      obtain ⟨h1, h2⟩ := ih _ _ h
      constructor
      · rw [h1]
        simp [answers, hn]
      · intro c hc
        rcases List.mem_cons.mp hc with hc | hc
        · exact ⟨normalized, hc ▸ hn⟩
        · exact h2 c hc

theorem buildComics_ok (env : Env) (raw : XKCDInfo) (comics : Comics)
    (h : (buildComics env raw).2 = .ok comics) :
    comics.ID = raw.ID ∧ comics.URL = raw.URL
      ∧ comics.Words
        = answers env (splitWordsIntoChunks (env.Fields (comicText raw)) maxChunkSize)
      ∧ ∀ c ∈ splitWordsIntoChunks (env.Fields (comicText raw)) maxChunkSize,
          ∃ ws, env.Norm c = .ok ws := by
  unfold buildComics at h
  dsimp only at h
  split at h
  · cases h
  · rename_i final hfinal
    obtain ⟨h1, h2⟩ := normalizeChunks_ok env _ _ _ hfinal
    simp only [Except.ok.injEq] at h
    subst h
    exact ⟨rfl, rfl, h1.trans (List.nil_append _), h2⟩

theorem getComicsById_ok (env : Env) (i : Int) (comics : Comics)
    (h : (getComicsById env i).2 = .ok comics) :
    ∃ raw, (fetchRaw env i).2 = .ok raw ∧ (buildComics env raw).2 = .ok comics := by
  unfold getComicsById at h
  dsimp only at h
  split at h
  · cases h
  · rename_i raw hraw
    exact ⟨raw, hraw, h⟩

theorem getComicsById_of_parts (env : Env) (i : Int) (raw : XKCDInfo) (comics : Comics)
    (hfetch : (fetchRaw env i).2 = .ok raw) (hbuild : (buildComics env raw).2 = .ok comics) :
    (getComicsById env i).2 = .ok comics := by
  unfold getComicsById
  dsimp only
  rw [hfetch]
  exact hbuild

theorem fetchRaw_ok (env : Env) (i : Int) (raw : XKCDInfo)
    (h : (fetchRaw env i).2 = .ok raw) :
    (i = 404 → raw.ID = i) ∧ (i ≠ 404 → env.Get i = .ok raw) := by
  unfold fetchRaw at h
  by_cases h404 : i = 404
  · simp only [h404, if_true, Except.ok.injEq] at h
    subst h
    exact ⟨fun _ => h404.symm, fun hne => absurd h404 hne⟩
  · simp only [h404, if_false] at h
    exact ⟨fun e => absurd e h404, fun _ => h⟩

theorem workerJob_add (env : Env) (job : Int) (comics : Comics) :
    Call.Add comics ∈ workerJob env job ↔ (getComicsById env job).2 = .ok comics := by
  unfold workerJob
  dsimp only
  constructor
  · intro h
    split at h
    · rcases getComicsById_calls env job _ h with h | ⟨_, h⟩ <;> cases h
    · rename_i c hc
      rcases List.mem_append.mp h with h | h
      · rcases getComicsById_calls env job _ h with h | ⟨_, h⟩ <;> cases h
      · have : comics = c := by simpa using h
        rw [this]
        exact hc
  · intro h
    rw [h]
    simp

theorem Update_add_mem (s : Service) (env : Env) (st : State) (comics : Comics)
    (h : Call.Add comics ∈ (Update s env st).calls) :
    ∃ job ∈ (Update s env st).jobs, (getComicsById env job).2 = .ok comics := by
  cases hmu : st.mu with
  | true => simp [Update, hmu] at h
  | false =>
    cases hl : env.LastID with
    | error e => simp [Update, hmu, hl] at h
    | ok lastId =>
      cases hi : env.IDs with
      | error e => simp [Update, hmu, hl, hi] at h
      | ok ids =>
        by_cases hneg : lastId < 0
        · rw [Update_eval_negative s env st lastId ids hmu hl hi hneg] at h
          simp at h
        · rw [Update_eval s env st lastId ids hmu hl hi (by omega)] at h ⊢
          dsimp only at h ⊢
          simp only [List.mem_append, List.mem_cons, List.mem_singleton, List.not_mem_nil,
            or_false] at h
          rcases h with (h | h) | h
          · rcases h with h | h <;> cases h
          · split at h
            · obtain ⟨job, hjob, hc⟩ := List.mem_flatMap.mp h
              exact ⟨job, hjob, (workerJob_add env job comics).mp hc⟩
            · simp at h
          · split at h
            · simp at h
            · simp at h

/-- C16 (as stated, refuted): the upstream answers the fetch of the scheduled
id 3 with a record numbered 7; fetch, normalization and upsert all succeed,
and the one comic handed to the storage upsert has id 7, not 3. -/
theorem Update_misnumbered_record :
    (Update ⟨2⟩ misnumberedEnv ⟨false, false⟩).jobs = [3]
      ∧ (getComicsById misnumberedEnv 3).2 = .ok ⟨7, [], [[0x74]]⟩
      ∧ misnumberedEnv.Add ⟨7, [], [[0x74]]⟩ = .ok ()
      ∧ addedIds (Update ⟨2⟩ misnumberedEnv ⟨false, false⟩).calls = [7] := by
  decide

/-- C16 (amended): in an `Update` run of a service with concurrency >= 1 that
gets the lock and passes discovery, for every scheduled id `i` whose record is
obtained and whose chunks are all normalized, the comic built is handed to the
storage upsert, and its id is the id of the record obtained for `i`: that is `i`
for the locally made record 404, and for another id it is `i` exactly when the
upstream answers `Get i` with a record numbered `i`. -/
theorem Update_persists_upstream_id (s : Service) (env : Env) (st : State)
    (lastId : Int) (ids : List Int) (i : Int) (raw : XKCDInfo) (comics : Comics)
    (hmu : st.mu = false) (hlast : env.LastID = .ok lastId) (hids : env.IDs = .ok ids)
    (hconc : 0 < s.concurrency) (hi : 1 ≤ i ∧ i ≤ lastId ∧ i ∉ ids)
    (hfetch : (fetchRaw env i).2 = .ok raw)
    (hbuild : (buildComics env raw).2 = .ok comics) :
    Call.Add comics ∈ (Update s env st).calls
      ∧ comics.ID = raw.ID
      ∧ (i = 404 → comics.ID = i)
      ∧ (i ≠ 404 → env.Get i = .ok raw)
      ∧ (comics.ID = i ↔ raw.ID = i) := by
  have hid : comics.ID = raw.ID := (buildComics_ok env raw comics hbuild).1
  have hf := fetchRaw_ok env i raw hfetch
  refine ⟨?_, hid, fun h => hid.trans (hf.1 h), hf.2, by rw [hid]⟩
  rw [Update_eval s env st lastId ids hmu hlast hids (by omega)]
  dsimp only
  rw [if_pos hconc]
  apply List.mem_append_left
  apply List.mem_append_right
  refine List.mem_flatMap.mpr ⟨i, (mem_schedule_jobs lastId ids i).mpr hi, ?_⟩
  exact (workerJob_add env i comics).mpr (getComicsById_of_parts env i raw comics hfetch hbuild)

theorem Update_persists_upstream_id_witness :
    Call.Add ⟨3, [], [[0x74]]⟩ ∈ (Update ⟨2⟩ sampleEnv ⟨false, false⟩).calls
      ∧ (⟨3, [], [[0x74]]⟩ : Comics).ID
        = (⟨3, [], [0x54], [0x44], [0x53], [0x52]⟩ : XKCDInfo).ID
      ∧ ((3 : Int) = 404 → (⟨3, [], [[0x74]]⟩ : Comics).ID = 3)
      ∧ ((3 : Int) ≠ 404 → sampleEnv.Get 3 = .ok ⟨3, [], [0x54], [0x44], [0x53], [0x52]⟩)
      ∧ ((⟨3, [], [[0x74]]⟩ : Comics).ID = 3
          ↔ (⟨3, [], [0x54], [0x44], [0x53], [0x52]⟩ : XKCDInfo).ID = 3) :=
  Update_persists_upstream_id ⟨2⟩ sampleEnv ⟨false, false⟩ 3 [1, 2] 3
    ⟨3, [], [0x54], [0x44], [0x53], [0x52]⟩ ⟨3, [], [[0x74]]⟩
    rfl rfl rfl (by decide) (by decide) rfl rfl

/-- C17 (as stated, refuted): the normalizer finds no token in the text of
comic 3; the comic is stored all the same, with an empty list of words, and
3 is not 404. -/
theorem Update_stores_empty_words :
    (Update ⟨2⟩ noTokenEnv ⟨false, false⟩).calls
        = [Call.LastID, Call.IDs, Call.Get 3,
            Call.Norm [0x54, 0x20, 0x44, 0x20, 0x53, 0x20, 0x52],
            Call.Add ⟨3, [], []⟩, Call.SendDBChangedEvent]
      ∧ (3 : Int) ≠ 404 := by
  decide

theorem answers_ne_nil (env : Env) (chunks : List GoString) :
    answers env chunks ≠ []
      ↔ ∃ chunk ∈ chunks, ∃ ws, env.Norm chunk = .ok ws ∧ ws ≠ [] := by
  induction chunks with
  | nil => simp [answers]
  | cons c l ih =>
    have hcons : answers env (c :: l)
        = (match env.Norm c with
            | .ok normalized => normalized
            | .error _ => []) ++ answers env l := by
      simp [answers]
    rw [hcons]
    simp only [ne_eq, List.append_eq_nil, not_and_or, List.mem_cons, exists_eq_or_imp]
    rw [← ne_eq (answers env l), ih]
    apply or_congr _ Iff.rfl
    cases hn : env.Norm c with
    | error e => simp
    | ok ws => simp

/-- C17 (amended): every comic that an `Update` run hands to the storage upsert
has as its words the concatenation of the normalizer's answers for the chunks
of its text, all of which were normalized; so its word list is non-empty
exactly when the normalizer returned at least one token for at least one
chunk. -/
theorem Update_persisted_words (s : Service) (env : Env) (st : State) (comics : Comics)
    (h : Call.Add comics ∈ (Update s env st).calls) :
    ∃ raw : XKCDInfo,
      comics.ID = raw.ID
        ∧ comics.Words
          = answers env (splitWordsIntoChunks (env.Fields (comicText raw)) maxChunkSize)
        ∧ (∀ c ∈ splitWordsIntoChunks (env.Fields (comicText raw)) maxChunkSize,
            ∃ ws, env.Norm c = .ok ws)
        ∧ (comics.Words ≠ []
          ↔ ∃ chunk ∈ splitWordsIntoChunks (env.Fields (comicText raw)) maxChunkSize,
              ∃ ws, env.Norm chunk = .ok ws ∧ ws ≠ []) := by
  obtain ⟨job, _, hjob⟩ := Update_add_mem s env st comics h
  obtain ⟨raw, _, hbuild⟩ := getComicsById_ok env job comics hjob
  obtain ⟨h1, _, h3, h4⟩ := buildComics_ok env raw comics hbuild
  refine ⟨raw, h1, h3, h4, ?_⟩
  rw [h3]
  exact answers_ne_nil env _

theorem Update_persisted_words_witness :
    ∃ raw : XKCDInfo,
      (⟨3, [], [[0x74]]⟩ : Comics).ID = raw.ID
        ∧ (⟨3, [], [[0x74]]⟩ : Comics).Words
          = answers sampleEnv
              (splitWordsIntoChunks (sampleEnv.Fields (comicText raw)) maxChunkSize)
        ∧ (∀ c ∈ splitWordsIntoChunks (sampleEnv.Fields (comicText raw)) maxChunkSize,
            ∃ ws, sampleEnv.Norm c = .ok ws)
        ∧ ((⟨3, [], [[0x74]]⟩ : Comics).Words ≠ []
          ↔ ∃ chunk ∈ splitWordsIntoChunks (sampleEnv.Fields (comicText raw)) maxChunkSize,
              ∃ ws, sampleEnv.Norm chunk = .ok ws ∧ ws ≠ []) :=
  Update_persisted_words ⟨2⟩ sampleEnv ⟨false, false⟩ ⟨3, [], [[0x74]]⟩ (by decide)

theorem split_repeatWords : splitWordsIntoChunks repeatWords maxChunkSize = repeatWords := by
  have hl : longWord.length = 4096 := List.length_replicate _ _
  simp [splitWordsIntoChunks, repeatWords, splitStep, splitFinish, maxChunkSize, hl]

/-- C18 (defect): a comic text with the words `"b"`, a word of 4096 bytes and
`"b"` again is packed into three chunks; the normalizer answers each chunk
with a duplicate-free list, and the word list that `getComicsById` returns for
the upsert holds the token `"b"` twice. -/
theorem getComicsById_repeats_token :
    (∀ chunk ws, repeatEnv.Norm chunk = .ok ws → ws.Nodup)
      ∧ splitWordsIntoChunks (repeatEnv.Fields []) maxChunkSize = repeatWords
      ∧ (getComicsById repeatEnv 1).2 = .ok ⟨1, [], repeatWords⟩
      ∧ repeatWords.count [0x62] = 2
      ∧ ¬ repeatWords.Nodup := by
  refine ⟨?_, split_repeatWords, ?_, ?_, ?_⟩
  · intro chunk ws h
    simp only [repeatEnv, Except.ok.injEq] at h
    subst h
    simp
  · have hf : ∀ t, repeatEnv.Fields t = repeatWords := fun _ => rfl
    have hn : ∀ c, repeatEnv.Norm c = .ok [c] := fun _ => rfl
    have hchunks : ∀ t, splitWordsIntoChunks (repeatEnv.Fields t) maxChunkSize
        = [[0x62], longWord, [0x62]] := fun t => by
      rw [hf, split_repeatWords]
      rfl
    have hfetch : (fetchRaw repeatEnv 1).2 = .ok ⟨1, [], [], [], [], []⟩ := rfl
    apply getComicsById_of_parts repeatEnv 1 _ _ hfetch
    unfold buildComics
    dsimp only
    rw [hchunks]
    simp only [normalizeChunks, hn]
    rfl
  · have hl : longWord.length = 4096 := List.length_replicate _ _
    have hne : ¬ (longWord = [0x62]) := by
      intro h
      rw [h] at hl
      simp at hl
    simp [repeatWords, List.count_cons, hne]
  · simp [repeatWords]

end UpdateCore

namespace Middleware

/-- C20: for every Authorization header and every verifier, the handler built by
`Auth` answers 401 exactly when the header is missing or empty, or lacks the
prefix `"Token "`, or the verifier reports unauthorized for the text after the
prefix; it answers 500 exactly when the header has the prefix and the verifier
returns another error; it calls the protected handler, once, exactly when the
header has the prefix and the verifier accepts.  It never answers 403, and
whenever it answers itself it does not call the protected handler. -/
theorem Auth_verdict (verify : GoString → Except GoError Unit) (header : Option GoString) :
    ((Auth verify header).status = some 401
        ↔ header.getD [] = [] ∨ ¬ bearerPrefix <+: header.getD []
          ∨ verify ((header.getD []).drop bearerPrefix.length) = .error .ErrUnauthorized)
      ∧ ((Auth verify header).status = some 500
        ↔ header.getD [] ≠ [] ∧ bearerPrefix <+: header.getD []
          ∧ ∃ e, verify ((header.getD []).drop bearerPrefix.length) = .error e
              ∧ e ≠ .ErrUnauthorized)
      ∧ ((Auth verify header).nextCalls = 1
        ↔ header.getD [] ≠ [] ∧ bearerPrefix <+: header.getD []
          ∧ verify ((header.getD []).drop bearerPrefix.length) = .ok ())
      ∧ (Auth verify header).nextCalls ≤ 1
      ∧ ((Auth verify header).nextCalls = 1 ↔ (Auth verify header).status = none)
      ∧ (Auth verify header).status ≠ some 403 := by
  unfold Auth
  dsimp only
  generalize header.getD [] = authParam
  by_cases hempty : authParam = []
  · subst hempty
    simp [httpError, StatusUnauthorized]
  · by_cases hpre : bearerPrefix <+: authParam
    · have hb : bearerPrefix.isPrefixOf authParam = true := List.isPrefixOf_iff_prefix.mpr hpre
      simp only [hempty, if_false, hb, Bool.not_true, Bool.false_eq_true, ne_eq,
        not_false_eq_true, true_and, false_or, hpre, not_true_eq_false]
      cases hv : verify (authParam.drop bearerPrefix.length) with
      | error e =>
        by_cases he : e = GoError.ErrUnauthorized
        · subst he
          simp [httpError, StatusUnauthorized]
        · simp [httpError, StatusInternalServerError, he]
      | ok u => simp
    · have hb : bearerPrefix.isPrefixOf authParam = false := by
        rw [Bool.eq_false_iff]
        intro h
        exact hpre (List.isPrefixOf_iff_prefix.mp h)
      simp [hempty, hb, hpre, httpError, StatusUnauthorized]

/-- The four outcomes of the handler on sample requests: no header and a
`Bearer` header give 401, an unauthorized token gives 401, another verifier
error gives 500, an accepted token reaches the protected handler. -/
theorem Auth_examples :
    Auth sampleVerify none = httpError msgRequired 401
      ∧ Auth sampleVerify (some [0x42, 0x65, 0x61, 0x72, 0x65, 0x72, 0x20, 0x74])
        = httpError msgFormat 401
      ∧ Auth sampleVerify (some (bearerPrefix ++ [0x75])) = httpError msgNotPassed 401
      ∧ Auth sampleVerify (some (bearerPrefix ++ [0x78])) = httpError msgWrong 500
      ∧ Auth sampleVerify (some (bearerPrefix ++ [0x74]))
        = { status := none, body := [], nextCalls := 1 } := by
  decide

end Middleware

namespace Search

/-- C29: when reading the index data from persistence fails, `UpdateIndex`
returns exactly the error that persistence reported and the index is the one
it was before the call. -/
theorem UpdateIndex_error (index : Index) (e : GoError) :
    (UpdateIndex index (.error e)).1 = .error e
      ∧ (UpdateIndex index (.error e)).2 = index := by
  exact ⟨rfl, rfl⟩

/-- C30 (defect): with one matching comic in the index and the limit -1,
`min(len(scoredComics), request.Limit)` is -1 and `make([]int, resultCount)`
panics: `SearchIndex` ends in a runtime failure instead of an empty reply. -/
theorem SearchIndex_negative_limit_panics :
    matchCount tieIndex [kTest] 1 = 1
      ∧ SearchIndex tieIndex tieRow id (.ok [kTest]) (-1) = .panic := by
  decide

/-- What `SearchIndex` does for a limit that is not positive: with the limit 0,
or without any matching comic, it returns the empty reply and hydrates nothing;
with a negative limit and at least one match it panics. -/
theorem SearchIndex_nonpositive_limit (index : Index) (row : Int → Except GoError GoString)
    (order : List ComicScore → List ComicScore) (words : List GoString) (limit : Int)
    (horder : ∀ l, (order l).Perm l) (hlimit : limit ≤ 0) :
    SearchIndex index row order (.ok words) limit
      = if limit < 0 ∧ (countMatches index words).entries.length ≠ 0 then .panic
        else .ok ⟨[]⟩ := by
  unfold SearchIndex
  dsimp only
  by_cases h0 : (countMatches index words).entries.length = 0
  · simp [h0]
  · have hlen : (sortSlice (order ((countMatches index words).entries.map
        (fun p => ({ ID := p.1, Score := p.2 } : ComicScore))))).length
        = (countMatches index words).entries.length := by
      rw [(sortSlice_perm _).length_eq, (horder _).length_eq, List.length_map]
    rw [if_neg h0, hlen]
    by_cases hneg : limit < 0
    · have h1 : min ((countMatches index words).entries.length : Int) limit < 0 := by omega
      simp [h1, hneg, h0]
    · have hz : limit = 0 := by omega
      subst hz
      have h1 : ¬ (min ((countMatches index words).entries.length : Int) 0 < 0) := by omega
      have h2 : (min ((countMatches index words).entries.length : Int) 0).toNat = 0 := by
        omega
      simp [h1, h2, hydrate]

end Search

namespace Admission

theorem rstep_generator (rl : RateLimiterHandler) (e : REvent)
    (h : rl.generator = !rl.stopped) : (rstep rl e).generator = !(rstep rl e).stopped := by
  cases e with
  | start =>
    unfold rstep RateLimiterHandler.Start
    cases hs : rl.stopped <;> simp [hs, h]
  | stop =>
    unfold rstep RateLimiterHandler.Stop
    cases hs : rl.stopped <;> simp [hs, h]
  | tick =>
    unfold rstep RateLimiterHandler.tick
    cases hg : rl.generator <;> simp [hg, ← h]
  | wait cancelled =>
    unfold rstep RateLimiterHandler.Wait
    by_cases hs : rl.stopped = true
    · simp [hs, h]
    · by_cases hc : cancelled = true
      · simp [hs, hc, h]
      · by_cases ht : 0 < rl.tokens
        · simp [hs, hc, ht, h]
        · simp [hs, hc, ht, h]
  | submit f =>
    cases f with
    | none => simpa [rstep, RateLimiterHandler.Submit] using h
    | some task =>
      unfold rstep RateLimiterHandler.Submit RateLimiterHandler.Wait
      by_cases hs : rl.stopped = true
      · simp [hs, h]
      · by_cases ht : 0 < rl.tokens
        · simp [hs, ht, h]
        · simp [hs, ht, h]

/-- In every state reached from the constructor the token generator runs
exactly while the limiter is not stopped. -/
theorem rrun_generator (rate : Int) (events : List REvent) :
    (rrun (NewRateLimiterHandler rate) events).generator
      = !(rrun (NewRateLimiterHandler rate) events).stopped := by
  have hgen : ∀ (es : List REvent) (rl : RateLimiterHandler),
      rl.generator = !rl.stopped → (rrun rl es).generator = !(rrun rl es).stopped := by
    intro es
    induction es with
    | nil => intro rl h; exact h
    | cons e es ih =>
      intro rl h
      have := ih (rstep rl e) (rstep_generator rl e h)
      simpa [rrun] using this
  exact hgen events _ rfl

/-- A `Submit` of a task on a limiter whose generator runs while it is not
stopped: it returns accepted at once, having run the task once, or the bucket
is empty and it blocks in `Wait` without running the task, and then the next
tick of the generator or a `Stop` lets it return accepted with the task run
once. -/
theorem Submit_task_cases (rl : RateLimiterHandler) (hgen : rl.generator = !rl.stopped)
    (task : Task) :
    (rl.Submit (some task)).1 ≠ some .StatusRejected
      ∧ (((rl.Submit (some task)).1 = some .StatusAccepted
            ∧ submitSteps rl (some task) = [.wait, .run task])
          ∨ ((rl.Submit (some task)).1 = none
            ∧ (rl.Submit (some task)).2 = rl
            ∧ submitSteps rl (some task) = [.wait]
            ∧ (rl.tick.Submit (some task)).1 = some .StatusAccepted
            ∧ submitSteps rl.tick (some task) = [.wait, .run task]
            ∧ (rl.Stop.Submit (some task)).1 = some .StatusAccepted
            ∧ submitSteps rl.Stop (some task) = [.wait, .run task])) := by
  unfold RateLimiterHandler.Submit submitSteps RateLimiterHandler.Wait
    RateLimiterHandler.tick RateLimiterHandler.Stop
  by_cases hs : rl.stopped = true
  · simp [hs]
  · have hs2 : rl.stopped = false := by simpa using hs
    have hg : rl.generator = true := by rw [hgen, hs2]; rfl
    by_cases ht : 0 < rl.tokens
    · simp [hs2, ht]
    · have ht0 : rl.tokens = 0 := by omega
      simp [hs2, hg, ht0]

/-- C27: in every state of the rate limiter reached from the constructor,
`Submit(nil)` returns rejected at once: it does not enter `Wait` and leaves the
limiter, its tokens included, as it was.  For a non-nil task `Submit` never
returns rejected: it returns accepted, having run the task exactly once after
`Wait` and before returning, either at once or, when the bucket of a started
limiter is empty, after it has been blocked in `Wait` until the next tick of
the generator or a `Stop`. -/
theorem Submit_rate_verdict (rate : Int) (events : List REvent) :
    let rl := rrun (NewRateLimiterHandler rate) events
    rl.Submit none = (some .StatusRejected, rl)
      ∧ submitSteps rl none = []
      ∧ ∀ task : Task,
          (rl.Submit (some task)).1 ≠ some .StatusRejected
            ∧ (((rl.Submit (some task)).1 = some .StatusAccepted
                  ∧ submitSteps rl (some task) = [.wait, .run task])
                ∨ ((rl.Submit (some task)).1 = none
                  ∧ (rl.Submit (some task)).2 = rl
                  ∧ submitSteps rl (some task) = [.wait]
                  ∧ (rl.tick.Submit (some task)).1 = some .StatusAccepted
                  ∧ submitSteps rl.tick (some task) = [.wait, .run task]
                  ∧ (rl.Stop.Submit (some task)).1 = some .StatusAccepted
                  ∧ submitSteps rl.Stop (some task) = [.wait, .run task])) := by
  intro rl
  exact ⟨rfl, rfl, fun task => Submit_task_cases rl (rrun_generator rate events) task⟩

/-- The submit test cases on a started limiter, evaluated: the first task is
run and accepted, a nil function is rejected, and a second task finds the
bucket empty and waits. -/
theorem Submit_rate_example :
    ((NewRateLimiterHandler 100).Start.Submit (some 1)).1 = some .StatusAccepted
      ∧ submitSteps (NewRateLimiterHandler 100).Start (some 1) = [.wait, .run 1]
      ∧ ((NewRateLimiterHandler 100).Start.Submit none).1 = some .StatusRejected
      ∧ (((NewRateLimiterHandler 100).Start.Submit (some 1)).2.Submit (some 2)).1 = none := by
  decide

end Admission

namespace UpdateCore

theorem fetchRaw_404 (env : Env) : fetchRaw env 404 = ([], .ok record404) := rfl

theorem fetchRaw_other (env : Env) (i : Int) (h : i ≠ 404) :
    fetchRaw env i = ([Call.Get i], env.Get i) := by
  unfold fetchRaw
  rw [if_neg h]

theorem count_get_buildComics (env : Env) (raw : XKCDInfo) (j : Int) :
    (buildComics env raw).1.count (Call.Get j) = 0 := by
  rw [List.count_eq_zero]
  intro h
  obtain ⟨chunk, hc⟩ := buildComics_calls env raw _ h
  cases hc

theorem Update_get_mem (s : Service) (env : Env) (st : State) (i : Int)
    (h : Call.Get i ∈ (Update s env st).calls) : Call.Get i ∈ (getComicsById env i).1 := by
  cases hmu : st.mu with
  | true => simp [Update, hmu] at h
  | false =>
    cases hl : env.LastID with
    | error e => simp [Update, hmu, hl] at h
    | ok lastId =>
      cases hi : env.IDs with
      | error e => simp [Update, hmu, hl, hi] at h
      | ok ids =>
        by_cases hneg : lastId < 0
        · rw [Update_eval_negative s env st lastId ids hmu hl hi hneg] at h
          simp at h
        · rw [Update_eval s env st lastId ids hmu hl hi (by omega)] at h
          dsimp only at h
          simp only [List.mem_append, List.mem_cons, List.mem_singleton, List.not_mem_nil,
            or_false] at h
          rcases h with (h | h) | h
          · rcases h with h | h <;> cases h
          · split at h
            · obtain ⟨job, _, hc⟩ := List.mem_flatMap.mp h
              have hij := workerJob_get env job i hc
              subst hij
              unfold workerJob at hc
              dsimp only at hc
              split at hc
              · exact hc
              · rcases List.mem_append.mp hc with hc | hc
                · exact hc
                · simp at hc
            · simp at h
          · split at h
            · simp at h
            · simp at h

/-- C26: for id 404 `getComicsById` makes no upstream fetch: it builds the
record with id 404, titles `"404"`, description and transcript `"Not found"`
and an empty url; when `strings.Fields` splits the text
`"404 Not found 404 Not found"` into its six words, that text is the one chunk
sent to the normalizer, and the comic returned has id 404, an empty url and
the normalizer's answer as words.  No `Update` run ever fetches id 404.  For
every other id the upstream fetch of that id is called exactly once, and no
other id is fetched. -/
theorem getComicsById_404 (env : Env) (hfields : env.Fields text404 = words404) :
    fetchRaw env 404 = ([], .ok record404)
      ∧ comicText record404 = text404
      ∧ (∀ ws, env.Norm text404 = .ok ws →
          getComicsById env 404 = ([Call.Norm text404], .ok ⟨404, [], ws⟩))
      ∧ (∀ i, Call.Get i ∉ (getComicsById env 404).1)
      ∧ (∀ (s : Service) (st : State), Call.Get 404 ∉ (Update s env st).calls)
      ∧ (∀ i, i ≠ 404 →
          (getComicsById env i).1.count (Call.Get i) = 1
            ∧ ∀ j, j ≠ i → Call.Get j ∉ (getComicsById env i).1) := by
  have htext : comicText record404 = text404 := by decide
  have hchunks : splitWordsIntoChunks words404 maxChunkSize = [text404] := by decide
  have hno : ∀ i, Call.Get i ∉ (getComicsById env 404).1 := by
    intro i h
    rcases getComicsById_calls env 404 _ h with h1 | ⟨_, h1⟩
    · have hi : i = 404 := Call.Get.inj h1
      subst hi
      unfold getComicsById at h
      dsimp only at h
      rw [fetchRaw_404] at h
      dsimp only at h
      rw [List.nil_append] at h
      obtain ⟨_, hc⟩ := buildComics_calls env record404 _ h
      cases hc
    · cases h1
  refine ⟨rfl, htext, ?_, hno, ?_, ?_⟩
  · intro ws hws
    have hb : buildComics env record404 = ([Call.Norm text404], .ok ⟨404, [], ws⟩) := by
      unfold buildComics
      dsimp only
      have : env.Fields (record404.Title ++ [0x20] ++ record404.Description ++ [0x20]
          ++ record404.SafeTitle ++ [0x20] ++ record404.Transcript) = words404 := by
        rw [← hfields, ← htext]
        rfl
      rw [this, hchunks]
      simp only [normalizeChunks, hws]
      rfl
    unfold getComicsById
    dsimp only
    rw [fetchRaw_404]
    dsimp only
    rw [hb]
    rfl
  · intro s st h
    exact hno 404 (Update_get_mem s env st 404 h)
  · intro i hi
    constructor
    · unfold getComicsById
      dsimp only
      rw [fetchRaw_other env i hi]
      dsimp only
      split
      · simp
      · rw [List.count_append, count_get_buildComics]
        simp
    · intro j hj h
      rcases getComicsById_calls env i _ h with h1 | ⟨_, h1⟩
      · exact hj (Call.Get.inj h1)
      · cases h1

theorem getComicsById_404_witness :
    fetchRaw env404 404 = ([], .ok record404)
      ∧ comicText record404 = text404
      ∧ (∀ ws, env404.Norm text404 = .ok ws →
          getComicsById env404 404 = ([Call.Norm text404], .ok ⟨404, [], ws⟩))
      ∧ (∀ i, Call.Get i ∉ (getComicsById env404 404).1)
      ∧ (∀ (s : Service) (st : State), Call.Get 404 ∉ (Update s env404 st).calls)
      ∧ (∀ i, i ≠ 404 →
          (getComicsById env404 i).1.count (Call.Get i) = 1
            ∧ ∀ j, j ≠ i → Call.Get j ∉ (getComicsById env404 i).1) :=
  getComicsById_404 env404 (by decide)

/-- Id 404 on the sample collaborators, evaluated: one call, to the normalizer,
and a comic with id 404, an empty url and the normalizer's answer. -/
theorem getComicsById_404_example :
    getComicsById env404 404 = ([Call.Norm text404], .ok ⟨404, [], [text404]⟩) := by
  decide

end UpdateCore

namespace Auth

theorem loginClaims_lookup (a : AAA) (now : Int) :
    (loginClaims a now).lookup kExp = some (.number ((now + a.tokenTTL) / second))
      ∧ (loginClaims a now).lookup kAuthorized = some (.bool true)
      ∧ (loginClaims a now).lookup kSub = some (.string adminRole)
      ∧ (loginClaims a now).lookup kIat = none
      ∧ (loginClaims a now).lookup kNbf = none :=
  ⟨rfl, rfl, rfl, rfl, rfl⟩

/-- Evaluation of `Verify` on a token that carries the claims of `Login`: it is
accepted exactly when the signature is a MAC under the process secret and the
clock has not passed the start of the second stored in `exp`. -/
theorem Verify_loginClaims (a : AAA) (now t : Int) (sig : Option GoString) :
    Verify t (.wellFormed { alg := .HS256, claims := loginClaims a now, signedWith := sig })
      = if sig = some secretKey ∧ t ≤ (now + a.tokenTTL) / second * second then .ok ()
        else .error .ErrUnauthorized := by
  obtain ⟨hexp, hauth, hsub, hiat, hnbf⟩ := loginClaims_lookup a now
  unfold Verify jwtParse keyFunc claimsValid verifyTimeClaim
  simp only [SigningMethod.isHMAC, if_true, hexp, hauth, hsub, hiat, hnbf, Bool.and_true]
  by_cases hs : sig = some secretKey
  · by_cases ht : t ≤ (now + a.tokenTTL) / second * second
    · have hlib : t / second ≤ (now + a.tokenTTL) / second := by
        unfold second at ht ⊢; omega
      have hnot : ¬ t > (now + a.tokenTTL) / second * second := not_lt.mpr ht
      simp [hs, ht, hlib, hnot, hexp, hauth, hsub]
    · have hgt : t > (now + a.tokenTTL) / second * second := not_le.mp ht
      by_cases hlib : t / second ≤ (now + a.tokenTTL) / second
      · simp [hs, ht, hlib, hgt, hexp, hauth, hsub]
      · simp [hs, ht, hlib]
  · simp [hs]

/-- C21 (as stated, refuted): with a TTL of one second, the token that `Login`
issues for the administrator at 0.9 s expires at 1.9 s, yet `Verify` rejects it
already at 1.5 s: the `exp` claim keeps only the whole second 1. -/
theorem Verify_rejects_before_ttl_elapsed :
    Login shortAAA 900000000 [0x61, 0x64, 0x6d, 0x69, 0x6e] [0x73, 0x65, 0x63, 0x72, 0x65, 0x74]
        = .ok (.wellFormed
            { alg := .HS256, claims := loginClaims shortAAA 900000000,
              signedWith := some secretKey })
      ∧ (loginClaims shortAAA 900000000).lookup kExp = some (.number 1)
      ∧ (1500000000 : Int) < 900000000 + shortAAA.tokenTTL
      ∧ Verify 1500000000 (.wellFormed
            { alg := .HS256, claims := loginClaims shortAAA 900000000,
              signedWith := some secretKey }) = .error .ErrUnauthorized := by
  refine ⟨rfl, rfl, by decide, by decide⟩

/-- C21 (amended): for a credential pair `(u, p)` of the user map and every TTL,
`Login u p` at instant `now` returns an HS256 token whose `exp` is the whole
second of `now + TTL`; `Verify` accepts that token at every instant up to the
start of that second, hence whenever at least one second of the TTL remains,
rejects it as unauthorized at every later instant, hence once the TTL has
elapsed, and rejects it as unauthorized at every instant when its signature is
not a MAC under the process secret. -/
theorem Login_token_lifetime (a : AAA) (u p : GoString) (now : Int)
    (hp : a.users.lookup u = some p) :
    ∃ tok : JWT, Login a now u p = .ok (.wellFormed tok)
      ∧ tok.claims.lookup kExp = some (.number ((now + a.tokenTTL) / second))
      ∧ (∀ t, t ≤ (now + a.tokenTTL) / second * second →
          Verify t (.wellFormed tok) = .ok ())
      ∧ (∀ t, t + second ≤ now + a.tokenTTL → Verify t (.wellFormed tok) = .ok ())
      ∧ (∀ t, (now + a.tokenTTL) / second * second < t →
          Verify t (.wellFormed tok) = .error .ErrUnauthorized)
      ∧ (∀ t, now + a.tokenTTL < t → Verify t (.wellFormed tok) = .error .ErrUnauthorized)
      ∧ (∀ t sig, sig ≠ tok.signedWith →
          Verify t (.wellFormed { tok with signedWith := sig }) = .error .ErrUnauthorized) := by
  refine ⟨{ alg := .HS256, claims := loginClaims a now, signedWith := some secretKey },
    ?_, rfl, ?_, ?_, ?_, ?_, ?_⟩
  · unfold Login
    simp [hp]
  · intro t ht
    rw [Verify_loginClaims]
    simp [ht]
  · intro t ht
    rw [Verify_loginClaims]
    have : t ≤ (now + a.tokenTTL) / second * second := by
      unfold second at ht ⊢; omega
    simp [this]
  · intro t ht
    rw [Verify_loginClaims]
    simp [not_le.mpr ht]
  · intro t ht
    rw [Verify_loginClaims]
    have : ¬ t ≤ (now + a.tokenTTL) / second * second := by
      unfold second; omega
    simp [this]
  · intro t sig hs
    rw [Verify_loginClaims]
    simp [hs]

theorem Login_token_lifetime_witness :
    shortAAA.users.lookup [0x61, 0x64, 0x6d, 0x69, 0x6e] = some [0x73, 0x65, 0x63, 0x72, 0x65, 0x74]
      ∧ ∃ tok : JWT,
        Login shortAAA 900000000 [0x61, 0x64, 0x6d, 0x69, 0x6e] [0x73, 0x65, 0x63, 0x72, 0x65, 0x74]
            = .ok (.wellFormed tok)
          ∧ tok.claims.lookup kExp
              = some (.number ((900000000 + shortAAA.tokenTTL) / second))
          ∧ (∀ t, t ≤ (900000000 + shortAAA.tokenTTL) / second * second →
              Verify t (.wellFormed tok) = .ok ())
          ∧ (∀ t, t + second ≤ 900000000 + shortAAA.tokenTTL →
              Verify t (.wellFormed tok) = .ok ())
          ∧ (∀ t, (900000000 + shortAAA.tokenTTL) / second * second < t →
              Verify t (.wellFormed tok) = .error .ErrUnauthorized)
          ∧ (∀ t, 900000000 + shortAAA.tokenTTL < t →
              Verify t (.wellFormed tok) = .error .ErrUnauthorized)
          ∧ (∀ t sig, sig ≠ tok.signedWith →
              Verify t (.wellFormed { tok with signedWith := sig }) = .error .ErrUnauthorized) :=
  ⟨rfl, Login_token_lifetime shortAAA _ _ 900000000 rfl⟩

end Auth

namespace Rest

/-- C28 (as stated, refuted): on the query string `limit=&phrase=cat` the limit
is supplied and its value, the empty string, is not a positive integer, yet both
handlers call the backend once, with the limit 10, and do not answer 400. -/
theorem searchHandlerCommon_empty_limit :
    emptyLimitQuery.lookup kLimit = some [[]]
      ∧ ∀ (Atoi : GoString → Except GoError Int) (searcher : Searcher) (withIndex : Bool),
          (searchHandlerCommon Atoi searcher withIndex emptyLimitQuery).calls
              = [{ withIndex := withIndex, phrase := kCat, limit := 10 }]
            ∧ ∀ msg, (searchHandlerCommon Atoi searcher withIndex emptyLimitQuery).response
                ≠ .badRequest msg := by
  refine ⟨rfl, fun Atoi searcher withIndex => ?_⟩
  have hl : emptyLimitQuery.Get kLimit = [] := rfl
  have hp : emptyLimitQuery.Get kPhrase = kCat := rfl
  have hne : kCat ≠ [] := by decide
  unfold searchHandlerCommon
  simp only [hl, hp, if_true, if_neg hne]
  cases withIndex
  · cases searcher.Search kCat 10 <;> simp
  · cases searcher.SearchIndex kCat 10 <;> simp

/-- C28 (amended): for every query string, both handlers answer 400 without
calling the backend exactly when the first `phrase` value is empty or missing,
or the first `limit` value is non-empty and `strconv.Atoi` does not read it as
a positive integer; a missing or empty `limit` value stands for 10; in every
other case the backend method of the handler is called exactly once, with the
phrase and the limit, so it never receives an empty phrase or a limit `<= 0`. -/
theorem searchHandlerCommon_verdict (Atoi : GoString → Except GoError Int)
    (searcher : Searcher) (withIndex : Bool) (query : Values) :
    let limitRaw := query.Get kLimit
    let phrase := query.Get kPhrase
    let h := searchHandlerCommon Atoi searcher withIndex query
    ((phrase = [] ∨ (limitRaw ≠ [] ∧ ∀ n, Atoi limitRaw = .ok n → n ≤ 0))
        → h.calls = [] ∧ ∃ msg, h.response = .badRequest msg)
      ∧ (¬ (phrase = [] ∨ (limitRaw ≠ [] ∧ ∀ n, Atoi limitRaw = .ok n → n ≤ 0))
        → ∃ limit : Int,
            ((limitRaw = [] ∧ limit = 10) ∨ (limitRaw ≠ [] ∧ Atoi limitRaw = .ok limit))
              ∧ 0 < limit ∧ phrase ≠ []
              ∧ h.calls = [{ withIndex := withIndex, phrase := phrase, limit := limit }]
              ∧ (h.response
                    = (match (if withIndex then searcher.SearchIndex phrase limit
                              else searcher.Search phrase limit) with
                       | .error err => .internalError err
                       | .ok answer => .json { Comics := answer, Total := answer.length }))) := by
  intro limitRaw phrase h
  have hdef : h = searchHandlerCommon Atoi searcher withIndex query := rfl
  unfold searchHandlerCommon at hdef
  change h = (match (if limitRaw = [] then some 10 else
      match Atoi limitRaw with
      | .error _ => none
      | .ok limit => if limit ≤ 0 then none else some limit) with
    | none => { calls := [], response := .badRequest msgLimit }
    | some limit =>
      if phrase = [] then { calls := [], response := .badRequest msgPhrase }
      else
        match (if withIndex then searcher.SearchIndex phrase limit
          else searcher.Search phrase limit) with
        | .error err =>
          { calls := [{ withIndex := withIndex, phrase := phrase, limit := limit }],
            response := .internalError err }
        | .ok answer =>
          { calls := [{ withIndex := withIndex, phrase := phrase, limit := limit }],
            response := .json { Comics := answer, Total := answer.length } }) at hdef
  by_cases hl : limitRaw = []
  · simp only [hl, if_true] at hdef
    by_cases hp : phrase = []
    · simp only [hp, if_true] at hdef
      refine ⟨fun _ => ?_, fun hn => absurd (Or.inl hp) hn⟩
      rw [hdef]
      exact ⟨rfl, _, rfl⟩
    · simp only [if_neg hp] at hdef
      refine ⟨fun hb => ?_, fun _ => ⟨10, Or.inl ⟨hl, rfl⟩, by decide, hp, ?_, ?_⟩⟩
      · rcases hb with hb | hb
        · exact absurd hb hp
        · exact absurd hl hb.1
      · rw [hdef]; split <;> rfl
      · rw [hdef]; split <;> rfl
  · simp only [if_neg hl] at hdef
    cases ha : Atoi limitRaw with
    | error e =>
      simp only [ha] at hdef
      refine ⟨fun _ => ?_, fun hn => ?_⟩
      · rw [hdef]; exact ⟨rfl, _, rfl⟩
      · exact absurd (Or.inr ⟨hl, fun n hn2 => by cases hn2⟩) hn
    | ok limit =>
      simp only [ha] at hdef
      by_cases hpos : limit ≤ 0
      · simp only [if_pos hpos] at hdef
        refine ⟨fun _ => ?_, fun hn => ?_⟩
        · rw [hdef]; exact ⟨rfl, _, rfl⟩
        · refine absurd (Or.inr ⟨hl, fun n hn2 => ?_⟩) hn
          cases hn2
          exact hpos
      · simp only [if_neg hpos] at hdef
        by_cases hp : phrase = []
        · simp only [hp, if_true] at hdef
          refine ⟨fun _ => ?_, fun hn => absurd (Or.inl hp) hn⟩
          rw [hdef]
          exact ⟨rfl, _, rfl⟩
        · simp only [if_neg hp] at hdef
          refine ⟨fun hb => ?_, fun _ => ⟨limit, Or.inr ⟨hl, rfl⟩, not_le.mp hpos, hp, ?_, ?_⟩⟩
          · rcases hb with hb | hb
            · exact absurd hb hp
            · exact absurd (hb.2 limit rfl) hpos
          · rw [hdef]; split <;> rfl
          · rw [hdef]; split <;> rfl

end Rest

namespace Words

theorem foldl_insert_lookup (ws : List Runes) (m : GoMap Runes Bool) (t : Runes) :
    ((ws.foldl (fun m word => m.insert word true) m).lookup t).getD false = true
      ↔ t ∈ ws ∨ (m.lookup t).getD false = true := by
  induction ws generalizing m with
  | nil => simp
  | cons w ws ih =>
    rw [List.foldl_cons, ih, List.mem_cons]
    by_cases h : t = w
    · subst h
      simp [AList.lookup_insert]
    · simp [AList.lookup_insert_ne h, h]

theorem permissioned_iff (word : Runes) :
    permissioned word = true ↔ word ∈ forbittenWords := by
  unfold permissioned isPermissioned
  rw [foldl_insert_lookup]
  simp [AList.lookup_empty]

theorem mem_normWord (stem : Runes → Except GoError Runes) (m : GoMap Runes Bool)
    (w t : Runes) :
    t ∈ (normWord stem m w).keys
      ↔ t ∈ m.keys
        ∨ (permissioned t = false
            ∧ (stem w = .ok t ∨ ((∃ e, stem w = .error e) ∧ t = w))) := by
  unfold normWord
  cases hs : stem w with
  | ok tmp =>
    by_cases hp : permissioned tmp = true
    · simp only [hp, Bool.not_true, Bool.false_eq_true, if_false]
      constructor
      · exact Or.inl
      · rintro (h | ⟨h1, h2 | ⟨⟨e, he⟩, _⟩⟩)
        · exact h
        · cases h2
          rw [hp] at h1
          cases h1
        · cases he
    · have hp2 : permissioned tmp = false := by simpa using hp
      simp only [hp2, Bool.not_false, if_true]
      rw [← AList.mem_keys, AList.mem_insert, AList.mem_keys]
      constructor
      · rintro (h | h)
        · subst h
          exact Or.inr ⟨hp2, Or.inl rfl⟩
        · exact Or.inl h
      · rintro (h | ⟨_, h2 | ⟨⟨e, he⟩, _⟩⟩)
        · exact Or.inr h
        · cases h2
          exact Or.inl rfl
        · cases he
  | error e =>
    by_cases hp : permissioned w = true
    · simp only [hp, Bool.not_true, Bool.false_eq_true, if_false]
      constructor
      · exact Or.inl
      · rintro (h | ⟨h1, h2 | ⟨_, h3⟩⟩)
        · exact h
        · cases h2
        · subst h3
          rw [hp] at h1
          cases h1
    · have hp2 : permissioned w = false := by simpa using hp
      simp only [hp2, Bool.not_false, if_true]
      rw [← AList.mem_keys, AList.mem_insert, AList.mem_keys]
      constructor
      · rintro (h | h)
        · subst h
          exact Or.inr ⟨hp2, Or.inr ⟨⟨e, rfl⟩, rfl⟩⟩
        · exact Or.inl h
      · rintro (h | ⟨_, h2 | ⟨_, h3⟩⟩)
        · exact Or.inr h
        · cases h2
        · exact Or.inl h3

theorem mem_foldl_normWord (stem : Runes → Except GoError Runes) (ws : List Runes)
    (m : GoMap Runes Bool) (t : Runes) :
    t ∈ (ws.foldl (normWord stem) m).keys
      ↔ t ∈ m.keys
        ∨ ∃ w ∈ ws, permissioned t = false
            ∧ (stem w = .ok t ∨ ((∃ e, stem w = .error e) ∧ t = w)) := by
  induction ws generalizing m with
  | nil => simp
  | cons w ws ih =>
    rw [List.foldl_cons, ih, mem_normWord]
    constructor
    · rintro ((h | h) | ⟨w2, hw2, h⟩)
      · exact Or.inl h
      · exact Or.inr ⟨w, List.mem_cons_self _ _, h⟩
      · exact Or.inr ⟨w2, List.mem_cons_of_mem _ hw2, h⟩
    · rintro (h | ⟨w2, hw2, h⟩)
      · exact Or.inl (Or.inl h)
      · rcases List.mem_cons.1 hw2 with rfl | hw2
        · exact Or.inl (Or.inr h)
        · exact Or.inr ⟨w2, hw2, h⟩

/-- Membership in the answer of `Norm`: a token is returned exactly when it is
not a stop word and it is the stem of a word of the phrase, or the word itself
when the stemmer fails on it. -/
theorem mem_Norm (u : Tables) (stem : Runes → Except GoError Runes)
    (order : List Runes → List Runes) (horder : ∀ l, (order l).Perm l)
    (phrase t : Runes) :
    t ∈ Norm u stem order phrase
      ↔ ∃ w ∈ splitByNonAlphanumericUnicode u phrase, permissioned t = false
          ∧ (stem w = .ok t ∨ ((∃ e, stem w = .error e) ∧ t = w)) := by
  unfold Norm
  simp only []
  rw [(horder _).mem_iff, mem_foldl_normWord]
  simp [AList.keys_empty]

theorem Norm_nodup_of_perm (u : Tables) (stem : Runes → Except GoError Runes)
    (order : List Runes → List Runes) (horder : ∀ l, (order l).Perm l) (phrase : Runes) :
    (Norm u stem order phrase).Nodup := by
  unfold Norm
  exact (horder _).nodup_iff.2 (AList.keys_nodup _)

theorem foldl_scanRune_alnum (u : Tables) (w : Runes) (res : List Runes) (cur : Runes)
    (hw : ∀ r ∈ w, alnum u r = true) :
    w.foldl (scanRune u) { result := res, current := cur }
      = { result := res, current := cur ++ w } := by
  induction w generalizing cur with
  | nil => simp
  | cons r w ih =>
    have hr : (IsLetter u r || IsDigit u r) = true := hw r (List.mem_cons_self _ _)
    rw [List.foldl_cons]
    have hstep : scanRune u { result := res, current := cur } r
        = { result := res, current := cur ++ [r] } := by
      unfold scanRune
      simp only [hr, if_true]
    rw [hstep, ih _ (fun r2 h2 => hw r2 (List.mem_cons_of_mem _ h2))]
    simp

theorem alnum_space (u : Tables) : alnum u ' ' = false := rfl

/-- Splitting a list of non-empty words of letters and digits that was joined
by single spaces gives the words back. -/
theorem split_joinSpace (u : Tables) (L : List Runes) (res : List Runes)
    (hL : ∀ w ∈ L, w ≠ [] ∧ ∀ r ∈ w, alnum u r = true) :
    flush ((joinSpace L).foldl (scanRune u) { result := res, current := [] }) = res ++ L := by
  induction L generalizing res with
  | nil => simp [joinSpace, flush]
  | cons w ws ih =>
    obtain ⟨hne, hal⟩ := hL w (List.mem_cons_self _ _)
    have hpos : w.length > 0 := List.length_pos.2 hne
    cases ws with
    | nil =>
      simp only [joinSpace]
      rw [foldl_scanRune_alnum u w res [] hal]
      simp [flush, hpos]
    | cons w2 ws =>
      simp only [joinSpace]
      rw [List.foldl_append, foldl_scanRune_alnum u w res [] hal, List.foldl_cons]
      have hsp : (IsLetter u ' ' || IsDigit u ' ') = false := alnum_space u
      have hstep : scanRune u { result := res, current := [] ++ w } ' '
          = { result := res ++ [w], current := [] } := by
        unfold scanRune
        simp [hsp, hpos]
      rw [hstep, ih (res ++ [w]) (fun w3 h3 => hL w3 (List.mem_cons_of_mem _ h3))]
      simp

theorem splitByNonAlphanumericUnicode_joinSpace (u : Tables) (L : List Runes)
    (hL : ∀ w ∈ L, w ≠ [] ∧ ∀ r ∈ w, alnum u r = true) :
    splitByNonAlphanumericUnicode u (joinSpace L) = L := by
  unfold splitByNonAlphanumericUnicode
  rw [split_joinSpace u L [] hL]
  simp

theorem filter_modifyHead_append (cur : Runes) (l : List Runes) (hl : l ≠ []) (r : Char) :
    List.modifyHead (fun w => cur ++ w) (List.modifyHead (List.cons r) l)
      = List.modifyHead (fun w => (cur ++ [r]) ++ w) l := by
  cases l with
  | nil => exact absurd rfl hl
  | cons a l => simp

theorem splitOnP_ne_nil (p : Char → Bool) (l : Runes) : l.splitOnP p ≠ [] := by
  cases l with
  | nil => simp [List.splitOnP_nil]
  | cons a l =>
    rw [List.splitOnP_cons]
    split
    · simp
    · cases h : List.splitOnP p l with
      | nil => exact absurd h (List.splitOnP_ne_nil p l)
      | cons b t => simp

/-- The loop of the splitter, started with collected words `res` and an open
word `cur`, ends with `res` followed by the non-empty pieces of the rest of
the string, the first piece prolonging `cur`. -/
theorem flush_foldl_scanRune (u : Tables) (l : Runes) (res : List Runes) (cur : Runes) :
    flush (l.foldl (scanRune u) { result := res, current := cur })
      = res ++ (List.modifyHead (fun w => cur ++ w)
          (l.splitOnP (fun r => !alnum u r))).filter (fun w => !w.isEmpty) := by
  induction l generalizing res cur with
  | nil =>
    cases cur with
    | nil => simp [flush, List.splitOnP_nil]
    | cons c cs => simp [flush, List.splitOnP_nil]
  | cons r l ih =>
    rw [List.foldl_cons, List.splitOnP_cons]
    by_cases hr : alnum u r = true
    · have hr2 : (IsLetter u r || IsDigit u r) = true := hr
      have hstep : scanRune u { result := res, current := cur } r
          = { result := res, current := cur ++ [r] } := by
        unfold scanRune
        simp only [hr2, if_true]
      rw [hstep, ih]
      simp only [hr, Bool.not_true, Bool.false_eq_true, if_false]
      rw [filter_modifyHead_append cur _ (splitOnP_ne_nil _ l) r]
    · have hr1 : alnum u r = false := by simpa using hr
      have hr2 : (IsLetter u r || IsDigit u r) = false := hr1
      simp only [hr1, Bool.not_false, if_true, List.modifyHead_cons]
      cases cur with
      | nil =>
        have hstep : scanRune u { result := res, current := [] } r
            = { result := res, current := [] } := by
          unfold scanRune
          simp [hr2]
        rw [hstep, ih]
        have hmod : ∀ l2 : List Runes, List.modifyHead (fun w : Runes => w) l2 = l2 := by
          intro l2; cases l2 <;> simp
        simp [hmod]
      | cons c cs =>
        have hstep : scanRune u { result := res, current := c :: cs } r
            = { result := res ++ [c :: cs], current := [] } := by
          unfold scanRune
          simp [hr2]
        rw [hstep, ih]
        have hmod : ∀ l2 : List Runes, List.modifyHead (fun w : Runes => w) l2 = l2 := by
          intro l2; cases l2 <;> simp
        simp [hmod]

theorem splitByNonAlphanumericUnicode_eq_maximalRuns (u : Tables) (str : Runes) :
    splitByNonAlphanumericUnicode u str = maximalRuns u str := by
  unfold splitByNonAlphanumericUnicode maximalRuns
  rw [flush_foldl_scanRune]
  have hmod : ∀ l2 : List Runes, List.modifyHead (fun w : Runes => w) l2 = l2 := by
    intro l2; cases l2 <;> simp
  simp [hmod]

theorem scanRune_inv (u : Tables) (l : Runes) (s : Splitter)
    (hres : ∀ w ∈ s.result, w ≠ [] ∧ ∀ r ∈ w, alnum u r = true)
    (hcur : ∀ r ∈ s.current, alnum u r = true) :
    (∀ w ∈ (l.foldl (scanRune u) s).result, w ≠ [] ∧ ∀ r ∈ w, alnum u r = true)
      ∧ ∀ r ∈ (l.foldl (scanRune u) s).current, alnum u r = true := by
  induction l generalizing s with
  | nil => exact ⟨hres, hcur⟩
  | cons r l ih =>
    rw [List.foldl_cons]
    apply ih
    · unfold scanRune
      split
      · exact hres
      · split
        · rename_i hlen
          intro w hw
          rcases List.mem_append.1 hw with h | h
          · exact hres w h
          · rw [List.mem_singleton] at h
            subst h
            exact ⟨List.length_pos.1 hlen, hcur⟩
        · exact hres
    · unfold scanRune
      split
      · rename_i hr
        intro r2 h2
        rcases List.mem_append.1 h2 with h | h
        · exact hcur r2 h
        · rw [List.mem_singleton] at h
          subst h
          exact hr
      · split
        · intro r2 h2
          cases h2
        · exact hcur

/-- Every word of the splitter is non-empty and consists of letters and
digits. -/
theorem splitByNonAlphanumericUnicode_mem (u : Tables) (str : Runes) :
    ∀ w ∈ splitByNonAlphanumericUnicode u str, w ≠ [] ∧ ∀ r ∈ w, alnum u r = true := by
  have hinv := scanRune_inv u str { result := [], current := [] }
    (fun w hw => by cases hw) (fun r hr => by cases hr)
  unfold splitByNonAlphanumericUnicode flush
  split
  · rename_i hlen
    intro w hw
    rcases List.mem_append.1 hw with h | h
    · exact hinv.1 w h
    · rw [List.mem_singleton] at h
      subst h
      exact ⟨List.length_pos.1 hlen, hinv.2⟩
  · exact hinv.1

theorem alnum_ascii (u : Tables) (r : Char) (h : r.toNat < 128) :
    alnum u r = alnum asciiTables r := by
  unfold alnum IsLetter IsDigit
  simp only [h, if_true]

theorem forbittenWords_alnum (u : Tables) :
    ∀ S ∈ forbittenWords, S ≠ [] ∧ ∀ r ∈ S, alnum u r = true := by
  have h : ∀ S ∈ forbittenWords,
      S ≠ [] ∧ ∀ r ∈ S, r.toNat < 128 ∧ alnum asciiTables r = true := by decide
  intro S hS
  refine ⟨(h S hS).1, fun r hr => ?_⟩
  rw [alnum_ascii u r ((h S hS).2 r hr).1]
  exact ((h S hS).2 r hr).2

/-- C22: when the stemmer answers a stop word of `forbittenWords` with a stop
word, as the English Snowball stemmer does, `Norm` of each stop word is empty;
and for every phrase and every stemmer, no token that `Norm` returns is in
`forbittenWords`. -/
theorem Norm_stop_words (u : Tables) (stem : Runes → Except GoError Runes)
    (order : List Runes → List Runes) (horder : ∀ l, (order l).Perm l)
    (hstem : ∀ S ∈ forbittenWords, ∀ t, stem S = .ok t → t ∈ forbittenWords) :
    (∀ S ∈ forbittenWords, Norm u stem order S = [])
      ∧ ∀ phrase, ∀ t ∈ Norm u stem order phrase, t ∉ forbittenWords := by
  constructor
  · intro S hS
    rw [List.eq_nil_iff_forall_not_mem]
    intro t ht
    rw [mem_Norm u stem order horder] at ht
    obtain ⟨w, hw, hperm, hcase⟩ := ht
    have hsplit : splitByNonAlphanumericUnicode u S = [S] := by
      have h := splitByNonAlphanumericUnicode_joinSpace u [S] (fun w2 h2 => by
        rw [List.mem_singleton] at h2
        subst h2
        exact forbittenWords_alnum u w2 hS)
      simpa [joinSpace] using h
    rw [hsplit, List.mem_singleton] at hw
    subst hw
    have hmem : t ∈ forbittenWords := by
      rcases hcase with h | ⟨_, h⟩
      · exact hstem w hS t h
      · subst h
        exact hS
    rw [← permissioned_iff, hperm] at hmem
    cases hmem
  · intro phrase t ht hmem
    rw [mem_Norm u stem order horder] at ht
    obtain ⟨w, _, hperm, _⟩ := ht
    rw [← permissioned_iff, hperm] at hmem
    cases hmem

theorem Norm_stop_words_witness :
    (∀ S ∈ forbittenWords, Norm asciiTables sampleStem List.reverse S = [])
      ∧ ∀ phrase, ∀ t ∈ Norm asciiTables sampleStem List.reverse phrase,
          t ∉ forbittenWords :=
  Norm_stop_words asciiTables sampleStem List.reverse (fun l => List.reverse_perm l)
    (by
      have h : ∀ S ∈ forbittenWords, sampleStem S = .ok S := by decide
      intro S hS t ht
      rw [h S hS] at ht
      cases ht
      exact hS)

/-- The stop-word test cases, evaluated with the sample stemmer: every word of
`forbittenWords` is filtered, `hello` is kept. -/
theorem Norm_stop_words_example :
    (∀ S ∈ forbittenWords, Norm asciiTables sampleStem id S = [])
      ∧ Norm asciiTables sampleStem id ['h', 'e', 'l', 'l', 'o'] = [['h', 'e', 'l', 'l', 'o']]
      ∧ Norm asciiTables sampleStem id
          ['t', 'h', 'e', ' ', 'c', 'a', 't', ' ', 'a', 'n', 'd', ' ', 't', 'h', 'e', ' ', 'd', 'o', 'g']
        = [['d', 'o', 'g'], ['c', 'a', 't']] := by
  decide

/-- C23: for every phrase, every stemmer and every order in which the keys of
the map are visited, the list returned by `Norm` has no duplicates. -/
theorem Norm_duplicate_free (u : Tables) (stem : Runes → Except GoError Runes)
    (order : List Runes → List Runes) (phrase : Runes)
    (horder : ∀ l, (order l).Perm l) :
    (Norm u stem order phrase).Nodup :=
  Norm_nodup_of_perm u stem order horder phrase

theorem Norm_duplicate_free_witness :
    (Norm asciiTables sampleStem List.reverse samplePhrase).Nodup :=
  Norm_duplicate_free asciiTables sampleStem List.reverse samplePhrase
    (fun l => List.reverse_perm l)

/-- The sample phrase `"Hello, hello world; the Cat agreed"`, evaluated: the
repeated word `hello` is returned once. -/
theorem Norm_duplicate_example :
    splitByNonAlphanumericUnicode asciiTables samplePhrase
        = [['H', 'e', 'l', 'l', 'o'], ['h', 'e', 'l', 'l', 'o'], ['w', 'o', 'r', 'l', 'd'],
           ['t', 'h', 'e'], ['C', 'a', 't'], ['a', 'g', 'r', 'e', 'e', 'd']]
      ∧ Norm asciiTables sampleStem List.reverse samplePhrase
        = [['h', 'e', 'l', 'l', 'o'], ['w', 'o', 'r', 'l', 'd'], ['c', 'a', 't'],
           ['a', 'g', 'r', 'e']] := by
  decide

theorem toNat_ofNat_ascii (n : Nat) (h : n < 128) : (Char.ofNat n).toNat = n := by
  have hv : n.isValidChar := Or.inl (by omega)
  unfold Char.ofNat
  rw [dif_pos hv]
  simp [Char.ofNatAux, Char.toNat, UInt32.toNat]

theorem alnum_lowercase (u : Tables) (r : Char) (h : 97 ≤ r.toNat ∧ r.toNat ≤ 122) :
    alnum u r = true := by
  have h128 : r.toNat < 128 := by omega
  unfold alnum IsLetter IsDigit
  simp only [h128, if_true]
  simp [h]

theorem ToLower_lowercase (u : Tables) (r : Char) (h : 97 ≤ r.toNat ∧ r.toNat ≤ 122) :
    ToLower u r = r := by
  have h128 : r.toNat < 128 := by omega
  have hup : ¬ (65 ≤ r.toNat ∧ r.toNat ≤ 90) := by omega
  unfold ToLower
  simp only [h128, if_true, if_neg hup]

/-- In the tables without letters above ASCII a White_Space rune is neither a
letter nor a digit. -/
theorem asciiTables_space (r : Char) (hr : IsSpace r = true) : alnum asciiTables r = false := by
  have hmem : r.toNat ∈ [0x09, 0x0a, 0x0b, 0x0c, 0x0d, 0x20, 0x85, 0xa0, 0x1680,
      0x2000, 0x2001, 0x2002, 0x2003, 0x2004, 0x2005, 0x2006, 0x2007, 0x2008, 0x2009,
      0x200a, 0x2028, 0x2029, 0x202f, 0x205f, 0x3000] := by
    simpa [IsSpace] using hr
  unfold alnum IsLetter IsDigit asciiTables
  by_cases h128 : r.toNat < 128
  · simp only [h128, if_true]
    simp only [List.mem_cons, List.mem_singleton, List.not_mem_nil, or_false] at hmem
    have h1 : ¬ (65 ≤ r.toNat ∧ r.toNat ≤ 90) := by omega
    have h2 : ¬ (97 ≤ r.toNat ∧ r.toNat ≤ 122) := by omega
    have h3 : ¬ (48 ≤ r.toNat ∧ r.toNat ≤ 57) := by omega
    simp [h1, h2, h3]
  · simp [h128]

/-- In the tables without letters above ASCII the lower-case mapping keeps
letters and digits such and is idempotent. -/
theorem asciiTables_lower (r : Char) (hr : alnum asciiTables r = true) :
    alnum asciiTables (ToLower asciiTables r) = true
      ∧ ToLower asciiTables (ToLower asciiTables r) = ToLower asciiTables r := by
  by_cases h128 : r.toNat < 128
  · by_cases hup : 65 ≤ r.toNat ∧ r.toNat ≤ 90
    · have hlow : ToLower asciiTables r = Char.ofNat (r.toNat + 32) := by
        unfold ToLower
        simp only [h128, if_true, if_pos hup]
      have hnat : (Char.ofNat (r.toNat + 32)).toNat = r.toNat + 32 :=
        toNat_ofNat_ascii _ (by omega)
      have hrange : 97 ≤ (ToLower asciiTables r).toNat ∧ (ToLower asciiTables r).toNat ≤ 122 := by
        rw [hlow, hnat]
        omega
      exact ⟨alnum_lowercase _ _ hrange, ToLower_lowercase _ _ hrange⟩
    · have hlow : ToLower asciiTables r = r := by
        unfold ToLower
        simp only [h128, if_true, if_neg hup]
      rw [hlow, hlow]
      exact ⟨hr, rfl⟩
  · have hfalse : alnum asciiTables r = false := by
      unfold alnum IsLetter IsDigit asciiTables
      simp [h128]
    rw [hfalse] at hr
    cases hr

/-- The sample stemmer is a suffix stripper: it answers a non-empty word with a
non-empty prefix of the lower-cased word. -/
theorem sampleStem_strips (w : Runes) (hw : w ≠ []) :
    ∃ p s, sampleStem w = .ok (p ++ s) ∧ p ≠ [] ∧ p <+: lowered asciiTables w
      ∧ ∀ r ∈ s, 97 ≤ r.toNat ∧ r.toNat ≤ 122 := by
  unfold sampleStem
  by_cases h1 : lowered asciiTables w = kAgreed
  · refine ⟨kAgre, [], by simp [h1], by decide, ?_, fun r hr => by cases hr⟩
    rw [h1]
    exact ⟨['e', 'd'], rfl⟩
  · by_cases h2 : lowered asciiTables w = kAgre
    · have hne : kAgre ≠ kAgreed := by decide
      refine ⟨kAgr, [], by simp [h2, hne], by decide, ?_, fun r hr => by cases hr⟩
      rw [h2]
      exact ⟨['e'], rfl⟩
    · refine ⟨lowered asciiTables w, [], by simp [h1, h2], ?_, List.prefix_refl _,
        fun r hr => by cases hr⟩
      unfold lowered
      intro h
      exact hw (List.map_eq_nil_iff.1 h)

/-- C24: for every phrase, the splitter returns exactly the maximal runs of
letters and digits of the phrase, in order, each of them non-empty, and `Norm`
returns exactly the stemmer's answers on these runs that are not stop words.
When the stemmer is a suffix stripper, as the English Snowball stemmer is (it
answers a non-empty word of letters and digits with a non-empty prefix of the
lower-cased word followed by ASCII lower-case letters), every token of the
output is non-empty, holds no whitespace, holds only letters and digits, and is
in lower case.  The hypotheses `hclass` and `hlower` are facts of the Unicode
tables: a White_Space rune is neither a letter nor a digit, and the lower-case
mapping keeps letters and digits such and is idempotent. -/
theorem Norm_tokens_alnum (u : Tables) (stem : Runes → Except GoError Runes)
    (order : List Runes → List Runes) (phrase : Runes)
    (horder : ∀ l, (order l).Perm l)
    (hclass : ∀ r, IsSpace r = true → alnum u r = false)
    (hlower : ∀ r, alnum u r = true →
      alnum u (ToLower u r) = true ∧ ToLower u (ToLower u r) = ToLower u r)
    (hstem : ∀ w, w ≠ [] → (∀ r ∈ w, alnum u r = true) →
      ∃ p s, stem w = .ok (p ++ s) ∧ p ≠ [] ∧ p <+: lowered u w
        ∧ ∀ r ∈ s, 97 ≤ r.toNat ∧ r.toNat ≤ 122) :
    splitByNonAlphanumericUnicode u phrase = maximalRuns u phrase
      ∧ (∀ w ∈ splitByNonAlphanumericUnicode u phrase,
          w ≠ [] ∧ ∀ r ∈ w, alnum u r = true)
      ∧ (∀ t, t ∈ Norm u stem order phrase
          ↔ t ∉ forbittenWords ∧ ∃ w ∈ maximalRuns u phrase, stem w = .ok t)
      ∧ ∀ t ∈ Norm u stem order phrase,
          t ≠ []
            ∧ (∀ r ∈ t, IsSpace r = false)
            ∧ (∀ r ∈ t, alnum u r = true)
            ∧ lowered u t = t := by
  have hruns := splitByNonAlphanumericUnicode_eq_maximalRuns u phrase
  have hmem := splitByNonAlphanumericUnicode_mem u phrase
  have hchar : ∀ t, t ∈ Norm u stem order phrase
      ↔ t ∉ forbittenWords ∧ ∃ w ∈ maximalRuns u phrase, stem w = .ok t := by
    intro t
    rw [mem_Norm u stem order horder, hruns]
    constructor
    · rintro ⟨w, hw, hperm, hcase⟩
      have hnot : t ∉ forbittenWords := by
        intro hin
        rw [← permissioned_iff, hperm] at hin
        cases hin
      refine ⟨hnot, w, hw, ?_⟩
      rcases hcase with h | ⟨⟨e, he⟩, _⟩
      · exact h
      · rw [← hruns] at hw
        obtain ⟨p, s, hok, _⟩ := hstem w (hmem w hw).1 (hmem w hw).2
        rw [hok] at he
        cases he
    · rintro ⟨hnot, w, hw, hok⟩
      have hperm : permissioned t = false := by
        cases hp : permissioned t with
        | false => rfl
        | true => exact absurd ((permissioned_iff t).1 hp) hnot
      exact ⟨w, hw, hperm, Or.inl hok⟩
  refine ⟨hruns, hmem, hchar, ?_⟩
  intro t ht
  obtain ⟨_, w, hw, hok⟩ := (hchar t).1 ht
  rw [← hruns] at hw
  obtain ⟨hwne, hwal⟩ := hmem w hw
  obtain ⟨p, s, hps, hpne, hpre, hs⟩ := hstem w hwne hwal
  have ht2 : t = p ++ s := by
    rw [hps] at hok
    cases hok
    rfl
  have hp : ∀ r ∈ p, alnum u r = true ∧ ToLower u r = r := by
    intro r hr
    have hr2 : r ∈ lowered u w := hpre.subset hr
    unfold lowered at hr2
    obtain ⟨r0, hr0, hrr⟩ := List.mem_map.1 hr2
    have h0 := hlower r0 (hwal r0 hr0)
    rw [hrr] at h0
    exact h0
  have hall : ∀ r ∈ t, alnum u r = true ∧ ToLower u r = r := by
    intro r hr
    rw [ht2] at hr
    rcases List.mem_append.1 hr with h | h
    · exact hp r h
    · exact ⟨alnum_lowercase u r (hs r h), ToLower_lowercase u r (hs r h)⟩
  refine ⟨?_, ?_, fun r hr => (hall r hr).1, ?_⟩
  · rw [ht2]
    intro h
    exact hpne (List.append_eq_nil.1 h).1
  · intro r hr
    cases hsp : IsSpace r with
    | false => rfl
    | true =>
      have h1 := hclass r hsp
      rw [(hall r hr).1] at h1
      cases h1
  · unfold lowered
    have hcongr : List.map (ToLower u) t = List.map (fun r => r) t :=
      List.map_congr_left (fun r hr => (hall r hr).2)
    rw [hcongr]
    simp

theorem Norm_tokens_alnum_witness :
    splitByNonAlphanumericUnicode asciiTables samplePhrase
        = maximalRuns asciiTables samplePhrase
      ∧ (∀ w ∈ splitByNonAlphanumericUnicode asciiTables samplePhrase,
          w ≠ [] ∧ ∀ r ∈ w, alnum asciiTables r = true)
      ∧ (∀ t, t ∈ Norm asciiTables sampleStem List.reverse samplePhrase
          ↔ t ∉ forbittenWords
            ∧ ∃ w ∈ maximalRuns asciiTables samplePhrase, sampleStem w = .ok t)
      ∧ ∀ t ∈ Norm asciiTables sampleStem List.reverse samplePhrase,
          t ≠ []
            ∧ (∀ r ∈ t, IsSpace r = false)
            ∧ (∀ r ∈ t, alnum asciiTables r = true)
            ∧ lowered asciiTables t = t :=
  Norm_tokens_alnum asciiTables sampleStem List.reverse samplePhrase
    (fun l => List.reverse_perm l) asciiTables_space asciiTables_lower
    (fun w hw _ => sampleStem_strips w hw)

/-- The splitter test cases in ASCII, evaluated. -/
theorem splitByNonAlphanumericUnicode_example :
    splitByNonAlphanumericUnicode asciiTables ['h', 'i', ',', ' ', 'y', 'o', '!']
        = [['h', 'i'], ['y', 'o']]
      ∧ splitByNonAlphanumericUnicode asciiTables ['a', '1', '-', 'b', '_', 'c', '2']
        = [['a', '1'], ['b'], ['c', '2']]
      ∧ splitByNonAlphanumericUnicode asciiTables [] = []
      ∧ splitByNonAlphanumericUnicode asciiTables ['!', ' ', ',', '.'] = [] := by
  decide

/-- C25 (as stated, refuted): the English Snowball stemmer answers `agreed`
with `agre` and `agre` with `agr`, so `Norm` of the phrase `"agreed"` is
`[agre]`, and `Norm` of that answer joined by spaces is `[agr]`, a different
set of tokens. -/
theorem Norm_not_idempotent :
    sampleStem kAgreed = .ok kAgre
      ∧ sampleStem kAgre = .ok kAgr
      ∧ Norm asciiTables sampleStem id kAgreed = [kAgre]
      ∧ Norm asciiTables sampleStem id (joinSpace (Norm asciiTables sampleStem id kAgreed))
          = [kAgr]
      ∧ kAgre ∉ Norm asciiTables sampleStem id
          (joinSpace (Norm asciiTables sampleStem id kAgreed)) := by
  decide

/-- C25 (amended): for every phrase `P` such that each token of `Norm(P)` is a
non-empty word of letters and digits that the stemmer answers with the token
itself (or fails on), normalizing the tokens of `Norm(P)` joined by single
spaces yields a permutation of `Norm(P)`. -/
theorem Norm_idempotent_on_fixed_stems (u : Tables) (stem : Runes → Except GoError Runes)
    (order order2 : List Runes → List Runes) (phrase : Runes)
    (horder : ∀ l, (order l).Perm l) (horder2 : ∀ l, (order2 l).Perm l)
    (htok : ∀ t ∈ Norm u stem order phrase,
      t ≠ [] ∧ (∀ r ∈ t, alnum u r = true) ∧ (stem t = .ok t ∨ ∃ e, stem t = .error e)) :
    (Norm u stem order2 (joinSpace (Norm u stem order phrase))).Perm
      (Norm u stem order phrase) := by
  rw [List.perm_ext_iff_of_nodup (Norm_nodup_of_perm u stem order2 horder2 _)
    (Norm_nodup_of_perm u stem order horder _)]
  intro t
  rw [mem_Norm u stem order2 horder2,
    splitByNonAlphanumericUnicode_joinSpace u _ (fun w hw => ⟨(htok w hw).1, (htok w hw).2.1⟩)]
  constructor
  · rintro ⟨w, hw, _, hcase⟩
    rcases hcase with h | ⟨_, h⟩
    · rcases (htok w hw).2.2 with h2 | ⟨e, he⟩
      · rw [h2] at h
        cases h
        exact hw
      · rw [he] at h
        cases h
    · subst h
      exact hw
  · intro ht
    have hperm : permissioned t = false := by
      obtain ⟨_, _, hp, _⟩ := (mem_Norm u stem order horder phrase t).1 ht
      exact hp
    refine ⟨t, ht, hperm, ?_⟩
    rcases (htok t ht).2.2 with h2 | he
    · exact Or.inl h2
    · exact Or.inr ⟨he, rfl⟩

theorem Norm_idempotent_on_fixed_stems_witness :
    (Norm asciiTables sampleStem id
        (joinSpace (Norm asciiTables sampleStem List.reverse helloWorld))).Perm
      (Norm asciiTables sampleStem List.reverse helloWorld) :=
  Norm_idempotent_on_fixed_stems asciiTables sampleStem List.reverse id helloWorld
    (fun l => List.reverse_perm l) (fun l => List.Perm.refl l)
    (by
      have h : ∀ t ∈ Norm asciiTables sampleStem List.reverse helloWorld,
          t ≠ [] ∧ (∀ r ∈ t, alnum asciiTables r = true) ∧ sampleStem t = .ok t := by
        decide
      intro t ht
      exact ⟨(h t ht).1, (h t ht).2.1, Or.inl (h t ht).2.2⟩)

/-- The phrase `"hello world"`, evaluated: a second normalization returns the
same two tokens, in the other order of the map keys. -/
theorem Norm_idempotent_example :
    Norm asciiTables sampleStem List.reverse helloWorld
        = [['h', 'e', 'l', 'l', 'o'], ['w', 'o', 'r', 'l', 'd']]
      ∧ Norm asciiTables sampleStem id
          (joinSpace (Norm asciiTables sampleStem List.reverse helloWorld))
        = [['w', 'o', 'r', 'l', 'd'], ['h', 'e', 'l', 'l', 'o']] := by
  decide

end Words

namespace Auth

/-- C4 (amended): for the user map that `New` builds from the administrator
pair `(user, pw)`, `Login name password` issues a token exactly when the pair
is the administrator pair, or the password is empty and the name is not the
administrator's; every other pair gets `ErrUnauthorized`.  The login handler,
the only caller of `Login`, answers 401 to an empty name or password without
calling `Login`, so a login request is answered with a token exactly when name
and password are non-empty and equal the administrator pair, and with 401 for
every other pair. -/
theorem Login_token_iff (user pw : GoString) (ttl now : Int) (name password : GoString) :
    let a : AAA := { users := AList.singleton user pw, tokenTTL := ttl }
    let tok : TokenString :=
      .wellFormed { alg := .HS256, claims := loginClaims a now, signedWith := some secretKey }
    let h := Rest.NewLoginHandler (Login a now) (some { Name := name, Password := password })
    (Login a now name password = .ok tok
        ↔ (name = user ∧ password = pw) ∨ (name ≠ user ∧ password = []))
      ∧ (¬ ((name = user ∧ password = pw) ∨ (name ≠ user ∧ password = []))
        → Login a now name password = .error .ErrUnauthorized)
      ∧ (∀ c ∈ h.loginCalls, c = (name, password) ∧ name ≠ [] ∧ password ≠ [])
      ∧ (h.reply = .token tok
        ↔ name ≠ [] ∧ password ≠ [] ∧ name = user ∧ password = pw)
      ∧ (¬ (name ≠ [] ∧ password ≠ [] ∧ name = user ∧ password = pw)
        → h.reply = .error 401 Rest.msgRequired ∨ h.reply = .error 401 Rest.msgWrongLogin) := by
  intro a tok h
  have hiff := Login_ok_iff user pw ttl now name password
  have hlogin : Login a now name password
      = if (name = user ∧ password = pw) ∨ (name ≠ user ∧ password = []) then .ok tok
        else .error .ErrUnauthorized := by
    by_cases hc : (name = user ∧ password = pw) ∨ (name ≠ user ∧ password = [])
    · rw [if_pos hc]
      have hok := hiff.2 hc
      unfold Login at hok ⊢
      split
      · rename_i hne
        rw [if_pos hne] at hok
        simp [Except.isOk, Except.toBool] at hok
      · rfl
    · rw [if_neg hc]
      have hnot : ¬ (Login a now name password).isOk = true := fun hh => hc (hiff.1 hh)
      unfold Login at hnot ⊢
      split
      · rfl
      · rename_i hne
        rw [if_neg hne] at hnot
        simp [Except.isOk, Except.toBool] at hnot
  have hdef : h = Rest.NewLoginHandler (Login a now) (some { Name := name, Password := password }) :=
    rfl
  unfold Rest.NewLoginHandler at hdef
  simp only [hlogin] at hdef
  refine ⟨?_, ?_, ?_, ?_, ?_⟩
  · rw [hlogin]
    by_cases hc : (name = user ∧ password = pw) ∨ (name ≠ user ∧ password = [])
    · simp [hc]
    · simp [hc]
  · intro hc
    rw [hlogin, if_neg hc]
  · by_cases he : name = [] ∨ password = []
    · rw [if_pos he] at hdef
      rw [hdef]
      intro c hcm
      cases hcm
    · rw [if_neg he] at hdef
      have hn : name ≠ [] := fun e => he (Or.inl e)
      have hp : password ≠ [] := fun e => he (Or.inr e)
      by_cases hc : (name = user ∧ password = pw) ∨ (name ≠ user ∧ password = [])
      · simp only [if_pos hc] at hdef
        rw [hdef]
        intro c hcm
        rw [List.mem_singleton] at hcm
        exact ⟨hcm, hn, hp⟩
      · simp only [if_neg hc, if_true] at hdef
        rw [hdef]
        intro c hcm
        rw [List.mem_singleton] at hcm
        exact ⟨hcm, hn, hp⟩
  · by_cases he : name = [] ∨ password = []
    · rw [if_pos he] at hdef
      rw [hdef]
      constructor
      · intro hh
        cases hh
      · rintro ⟨hn, hp, _, _⟩
        rcases he with he | he
        · exact absurd he hn
        · exact absurd he hp
    · rw [if_neg he] at hdef
      have hn : name ≠ [] := fun e => he (Or.inl e)
      have hp : password ≠ [] := fun e => he (Or.inr e)
      by_cases hc : (name = user ∧ password = pw) ∨ (name ≠ user ∧ password = [])
      · simp only [if_pos hc] at hdef
        rw [hdef]
        constructor
        · intro _
          rcases hc with hc | hc
          · exact ⟨hn, hp, hc.1, hc.2⟩
          · exact absurd hc.2 hp
        · intro _
          rfl
      · simp only [if_neg hc, if_true] at hdef
        rw [hdef]
        constructor
        · intro hh
          cases hh
        · rintro ⟨_, _, h1, h2⟩
          exact absurd (Or.inl ⟨h1, h2⟩) hc
  · intro hnot
    by_cases he : name = [] ∨ password = []
    · rw [if_pos he] at hdef
      rw [hdef]
      exact Or.inl rfl
    · rw [if_neg he] at hdef
      have hn : name ≠ [] := fun e => he (Or.inl e)
      have hp : password ≠ [] := fun e => he (Or.inr e)
      by_cases hc : (name = user ∧ password = pw) ∨ (name ≠ user ∧ password = [])
      · rcases hc with hc | hc
        · exact absurd ⟨hn, hp, hc.1, hc.2⟩ hnot
        · exact absurd hc.2 hp
      · simp only [if_neg hc, if_true] at hdef
        rw [hdef]
        exact Or.inr rfl

/-- The login handler on the value built from `admin`/`secret`, evaluated: the
administrator pair gets a token, `bob` with the empty password is answered 401
without a call of `Login`, and `bob` with a password is answered 401 by
`Login`. -/
theorem NewLoginHandler_example :
    (Rest.NewLoginHandler (Login sampleAAA 0)
        (some { Name := [0x61, 0x64, 0x6d, 0x69, 0x6e],
                Password := [0x73, 0x65, 0x63, 0x72, 0x65, 0x74] })).reply
        = .token (.wellFormed
            { alg := .HS256, claims := loginClaims sampleAAA 0, signedWith := some secretKey })
      ∧ Rest.NewLoginHandler (Login sampleAAA 0) (some { Name := bob, Password := [] })
        = { loginCalls := [], reply := .error 401 Rest.msgRequired }
      ∧ Rest.NewLoginHandler (Login sampleAAA 0) (some { Name := bob, Password := [0x78] })
        = { loginCalls := [(bob, [0x78])], reply := .error 401 Rest.msgWrongLogin }
      ∧ Rest.NewLoginHandler (Login sampleAAA 0) none
        = { loginCalls := [], reply := .error 401 Rest.msgInvalidJSON } := by
  refine ⟨rfl, rfl, rfl, rfl⟩

end Auth

end Yadro
